import Mathlib

/-!
Stencil pipeline of `labs/lab8/stencil_tbb.cpp`.

A shallow embedding of the Gaussian-blur / Prewitt edge detection program.

Modelling conventions.

* `double` arithmetic has two readings.  In the first it is exact arithmetic in a field
  `K`; the `<cmath>` functions `exp`, `sqrt` and the constant `M_PI` are explicit
  arguments (`Real.exp`, `Real.sqrt` and `Real.pi` in the theorems, any stand-in over
  `ℚ` for evaluation), and rounding is not modelled: a theorem about these definitions
  is a statement in exact real arithmetic.  In the second (`Stencil.Binary64`) every
  operation rounds as IEEE 754 binary64 does; where the two readings differ, the
  theorems say so.
* `int` is `Int` (signed overflow is undefined behaviour and not modelled).
* A buffer reached through a pointer (`pixel *`, `double *`) is a total map from
  `Int` offsets to cells; a store is `Function.update`.  Storage that the program
  obtains uninitialised (`malloc`, a local array) is an argument holding its arbitrary
  initial contents.
* `tbb::parallel_for` over `blocked_range<int>(0, n)` whose iterations write disjoint
  cells is read as the sequential loop over `0, 1, ..., n-1`.  The `parallel_for` nested
  in the reduce body of `gaussian_kernel`, whose iterations all update the accumulator
  captured by reference, is a set of tasks with separate loads and stores interleaved
  by a schedule (`rows_parallel_for`); `gaussian_kernel` itself is its execution
  without a race, the accumulation over the whole range starting from the identity.
-/

namespace Stencil

/-- The `pixel` struct: three `double` channels. -/
structure pixel (K : Type) where
  red : K
  green : K
  blue : K

/-- The first `n` iterations `0, 1, ..., n-1` of a loop, threading the state. -/
def loopN {σ : Type} (n : Nat) (body : Nat → σ → σ) (s : σ) : σ :=
  (List.range n).foldl (fun acc k => body k acc) s

/-- The loop `for (int v = lo; v < hi; ++v) body(v)`. -/
def forRange {σ : Type} (lo hi : Int) (body : Int → σ → σ) (s : σ) : σ :=
  loopN (hi - lo).toNat (fun k => body (lo + (k : Int))) s

/-- The loop `for (int x = lo, kx = 0; x <= hi; ++x, ++kx) body(x, kx)`. -/
def forWindow {σ : Type} (lo hi : Int) (body : Int → Int → σ → σ) (s : σ) : σ :=
  loopN (hi + 1 - lo).toNat (fun k => body (lo + (k : Int)) (k : Int)) s

section Source

variable {K : Type} [Field K]

/-- The function `prewittX_kernel` (lines 37-47). -/
def prewittX_kernel (rows cols : Int) (kernel : Int → K) : Int → K :=
  if rows ≠ 3 ∨ cols ≠ 3 then
    kernel
  else
    forRange 0 3 (fun i kernel =>
      let kernel := Function.update kernel (0 + (i * rows)) (-1)
      let kernel := Function.update kernel (1 + (i * rows)) 0
      Function.update kernel (2 + (i * rows)) 1) kernel

/-- The function `prewittY_kernel` (lines 49-59). -/
def prewittY_kernel (rows cols : Int) (kernel : Int → K) : Int → K :=
  if rows ≠ 3 ∨ cols ≠ 3 then
    kernel
  else
    forRange 0 3 (fun i kernel =>
      let kernel := Function.update kernel (i + (0 * rows)) 1
      let kernel := Function.update kernel (i + (1 * rows)) 0
      Function.update kernel (i + (2 * rows)) (-1)) kernel

/-- The working storage of `apply_prewittKs`: the two gradient arrays and the output. -/
structure PrewittState (K : Type) where
  Xedges : Int → K
  Yedges : Int → K
  out : Int → pixel K

/-- The body of the two window loops of `apply_prewittKs` for one window cell
(lines 93-99). -/
def prewitt_window_step (rows cols : Int) (Xkernel Ykernel : Int → K)
    (blurred : Int → pixel K) (out_offset x kx y ky : Int) (st : PrewittState K) :
    PrewittState K :=
  if x ≥ 0 ∧ x < rows ∧ y ≥ 0 ∧ y < cols then
    let blurred_offset := x + (y * rows)
    let k_offset := kx + (ky * 3)
    let intensity :=
      ((blurred blurred_offset).red + (blurred blurred_offset).green
        + (blurred blurred_offset).blue) / 3
    let Xedges := Function.update st.Xedges out_offset
      (st.Xedges out_offset + Xkernel k_offset * intensity)
    let Yedges := Function.update st.Yedges out_offset
      (st.Yedges out_offset + Ykernel k_offset * intensity)
    { st with Xedges := Xedges, Yedges := Yedges }
  else
    st

/-- The body of the row loop of `apply_prewittKs` for output cell `(i, j)`
(lines 89-106). -/
def prewitt_cell (sqrt : K → K) (rows cols : Int) (Xkernel Ykernel : Int → K)
    (blurred : Int → pixel K) (i j : Int) (st : PrewittState K) : PrewittState K :=
  let out_offset := i + (j * rows)
  let st := forWindow (i - 1) (i + 1) (fun x kx st =>
    forWindow (j - 1) (j + 1) (fun y ky st =>
      prewitt_window_step rows cols Xkernel Ykernel blurred out_offset x kx y ky st) st) st
  let outIntensity :=
    sqrt (st.Xedges out_offset * st.Xedges out_offset
      + st.Yedges out_offset * st.Yedges out_offset)
  let out := Function.update st.out out_offset
    { st.out out_offset with red := outIntensity }
  let out := Function.update out out_offset { out out_offset with green := outIntensity }
  let out := Function.update out out_offset { out out_offset with blue := outIntensity }
  { st with out := out }

/-- The function `apply_prewittKs` (lines 61-115).  `Xkmem`, `Ykmem` are the initial
contents of the local kernel arrays and `Xmem`, `Ymem` those of the two `malloc`ed
gradient arrays.  The result is the `out` buffer; `blurred` is only read. -/
def apply_prewittKs (sqrt : K → K) (rows cols : Int) (Xkmem Ykmem Xmem Ymem : Int → K)
    (blurred out : Int → pixel K) : Int → pixel K :=
  let edges := forRange 0 (rows * cols) (fun i (e : (Int → K) × (Int → K)) =>
    (Function.update e.1 i 0, Function.update e.2 i 0)) (Xmem, Ymem)
  let Xkernel := prewittX_kernel 3 3 Xkmem
  let Ykernel := prewittY_kernel 3 3 Ykmem
  let st := forRange 0 cols (fun j st =>
    forRange 0 rows (fun i st =>
      prewitt_cell sqrt rows cols Xkernel Ykernel blurred i j st) st)
    { Xedges := edges.1, Yedges := edges.2, out := out }
  st.out

/-- The `value` that the first loop nest of `gaussian_kernel` computes for cell `(i, j)`
(lines 122-124 and 135-138). -/
def gaussian_value (exp : K → K) (pi : K) (rows cols : Int) (stddev : K) (i j : Int) : K :=
  let denom := 2 * stddev * stddev
  let g_denom := pi * denom
  let g_denom_recip := 1 / g_denom
  let row_dist : K := ((i - Int.tdiv rows 2 : Int) : K)
  let col_dist : K := ((j - Int.tdiv cols 2 : Int) : K)
  let dist_sq := (row_dist * row_dist) + (col_dist * col_dist)
  g_denom_recip * exp ((-dist_sq) / denom)

/-- The function `gaussian_kernel` (lines 121-164).  The state of the first loop nest
is the kernel array together with the running sum `in`. -/
def gaussian_kernel (exp : K → K) (pi : K) (rows cols : Int) (stddev : K)
    (kernel : Int → K) : Int → K :=
  let denom := 2 * stddev * stddev
  let g_denom := pi * denom
  let g_denom_recip := 1 / g_denom
  let acc := forRange 0 cols (fun j acc =>
    forRange 0 rows (fun i (acc : (Int → K) × K) =>
      let row_dist : K := ((i - Int.tdiv rows 2 : Int) : K)
      let col_dist : K := ((j - Int.tdiv cols 2 : Int) : K)
      let dist_sq := (row_dist * row_dist) + (col_dist * col_dist)
      let value := g_denom_recip * exp ((-dist_sq) / denom)
      (Function.update acc.1 (i + (j * rows)) value, acc.2 + value)) acc) (kernel, 0)
  let sum := acc.2
  let recip_sum := 1 / sum
  forRange 0 cols (fun j kernel =>
    forRange 0 rows (fun i kernel =>
      Function.update kernel (i + (j * rows)) (kernel (i + (j * rows)) * recip_sum))
      kernel) acc.1

/-- The body of the two window loops of `apply_stencil` for one window cell
(lines 183-189). -/
def stencil_window_step (rows cols dim : Int) (kernel : Int → K) (inp : Int → pixel K)
    (out_offset x kx y ky : Int) (out : Int → pixel K) : Int → pixel K :=
  if x ≥ 0 ∧ x < rows ∧ y ≥ 0 ∧ y < cols then
    let in_offset := x + (y * rows)
    let k_offset := kx + (ky * dim)
    let out := Function.update out out_offset
      { out out_offset with
        red := (out out_offset).red + kernel k_offset * (inp in_offset).red }
    let out := Function.update out out_offset
      { out out_offset with
        green := (out out_offset).green + kernel k_offset * (inp in_offset).green }
    Function.update out out_offset
      { out out_offset with
        blue := (out out_offset).blue + kernel k_offset * (inp in_offset).blue }
  else
    out

/-- The body of the row loop of `apply_stencil` for output cell `(i, j)`
(lines 179-191). -/
def stencil_cell (radius rows cols dim : Int) (kernel : Int → K) (inp : Int → pixel K)
    (i j : Int) (out : Int → pixel K) : Int → pixel K :=
  let out_offset := i + (j * rows)
  forWindow (i - radius) (i + radius) (fun x kx out =>
    forWindow (j - radius) (j + radius) (fun y ky out =>
      stencil_window_step rows cols dim kernel inp out_offset x kx y ky out) out) out

/-- The stencil loop nest of `apply_stencil` (lines 171-195) for a given kernel array
of dimension `dim = radius*2+1`. -/
def stencil_loop (radius rows cols : Int) (kernel : Int → K) (inp out : Int → pixel K) :
    Int → pixel K :=
  let dim := radius * 2 + 1
  forRange 0 cols (fun j out =>
    forRange 0 rows (fun i out =>
      stencil_cell radius rows cols dim kernel inp i j out) out) out

/-- The function `apply_stencil` (lines 166-196).  `kmem` is the initial content of the
local array `kernel`. -/
def apply_stencil (exp : K → K) (pi : K) (radius : Int) (stddev : K) (rows cols : Int)
    (kmem : Int → K) (inp out : Int → pixel K) : Int → pixel K :=
  let dim := radius * 2 + 1
  let kernel := gaussian_kernel exp pi dim dim stddev kmem
  stencil_loop radius rows cols kernel inp out

/-- The image read by `imread`: for each `(i, j)` the three 8-bit samples of
`image.at<Vec3b>(i, j)`. -/
abbrev Image := Int → Int → Fin 3 → Fin 256

/-- The part of `main` between the two time stamps that computes `outPixels`
(lines 216-255).  `imem`, `bmem`, `omem` are the initial contents of the three
`malloc`ed pixel arrays; the remaining storage arguments are those of `apply_stencil`
and `apply_prewittKs`. -/
def main_outPixels (exp : K → K) (pi : K) (sqrt : K → K) (rows cols : Int) (image : Image)
    (imem bmem omem : Int → pixel K) (kmem Xkmem Ykmem Xmem Ymem : Int → K) :
    Int → pixel K :=
  let imagePixels := forRange 0 cols (fun j px =>
    forRange 0 rows (fun i px =>
      let p := image i j
      Function.update px (i + (j * rows))
        { red := ((p 0).val : K) / 255, green := ((p 1).val : K) / 255,
          blue := ((p 2).val : K) / 255 }) px) imem
  let bo := forRange 0 (rows * cols) (fun i (bo : (Int → pixel K) × (Int → pixel K)) =>
    let blurred := Function.update bo.1 i { bo.1 i with red := 0 }
    let blurred := Function.update blurred i { blurred i with green := 0 }
    let blurred := Function.update blurred i { blurred i with blue := 0 }
    let outPixels := Function.update bo.2 i { bo.2 i with red := 0 }
    let outPixels := Function.update outPixels i { outPixels i with green := 0 }
    let outPixels := Function.update outPixels i { outPixels i with blue := 0 }
    (blurred, outPixels)) (bmem, omem)
  let blurred := apply_stencil exp pi 3 32 rows cols kmem imagePixels bo.1
  apply_prewittKs sqrt rows cols Xkmem Ykmem Xmem Ymem blurred bo.2

/-- The per-cell body of the loop nest of `apply_stencil` (lines 179-191) executed once
for each cell `(i, j)` of `order`, in the order listed: the loop nest under an
arbitrary tiling and scheduling of its index space. -/
def stencil_in_order (radius rows cols : Int) (kernel : Int → K) (inp : Int → pixel K)
    (order : List (Int × Int)) (out : Int → pixel K) : Int → pixel K :=
  let dim := radius * 2 + 1
  order.foldl (fun out p => stencil_cell radius rows cols dim kernel inp p.1 p.2 out) out

/-- The function `apply_stencil` with its loop nest run over the cells in the order
`order`. -/
def apply_stencil_in_order (exp : K → K) (pi : K) (radius : Int) (stddev : K)
    (rows cols : Int) (kmem : Int → K) (inp : Int → pixel K) (order : List (Int × Int))
    (out : Int → pixel K) : Int → pixel K :=
  let dim := radius * 2 + 1
  let kernel := gaussian_kernel exp pi dim dim stddev kmem
  stencil_in_order radius rows cols kernel inp order out

/-- The function `apply_prewittKs` with its gradient loop nest (lines 81-110) run over
the cells in the order `order`. -/
def apply_prewittKs_in_order (sqrt : K → K) (rows cols : Int)
    (Xkmem Ykmem Xmem Ymem : Int → K) (blurred : Int → pixel K)
    (order : List (Int × Int)) (out : Int → pixel K) : Int → pixel K :=
  let edges := forRange 0 (rows * cols) (fun i (e : (Int → K) × (Int → K)) =>
    (Function.update e.1 i 0, Function.update e.2 i 0)) (Xmem, Ymem)
  let Xkernel := prewittX_kernel 3 3 Xkmem
  let Ykernel := prewittY_kernel 3 3 Ykmem
  let st := order.foldl (fun st p =>
      prewitt_cell sqrt rows cols Xkernel Ykernel blurred p.1 p.2 st)
    { Xedges := edges.1, Yedges := edges.2, out := out }
  st.out

/-- A run of `tbb::parallel_reduce` over a range of columns: the range is split into
sub-ranges (`leaf lo hi` stands for `[lo, hi)`), the body is run on each sub-range
starting from the identity, and the partial results are joined pairwise. -/
inductive Reduction where
  | leaf (lo hi : Int) : Reduction
  | join (l r : Reduction) : Reduction

/-- The sub-ranges of a reduction, left to right. -/
def Reduction.blocks : Reduction → List (Int × Int)
  | Reduction.leaf lo hi => [(lo, hi)]
  | Reduction.join l r => l.blocks ++ r.blocks

/-- Whether a list of sub-ranges is `[lo, c1), [c1, c2), ..., [cn, hi)`: contiguous blocks
that partition `[lo, hi)`. -/
def contiguous (lo hi : Int) : List (Int × Int) → Bool
  | [] => decide (lo = hi)
  | b :: bs => decide (b.1 = lo) && decide (lo ≤ b.2) && contiguous b.2 hi bs

/-- A task of the `tbb::parallel_for` nested in the body of the `parallel_reduce` of
`gaussian_kernel` (lines 131-142): the rows `[i, stop)` it still has to traverse and,
between the read and the write of `in += value` (line 140), the value of `in` that it
has read. -/
structure RowTask (K : Type) where
  i : Int
  stop : Int
  pending : Option K

/-- The storage shared by the tasks of one nested `parallel_for`: the kernel array, the
accumulator `in`, which the lambda captures by reference (line 133), and the tasks. -/
structure RowTasks (K : Type) where
  kernel : Int → K
  acc : K
  tasks : List (RowTask K)

/-- Whether every task has traversed its sub-range. -/
def RowTasks.finished (st : RowTasks K) : Bool :=
  st.tasks.all (fun task => decide (task.stop ≤ task.i) && task.pending.isNone)

/-- One step of task number `t` of the nested `parallel_for` on column `j`.  A task with
rows left first computes `value`, stores it into the kernel array (line 139) and reads
`in`; in its next step it writes `in` with the value it read plus `value` and moves to
its next row.  The update `in += value` (line 140) is not atomic: other tasks may step
between the read and the write.  A finished or absent task does nothing. -/
def row_task_step (exp : K → K) (pi : K) (rows cols : Int) (stddev : K) (j : Int)
    (t : Nat) (st : RowTasks K) : RowTasks K :=
  let denom := 2 * stddev * stddev
  let g_denom := pi * denom
  let g_denom_recip := 1 / g_denom
  match st.tasks.get? t with
  | none => st
  | some task =>
    if task.i < task.stop then
      let i := task.i
      let row_dist : K := ((i - Int.tdiv rows 2 : Int) : K)
      let col_dist : K := ((j - Int.tdiv cols 2 : Int) : K)
      let dist_sq := (row_dist * row_dist) + (col_dist * col_dist)
      let value := g_denom_recip * exp ((-dist_sq) / denom)
      match task.pending with
      | none =>
        { kernel := Function.update st.kernel (i + (j * rows)) value
          acc := st.acc
          tasks := st.tasks.set t { i := i, stop := task.stop, pending := some st.acc } }
      | some r =>
        { kernel := st.kernel
          acc := r + value
          tasks := st.tasks.set t { i := i + 1, stop := task.stop, pending := none } }
    else
      st

/-- The nested `tbb::parallel_for` over `blocked_range<int>(0, rows)` for column `j`
(lines 131-142): the range is split into the sub-ranges `split`, one task each, and the
steps of the tasks are interleaved in the order `schedule`, a list of task numbers.  It
is entered with the kernel array and the value of `in`. -/
def rows_parallel_for (exp : K → K) (pi : K) (rows cols : Int) (stddev : K) (j : Int)
    (split : List (Int × Int)) (schedule : List Nat) (acc : (Int → K) × K) : RowTasks K :=
  schedule.foldl (fun st t => row_task_step exp pi rows cols stddev j t st)
    { kernel := acc.1
      acc := acc.2
      tasks := split.map (fun r => { i := r.1, stop := r.2, pending := none }) }

/-- The execution of the nested `parallel_for` in which the range of rows is not split:
one task traverses `[0, rows)`, two steps a row. -/
def unsplit (rows : Int) : Int → List (Int × Int) × List Nat :=
  fun _ => ([(0, rows)], List.replicate (2 * rows.toNat) 0)

/-- The body of the `parallel_reduce` of `gaussian_kernel` (lines 129-145) on the
sub-range `[lo, hi)` of columns, entered with the kernel array and the value `in`;
`inner j` is the split and the schedule of the nested `parallel_for` of column `j`. -/
def gaussian_reduce_body (exp : K → K) (pi : K) (rows cols : Int) (stddev : K)
    (inner : Int → List (Int × Int) × List Nat) (lo hi : Int) (acc : (Int → K) × K) :
    (Int → K) × K :=
  forRange lo hi (fun j acc =>
    let st := rows_parallel_for exp pi rows cols stddev j (inner j).1 (inner j).2 acc
    (st.kernel, st.acc)) acc

/-- The `parallel_reduce` of `gaussian_kernel` (lines 126-147) run as the reduction `t`:
every sub-range is accumulated from the identity `0.0` and the partial sums are merged
with `std::plus`.  The kernel array is threaded through the sub-ranges. -/
def gaussian_reduce (exp : K → K) (pi : K) (rows cols : Int) (stddev : K)
    (inner : Int → List (Int × Int) × List Nat) : Reduction → (Int → K) → (Int → K) × K
  | Reduction.leaf lo hi, kernel =>
      gaussian_reduce_body exp pi rows cols stddev inner lo hi (kernel, 0)
  | Reduction.join l r, kernel =>
      let a := gaussian_reduce exp pi rows cols stddev inner l kernel
      let b := gaussian_reduce exp pi rows cols stddev inner r a.1
      (b.1, a.2 + b.2)

/-- The function `gaussian_kernel` with its `parallel_reduce` run as the reduction `t`
and its nested `parallel_for`s run as `inner`. -/
def gaussian_kernel_reduced (exp : K → K) (pi : K) (rows cols : Int) (stddev : K)
    (inner : Int → List (Int × Int) × List Nat) (t : Reduction) (kernel : Int → K) :
    Int → K :=
  let acc := gaussian_reduce exp pi rows cols stddev inner t kernel
  let sum := acc.2
  let recip_sum := 1 / sum
  forRange 0 cols (fun j kernel =>
    forRange 0 rows (fun i kernel =>
      Function.update kernel (i + (j * rows)) (kernel (i + (j * rows)) * recip_sum))
      kernel) acc.1

/-- The body of the row loop of `apply_stencil` for output cell `(i, j)` when the
function is called with `in == out`: every read `in[in_offset]` is a read of the current
content of the one shared buffer. -/
def stencil_cell_inplace (radius rows cols dim : Int) (kernel : Int → K)
    (i j : Int) (buf : Int → pixel K) : Int → pixel K :=
  let out_offset := i + (j * rows)
  forWindow (i - radius) (i + radius) (fun x kx buf =>
    forWindow (j - radius) (j + radius) (fun y ky buf =>
      stencil_window_step rows cols dim kernel buf out_offset x kx y ky buf) buf) buf

/-- The function `apply_stencil` called with `in == out` (one shared buffer `buf`). -/
def apply_stencil_inplace (exp : K → K) (pi : K) (radius : Int) (stddev : K)
    (rows cols : Int) (kmem : Int → K) (buf : Int → pixel K) : Int → pixel K :=
  let dim := radius * 2 + 1
  let kernel := gaussian_kernel exp pi dim dim stddev kmem
  forRange 0 cols (fun j buf =>
    forRange 0 rows (fun i buf =>
      stencil_cell_inplace radius rows cols dim kernel i j buf) buf) buf

/-- The body of the row loop of `apply_prewittKs` for output cell `(i, j)` when the
function is called with `blurred == out`: every read `blurred[blurred_offset]` is a read
of the current content of the shared buffer, held in the `out` field of the state. -/
def prewitt_cell_inplace (sqrt : K → K) (rows cols : Int) (Xkernel Ykernel : Int → K)
    (i j : Int) (st : PrewittState K) : PrewittState K :=
  let out_offset := i + (j * rows)
  let st := forWindow (i - 1) (i + 1) (fun x kx st =>
    forWindow (j - 1) (j + 1) (fun y ky st =>
      prewitt_window_step rows cols Xkernel Ykernel st.out out_offset x kx y ky st) st) st
  let outIntensity :=
    sqrt (st.Xedges out_offset * st.Xedges out_offset
      + st.Yedges out_offset * st.Yedges out_offset)
  let out := Function.update st.out out_offset
    { st.out out_offset with red := outIntensity }
  let out := Function.update out out_offset { out out_offset with green := outIntensity }
  let out := Function.update out out_offset { out out_offset with blue := outIntensity }
  { st with out := out }

/-- The function `apply_prewittKs` called with `blurred == out` (one shared buffer
`buf`). -/
def apply_prewittKs_inplace (sqrt : K → K) (rows cols : Int)
    (Xkmem Ykmem Xmem Ymem : Int → K) (buf : Int → pixel K) : Int → pixel K :=
  let edges := forRange 0 (rows * cols) (fun i (e : (Int → K) × (Int → K)) =>
    (Function.update e.1 i 0, Function.update e.2 i 0)) (Xmem, Ymem)
  let Xkernel := prewittX_kernel 3 3 Xkmem
  let Ykernel := prewittY_kernel 3 3 Ykmem
  let st := forRange 0 cols (fun j st =>
    forRange 0 rows (fun i st =>
      prewitt_cell_inplace sqrt rows cols Xkernel Ykernel i j st) st)
    { Xedges := edges.1, Yedges := edges.2, out := buf }
  st.out

end Source

/-- An array access: an offset into one of the `rows*cols` buffers (`in`, `out`,
`blurred`, `Xedges`, `Yedges`) or into a kernel array. -/
inductive Access where
  | buffer (offset : Int) : Access
  | kernel (offset : Int) : Access
  deriving DecidableEq

/-- The offsets that the loop nest of `apply_stencil` (lines 178-192) computes and
uses, in program order: for every window cell that passes the guard, `in_offset`,
`k_offset` and `out_offset`. -/
def stencil_accesses (radius rows cols : Int) : List Access :=
  let dim := radius * 2 + 1
  forRange 0 cols (fun j tr =>
    forRange 0 rows (fun i tr =>
      let out_offset := i + (j * rows)
      forWindow (i - radius) (i + radius) (fun x kx tr =>
        forWindow (j - radius) (j + radius) (fun y ky tr =>
          if x ≥ 0 ∧ x < rows ∧ y ≥ 0 ∧ y < cols then
            let in_offset := x + (y * rows)
            let k_offset := kx + (ky * dim)
            tr ++ [Access.buffer out_offset, Access.kernel k_offset,
              Access.buffer in_offset]
          else tr) tr) tr) tr) []

/-- The offsets that the gradient loop nest of `apply_prewittKs` (lines 88-106)
computes and uses, in program order: for every window cell that passes the guard,
`blurred_offset`, `k_offset` and `out_offset`, and for every cell the `out_offset`
of the final stores. -/
def prewitt_accesses (rows cols : Int) : List Access :=
  forRange 0 cols (fun j tr =>
    forRange 0 rows (fun i tr =>
      let out_offset := i + (j * rows)
      let tr := forWindow (i - 1) (i + 1) (fun x kx tr =>
        forWindow (j - 1) (j + 1) (fun y ky tr =>
          if x ≥ 0 ∧ x < rows ∧ y ≥ 0 ∧ y < cols then
            let blurred_offset := x + (y * rows)
            let k_offset := kx + (ky * 3)
            tr ++ [Access.buffer blurred_offset, Access.kernel k_offset,
              Access.buffer out_offset]
          else tr) tr) tr
      tr ++ [Access.buffer out_offset]) tr) []

section Output

variable {K : Type} [LinearOrderedField K] [FloorRing K]

/-- The three values `floor(outPixels[offset].c * 255.0)` that `main` passes to the
`Vec3b` constructor for `dest.at<Vec3b>(i, j)` (lines 268-271), before their narrowing
to `uchar`. -/
def main_dest (exp : K → K) (pi : K) (sqrt : K → K) (rows cols : Int) (image : Image)
    (imem bmem omem : Int → pixel K) (kmem Xkmem Ykmem Xmem Ymem : Int → K)
    (i j : Int) : Int × Int × Int :=
  let outPixels :=
    main_outPixels exp pi sqrt rows cols image imem bmem omem kmem Xkmem Ykmem Xmem Ymem
  let offset := i + (j * rows)
  (Int.floor ((outPixels offset).red * 255),
   Int.floor ((outPixels offset).green * 255),
   Int.floor ((outPixels offset).blue * 255))

/-- What `imread(argv[1], CV_LOAD_IMAGE_COLOR)` returned when its `data` is not null:
the dimensions and the samples of the decoded image. -/
structure Decoded where
  rows : Int
  cols : Int
  image : Image

/-- What a run of `main` leaves behind: the value it returns, the output array of the
two stencil stages when they ran, and the image handed to `imwrite("out.jpg", ...)`
when it was called. -/
structure MainResult (K : Type) where
  code : Int
  outPixels : Option (Int → pixel K)
  out_jpg : Option (Int → Int → Int × Int × Int)

/-- The function `main` (lines 198-286).  `imread` is the result of decoding `argv[1]`
(`none` when `image.data` is null); it is consulted only when `argc == 2`. -/
def main (exp : K → K) (pi : K) (sqrt : K → K) (argc : Int) (imread : Option Decoded)
    (imem bmem omem : Int → pixel K) (kmem Xkmem Ykmem Xmem Ymem : Int → K) :
    MainResult K :=
  if argc ≠ 2 then
    { code := 1, outPixels := none, out_jpg := none }
  else
    match imread with
    | none => { code := -1, outPixels := none, out_jpg := none }
    | some d =>
      { code := 0
        outPixels := some (main_outPixels exp pi sqrt d.rows d.cols d.image
          imem bmem omem kmem Xkmem Ykmem Xmem Ymem)
        out_jpg := some (fun i j => main_dest exp pi sqrt d.rows d.cols d.image
          imem bmem omem kmem Xkmem Ykmem Xmem Ymem i j) }

end Output

end Stencil

/-! Matrix multiplication of `labs/lab7/matmul.c`.  The macros `N`, `P`, `M` all expand to
`ORDER`; the functions take the order as the argument `n` and `main` passes `ORDER`.  An
array `double X[ORDER][ORDER]` is a map from index pairs to cells;
`#pragma omp parallel for` loops are read sequentially.  The automatic array `B_` of
`matrix_multiply` needs `ORDER*ORDER*8` bytes of stack: a call is made with the number of
bytes of stack available and has no result when the array does not fit. -/

namespace Matmul

open Stencil (forRange)

/-- The macro `ORDER`. -/
def ORDER : Int := 2000

section Source

variable {K : Type} [LinearOrderedField K]

/-- The macro `AVAL`. -/
def AVAL : K := 3

/-- The macro `BVAL`. -/
def BVAL : K := 5

/-- The macro `TOL`: the `double` nearest the decimal constant `0.001`, which is
`1152921504606847 / 2^60`. -/
def TOL : K := 1152921504606847 / 1152921504606846976

/-- The global arrays `A`, `B` and `C`. -/
structure Globals (K : Type) where
  A : Int × Int → K
  B : Int × Int → K
  C : Int × Int → K

/-- The function `matrix_init` (lines 30-53). -/
def matrix_init (n : Int) (g : Globals K) : Globals K :=
  let A := forRange 0 n (fun i A =>
    forRange 0 n (fun j A => Function.update A (i, j) AVAL) A) g.A
  let B := forRange 0 n (fun i B =>
    forRange 0 n (fun j B => Function.update B (i, j) BVAL) B) g.B
  let C := forRange 0 n (fun i C =>
    forRange 0 n (fun j C => Function.update C (i, j) 0) C) g.C
  { A := A, B := B, C := C }

/-- The function `transpose` (lines 66-73); the result is the array `Mnew`. -/
def transpose (n : Int) (M1 Mnew : Int × Int → K) : Int × Int → K :=
  forRange 0 n (fun i Mnew =>
    forRange 0 n (fun j Mnew => Function.update Mnew (j, i) (M1 (i, j))) Mnew) Mnew

/-- The function `copy` (lines 75-82); the result is the array `M2`. -/
def copy (n : Int) (M1 M2 : Int × Int → K) : Int × Int → K :=
  forRange 0 n (fun i M2 =>
    forRange 0 n (fun j M2 => Function.update M2 (i, j) (M1 (i, j))) M2) M2

/-- The function `matrix_multiply` (lines 85-118), without its timing.  `Bmem` is the
initial content of the local array `B_`. -/
def matrix_multiply (n : Int) (Bmem : Int × Int → K) (g : Globals K) : Globals K :=
  let B_ := transpose n g.B Bmem
  let B := copy n B_ g.B
  let C := forRange 0 n (fun i C =>
    forRange 0 n (fun j C =>
      forRange 0 n (fun k C =>
        Function.update C (i, j) (C (i, j) + g.A (i, k) * B (j, k))) C) C) g.C
  { A := g.A, B := B, C := C }

/-- The function `matrix_multiply_serial` (lines 121-142), without its timing. -/
def matrix_multiply_serial (n : Int) (g : Globals K) : Globals K :=
  let C := forRange 0 n (fun i C =>
    forRange 0 n (fun j C =>
      forRange 0 n (fun k C =>
        Function.update C (i, j) (C (i, j) + g.A (i, k) * g.B (k, j))) C) C) g.C
  { A := g.A, B := g.B, C := C }

/-- The value of `ee` at the end of the loop nest of `check_result` (lines 149-158). -/
def check_error (n : Int) (g : Globals K) : K :=
  let v : K := AVAL * BVAL * (n : K)
  forRange 0 n (fun i ee =>
    forRange 0 n (fun j ee =>
      let e := g.C (i, j) - v
      ee + e * e) ee) 0

/-- The function `check_result` (lines 146-165). -/
def check_result (n : Int) (g : Globals K) : Int :=
  let ee := check_error n g
  if ee > TOL then 0 else 1

/-- The automatic storage, in bytes, that a call of `matrix_multiply` needs for its local
array `double B_[ORDER][ORDER]` (line 91); a `double` occupies 8 bytes. -/
def matrix_multiply_frame (n : Int) : Int := n * n * 8

/-- A call of `matrix_multiply` made with `stack` bytes of stack left: when the local
array `B_` does not fit, the call overruns the stack and the process is killed (`none`);
otherwise it returns what `matrix_multiply` computes. -/
def matrix_multiply_call (stack n : Int) (Bmem : Int × Int → K) (g : Globals K) :
    Option (Globals K) :=
  if matrix_multiply_frame n ≤ stack then some (matrix_multiply n Bmem g) else none

/-- The two values of `correct` in `main` (lines 174-178 and 196-200) when the program
runs with `stack` bytes of stack: the check after `matrix_init` and
`matrix_multiply_serial`, and the check after `matrix_init` and `matrix_multiply`, which
is `none` when the process is killed inside `matrix_multiply`. -/
def main_correct (stack : Int) (Bmem : Int × Int → K) (g : Globals K) : Int × Option Int :=
  let g := matrix_init ORDER g
  let g := matrix_multiply_serial ORDER g
  let correct1 := check_result ORDER g
  let g := matrix_init ORDER g
  match matrix_multiply_call stack ORDER Bmem g with
  | none => (correct1, none)
  | some g => (correct1, some (check_result ORDER g))

end Source

end Matmul

/-! PIN generation of `labs/lab5/cilk_pass.c`, `mp_pass.c` and `tbb_pass.cpp` (the function
`genpass` is the same in the three files).  `long` is `Int`; a `char` buffer is a map
from offsets to characters. -/

namespace Pass

open Stencil (loopN forRange)

/-- The string `chars`. -/
def chars : List Char := "0123456789".toList

/-- The read `chars[idx]`: a character of the string, its terminating NUL at
`idx = 10`; an index outside the array is read as NUL. -/
def chars_at (idx : Int) : Char :=
  if 0 ≤ idx then chars.getD idx.toNat (Char.ofNat 0) else Char.ofNat 0

/-- The loop `for (int i = hi; i >= lo; i--) body(i)`. -/
def forDown {σ : Type} (hi lo : Int) (body : Int → σ → σ) (s : σ) : σ :=
  loopN (hi + 1 - lo).toNat (fun k => body (hi - (k : Int))) s

/-- The function `genpass` (lines 26-35 of `cilk_pass.c`); the result is `passbuff`. -/
def genpass (passnum : Int) (passbuff : Int → Char) : Int → Char :=
  let passbuff := Function.update passbuff 8 (Char.ofNat 0)
  let symcount : Int := (chars.length : Int)
  let st := forDown 7 0 (fun i (st : Int × (Int → Char)) =>
    let charidx := Int.tmod st.1 symcount
    let passnum := Int.tdiv st.1 symcount
    (passnum, Function.update st.2 i (chars_at charidx))) (passnum, passbuff)
  st.2

/-- The macro `SEARCH_SPACE`. -/
def SEARCH_SPACE : Int := 99999999

/-- The state of a search: the shared flag `notfound`, the buffer `passmatch`, and the
record of the candidates handed to `genpass` so far, in the order of the calls. -/
structure Search where
  notfound : Int
  passmatch : Int → Char
  tried : List Int

/-- The body of the three search loops for candidate `i` (lines 49-55 of `cilk_pass.c`,
49-56 of `mp_pass.c`, 48-55 of `tbb_pass.cpp`); `test` stands for
`test(passhash, passmatch)` as a function of the content of `passmatch`. -/
def search_body (test : (Int → Char) → Int) (i : Int) (st : Search) : Search :=
  if st.notfound ≠ 0 then
    let passmatch := genpass i st.passmatch
    { notfound := test passmatch, passmatch := passmatch, tried := st.tried ++ [i] }
  else
    st

/-- The search of `main` in `cilk_pass.c` (lines 44-56), its `cilk_for` read
sequentially; `passmatch` is declared inside the loop body, `pmem` is its content on
entry. -/
def cilk_search (test : (Int → Char) → Int) (pmem : Int → Char) : Search :=
  forRange 0 (SEARCH_SPACE + 1) (fun currpass st =>
    search_body test currpass { st with passmatch := pmem })
    { notfound := 1, passmatch := pmem, tried := [] }

/-- The search of `main` in `mp_pass.c` (lines 42-57), its `omp parallel for` read
sequentially; `pmem` is the initial content of `passmatch`. -/
def mp_search (test : (Int → Char) → Int) (pmem : Int → Char) : Search :=
  forRange 0 (SEARCH_SPACE + 1) (fun currpass st => search_body test currpass st)
    { notfound := 1, passmatch := pmem, tried := [] }

/-- The call `SpaceSearcher::operator()` on the sub-range `r = [r.1, r.2)` (lines 44-56
of `tbb_pass.cpp`): the loop runs `i` from `r.begin()` up to and including `r.end()`;
`pmem` is the content of the local `passmatch` on entry. -/
def SpaceSearcher_call (test : (Int → Char) → Int) (pmem : Int → Char) (r : Int × Int)
    (st : Search) : Search :=
  forRange r.1 (r.2 + 1) (fun i st => search_body test i st) { st with passmatch := pmem }

/-- The search of `main` in `tbb_pass.cpp` (lines 70-73): `parallel_for` hands the
sub-ranges `blocks` into which it split `blocked_range<long>(0, SEARCH_SPACE)` to
`SpaceSearcher::operator()`, read here one after the other. -/
def tbb_search (test : (Int → Char) → Int) (pmem : Int → Char)
    (blocks : List (Int × Int)) : Search :=
  blocks.foldl (fun st r => SpaceSearcher_call test pmem r st)
    { notfound := 1, passmatch := pmem, tried := [] }

end Pass

/-! The functions of `labs/lab8/stencil_tbb.cpp` once more, on IEEE 754 binary64 instead
of an exact field: every arithmetic operation rounds its exact result to the nearest
`double`, ties to even, with gradual underflow, overflow to infinity and not-a-number.
Every operation is rounded on its own (no fused multiply-add).  The loops and index
computations are those of the definitions above.  `exp` is the function `exp` of
`<cmath>`, an argument as above: what a theorem needs of it is a hypothesis of the
theorem (that it is 1 at 0, that it underflows to 0 from `-746` downwards, or the values
it returns at the arguments of one kernel, tabulated below); `sqrt` is correctly rounded,
as IEEE 754 requires. -/

namespace Stencil

namespace Binary64

/-- A value of type `double` (IEEE 754 binary64): not-a-number, an infinity, or a finite
number, held by the rational it denotes.  The two zeros are one value; the functions
below divide only by `denom`, `g_denom`, `sum` and positive constants, none of which can
be the negative zero, so the sign of a zero is never observed. -/
inductive F64 where
  | nan : F64
  | inf (negative : Bool) : F64
  | fin (q : ℚ) : F64
deriving DecidableEq

/-- The number of binary digits of `n` (`fuel` bounds the recursion). -/
def size : Nat → Nat → Nat
  | 0, _ => 0
  | fuel + 1, n => if n = 0 then 0 else size fuel (n / 2) + 1

/-- The integer `floor (log2 (a / b))` for positive `a` and `b`. -/
def ilog2 (a b : Nat) : Int :=
  let l : Int := (size a a : Int) - (size b b : Int)
  if 0 ≤ l then (if b * 2 ^ l.toNat ≤ a then l else l - 1)
  else (if b ≤ a * 2 ^ (-l).toNat then l else l - 1)

/-- The rational `2 ^ e`. -/
def pow2 (e : Int) : ℚ :=
  if 0 ≤ e then ((2 ^ e.toNat : Nat) : ℚ) else 1 / ((2 ^ (-e).toNat : Nat) : ℚ)

/-- The integer nearest to `s ≥ 0`, the even one of the two when `s` lies half-way. -/
def round_even (s : ℚ) : Int :=
  let f : Int := s.num / (s.den : Int)
  let r : ℚ := s - (f : ℚ)
  if r < 1 / 2 then f else if 1 / 2 < r then f + 1 else if f % 2 = 0 then f else f + 1

/-- Rounding of a real result to binary64, to nearest with ties to even: 53 significant
bits, least exponent `2^-1074` (gradual underflow), overflow to infinity from `2^1024`. -/
def rnd (q : ℚ) : F64 :=
  if q = 0 then F64.fin 0
  else
    let a : ℚ := |q|
    let e : Int := max (ilog2 a.num.natAbs a.den - 52) (-1074)
    let m : Int := round_even (a / pow2 e)
    let r : ℚ := (m : ℚ) * pow2 e
    if pow2 1024 ≤ r then F64.inf (decide (q < 0))
    else F64.fin (if q < 0 then -r else r)

/-- The integer square root, by Newton iteration from above (`fuel` bounds the steps). -/
def isqrt_from : Nat → Nat → Nat → Nat
  | 0, _, x => x
  | fuel + 1, n, x =>
    let y := (x + n / x) / 2
    if y < x then isqrt_from fuel n y else x

/-- The integer `floor (sqrt n)`. -/
def isqrt (n : Nat) : Nat :=
  if n = 0 then 0 else isqrt_from 200 n (2 ^ (size n n / 2 + 1))

/-- Negation. -/
def neg : F64 → F64
  | F64.nan => F64.nan
  | F64.inf s => F64.inf (!s)
  | F64.fin q => F64.fin (-q)

/-- Addition. -/
def add : F64 → F64 → F64
  | F64.nan, _ => F64.nan
  | _, F64.nan => F64.nan
  | F64.inf s, F64.inf t => if s = t then F64.inf s else F64.nan
  | F64.inf s, F64.fin _ => F64.inf s
  | F64.fin _, F64.inf t => F64.inf t
  | F64.fin a, F64.fin b => rnd (a + b)

/-- Multiplication. -/
def mul : F64 → F64 → F64
  | F64.nan, _ => F64.nan
  | _, F64.nan => F64.nan
  | F64.inf s, F64.inf t => F64.inf (xor s t)
  | F64.inf s, F64.fin b => if b = 0 then F64.nan else F64.inf (xor s (decide (b < 0)))
  | F64.fin a, F64.inf t => if a = 0 then F64.nan else F64.inf (xor (decide (a < 0)) t)
  | F64.fin a, F64.fin b => rnd (a * b)

/-- Division; a zero divisor is read as the positive zero. -/
def div : F64 → F64 → F64
  | F64.nan, _ => F64.nan
  | _, F64.nan => F64.nan
  | F64.inf _, F64.inf _ => F64.nan
  | F64.inf s, F64.fin b => F64.inf (xor s (decide (b < 0)))
  | F64.fin _, F64.inf _ => F64.fin 0
  | F64.fin a, F64.fin b =>
    if b = 0 then (if a = 0 then F64.nan else F64.inf (decide (a < 0))) else rnd (a / b)

/-- The function `sqrt`, correctly rounded. -/
def sqrt : F64 → F64
  | F64.nan => F64.nan
  | F64.inf s => if s then F64.nan else F64.inf false
  | F64.fin q =>
    if q < 0 then F64.nan
    else if q = 0 then F64.fin 0
    else
      let e : Int := ilog2 q.num.natAbs q.den / 2 - 52
      let x : ℚ := q / pow2 (2 * e)
      let n : Int := (isqrt (x.num / (x.den : Int)).toNat : Int)
      let mid : ℚ := (n : ℚ) * (n : ℚ) + (n : ℚ) + 1 / 4
      let m : Int :=
        if x < mid then n else if mid < x then n + 1 else if n % 2 = 0 then n else n + 1
      F64.fin ((m : ℚ) * pow2 e)

/-- The conversion of an `int` to `double`. -/
def ofInt (n : Int) : F64 := rnd (n : ℚ)

/-- The comparison `<`. -/
def lt : F64 → F64 → Bool
  | F64.nan, _ => false
  | _, F64.nan => false
  | F64.inf s, F64.inf t => s && !t
  | F64.inf s, F64.fin _ => s
  | F64.fin _, F64.inf t => !t
  | F64.fin a, F64.fin b => decide (a < b)

/-- The comparison `<=`. -/
def le : F64 → F64 → Bool
  | F64.nan, _ => false
  | _, F64.nan => false
  | F64.inf s, F64.inf t => s || !t
  | F64.inf s, F64.fin _ => s
  | F64.fin _, F64.inf t => !t
  | F64.fin a, F64.fin b => decide (a ≤ b)

/-- The constant `M_PI` of `math.h`: `0x1.921fb54442d18p+1`. -/
def M_PI : F64 := F64.fin (884279719003555 / 281474976710656)

/-- The operator `+` on `double`. -/
instance : Add F64 := ⟨add⟩

/-- The operator `*` on `double`. -/
instance : Mul F64 := ⟨mul⟩

/-- The operator `/` on `double`. -/
instance : Div F64 := ⟨div⟩

/-- The unary operator `-` on `double`. -/
instance : Neg F64 := ⟨neg⟩

/-- The constants `0.0`, `1.0`, `2.0`, `3.0`, ... -/
instance (n : Nat) : OfNat F64 n := ⟨F64.fin (n : ℚ)⟩

/-- The implicit conversion of an `int` expression to `double`. -/
instance : IntCast F64 := ⟨ofInt⟩

/-- The function `prewittX_kernel` (lines 37-47) on binary64. -/
def prewittX_kernel (rows cols : Int) (kernel : Int → F64) : Int → F64 :=
  if rows ≠ 3 ∨ cols ≠ 3 then
    kernel
  else
    forRange 0 3 (fun i kernel =>
      let kernel := Function.update kernel (0 + (i * rows)) (-1)
      let kernel := Function.update kernel (1 + (i * rows)) 0
      Function.update kernel (2 + (i * rows)) 1) kernel

/-- The function `prewittY_kernel` (lines 49-59) on binary64. -/
def prewittY_kernel (rows cols : Int) (kernel : Int → F64) : Int → F64 :=
  if rows ≠ 3 ∨ cols ≠ 3 then
    kernel
  else
    forRange 0 3 (fun i kernel =>
      let kernel := Function.update kernel (i + (0 * rows)) 1
      let kernel := Function.update kernel (i + (1 * rows)) 0
      Function.update kernel (i + (2 * rows)) (-1)) kernel

/-- The body of the two window loops of `apply_prewittKs` for one window cell
(lines 93-99) on binary64. -/
def prewitt_window_step (rows cols : Int) (Xkernel Ykernel : Int → F64)
    (blurred : Int → pixel F64) (out_offset x kx y ky : Int) (st : PrewittState F64) :
    PrewittState F64 :=
  if x ≥ 0 ∧ x < rows ∧ y ≥ 0 ∧ y < cols then
    let blurred_offset := x + (y * rows)
    let k_offset := kx + (ky * 3)
    let intensity :=
      ((blurred blurred_offset).red + (blurred blurred_offset).green
        + (blurred blurred_offset).blue) / 3
    let Xedges := Function.update st.Xedges out_offset
      (st.Xedges out_offset + Xkernel k_offset * intensity)
    let Yedges := Function.update st.Yedges out_offset
      (st.Yedges out_offset + Ykernel k_offset * intensity)
    { st with Xedges := Xedges, Yedges := Yedges }
  else
    st

/-- The body of the row loop of `apply_prewittKs` for output cell `(i, j)`
(lines 89-106) on binary64. -/
def prewitt_cell (rows cols : Int) (Xkernel Ykernel : Int → F64)
    (blurred : Int → pixel F64) (i j : Int) (st : PrewittState F64) : PrewittState F64 :=
  let out_offset := i + (j * rows)
  let st := forWindow (i - 1) (i + 1) (fun x kx st =>
    forWindow (j - 1) (j + 1) (fun y ky st =>
      prewitt_window_step rows cols Xkernel Ykernel blurred out_offset x kx y ky st) st) st
  let outIntensity :=
    sqrt (st.Xedges out_offset * st.Xedges out_offset
      + st.Yedges out_offset * st.Yedges out_offset)
  let out := Function.update st.out out_offset
    { st.out out_offset with red := outIntensity }
  let out := Function.update out out_offset { out out_offset with green := outIntensity }
  let out := Function.update out out_offset { out out_offset with blue := outIntensity }
  { st with out := out }

/-- The function `apply_prewittKs` (lines 61-115) on binary64. -/
def apply_prewittKs (rows cols : Int) (Xkmem Ykmem Xmem Ymem : Int → F64)
    (blurred out : Int → pixel F64) : Int → pixel F64 :=
  let edges := forRange 0 (rows * cols) (fun i (e : (Int → F64) × (Int → F64)) =>
    (Function.update e.1 i 0, Function.update e.2 i 0)) (Xmem, Ymem)
  let Xkernel := prewittX_kernel 3 3 Xkmem
  let Ykernel := prewittY_kernel 3 3 Ykmem
  let st := forRange 0 cols (fun j st =>
    forRange 0 rows (fun i st =>
      prewitt_cell rows cols Xkernel Ykernel blurred i j st) st)
    { Xedges := edges.1, Yedges := edges.2, out := out }
  st.out

/-- The function `gaussian_kernel` (lines 121-164) on binary64, executed without a race
(the sum is accumulated over the whole range in source order); `exp` is the function
`exp` of `<cmath>`. -/
def gaussian_kernel (exp : F64 → F64) (rows cols : Int) (stddev : F64)
    (kernel : Int → F64) : Int → F64 :=
  let denom := 2 * stddev * stddev
  let g_denom := M_PI * denom
  let g_denom_recip := 1 / g_denom
  let acc := forRange 0 cols (fun j acc =>
    forRange 0 rows (fun i (acc : (Int → F64) × F64) =>
      let row_dist : F64 := ((i - Int.tdiv rows 2 : Int) : F64)
      let col_dist : F64 := ((j - Int.tdiv cols 2 : Int) : F64)
      let dist_sq := (row_dist * row_dist) + (col_dist * col_dist)
      let value := g_denom_recip * exp ((-dist_sq) / denom)
      (Function.update acc.1 (i + (j * rows)) value, acc.2 + value)) acc) (kernel, 0)
  let sum := acc.2
  let recip_sum := 1 / sum
  forRange 0 cols (fun j kernel =>
    forRange 0 rows (fun i kernel =>
      Function.update kernel (i + (j * rows)) (kernel (i + (j * rows)) * recip_sum))
      kernel) acc.1

/-- The body of the two window loops of `apply_stencil` for one window cell
(lines 183-189) on binary64. -/
def stencil_window_step (rows cols dim : Int) (kernel : Int → F64) (inp : Int → pixel F64)
    (out_offset x kx y ky : Int) (out : Int → pixel F64) : Int → pixel F64 :=
  if x ≥ 0 ∧ x < rows ∧ y ≥ 0 ∧ y < cols then
    let in_offset := x + (y * rows)
    let k_offset := kx + (ky * dim)
    let out := Function.update out out_offset
      { out out_offset with
        red := (out out_offset).red + kernel k_offset * (inp in_offset).red }
    let out := Function.update out out_offset
      { out out_offset with
        green := (out out_offset).green + kernel k_offset * (inp in_offset).green }
    Function.update out out_offset
      { out out_offset with
        blue := (out out_offset).blue + kernel k_offset * (inp in_offset).blue }
  else
    out

/-- The function `apply_stencil` (lines 166-196) on binary64. -/
def apply_stencil (exp : F64 → F64) (radius : Int) (stddev : F64) (rows cols : Int)
    (kmem : Int → F64) (inp out : Int → pixel F64) : Int → pixel F64 :=
  let dim := radius * 2 + 1
  let kernel := gaussian_kernel exp dim dim stddev kmem
  forRange 0 cols (fun j out =>
    forRange 0 rows (fun i out =>
      let out_offset := i + (j * rows)
      forWindow (i - radius) (i + radius) (fun x kx out =>
        forWindow (j - radius) (j + radius) (fun y ky out =>
          stencil_window_step rows cols dim kernel inp out_offset x kx y ky out) out) out)
      out) out

/-- A stand-in for `exp` that is given by a finite table of (argument, value) pairs and
is 0 at every other finite argument. -/
def table_exp (table : List (ℚ × ℚ)) : F64 → F64
  | F64.fin q =>
    match table.find? (fun p => decide (p.1 = q)) with
    | some p => F64.fin p.2
    | none => F64.fin 0
  | _ => F64.nan

/-- The values that `exp` of `<cmath>` (glibc, x86-64) returns at the ten arguments
`-(dx*dx + dy*dy) / 2` that `gaussian_kernel(7, 7, 1.0, ...)` passes to it; each is the
`double` nearest to `e^x`. -/
def exp_stddev_1 : List (ℚ × ℚ) :=
  [(0, 1),
   (-1 / 2, 5463142506141194 / 2 ^ 53),
   (-1, 3313563428353948 / 2 ^ 53),
   (-2, 1218991862308979 / 2 ^ 53),
   (-5 / 2, 5914847507444773 / 2 ^ 56),
   (-4, 1319780871589693 / 2 ^ 56),
   (-9 / 2, 6403900501771287 / 2 ^ 59),
   (-5, 3884161996073403 / 2 ^ 59),
   (-13 / 2, 3466694752905213 / 2 ^ 61),
   (-9, 2276509072173613 / 2 ^ 64)]

/-- The values that `exp` of `<cmath>` (glibc, x86-64) returns at the six arguments
`-(dx*dx + dy*dy) / 128` that `gaussian_kernel(5, 5, 8.0, ...)` passes to it; each is the
`double` nearest to `e^x`. -/
def exp_stddev_8 : List (ℚ × ℚ) :=
  [(0, 1),
   (-1 / 128, 8937104674038309 / 2 ^ 53),
   (-1 / 64, 8867555573690277 / 2 ^ 53),
   (-1 / 32, 8730076867245528 / 2 ^ 53),
   (-5 / 128, 8662138870071803 / 2 ^ 53),
   (-1 / 16, 8461480639267492 / 2 ^ 53)]

/-- The values that `exp` of `<cmath>` (glibc, x86-64) returns at the ten arguments
`-(dx*dx + dy*dy) / 2048` that `gaussian_kernel(7, 7, 32.0, ...)`, the call made by
`main`, passes to it; each is the `double` nearest to `e^x`. -/
def exp_stddev_32 : List (ℚ × ℚ) :=
  [(0, 1),
   (-1 / 2048, 9002802281796971 / 2 ^ 53),
   (-1 / 1024, 8998407455288320 / 2 ^ 53),
   (-1 / 512, 8989624237386409 / 2 ^ 53),
   (-5 / 2048, 8985235843899065 / 2 ^ 53),
   (-1 / 256, 8972083512737724 / 2 ^ 53),
   (-9 / 2048, 8967703681966661 / 2 ^ 53),
   (-5 / 1024, 8963325989262811 / 2 ^ 53),
   (-13 / 2048, 8950205729119846 / 2 ^ 53),
   (-9 / 1024, 8928381292911781 / 2 ^ 53)]

end Binary64

end Stencil

namespace Stencil

/-! ## Loop lemmas -/

section Loops

variable {σ : Type}

theorem loopN_zero (body : Nat → σ → σ) (s : σ) : loopN 0 body s = s := rfl

theorem loopN_succ (n : Nat) (body : Nat → σ → σ) (s : σ) :
    loopN (n + 1) body s = body n (loopN n body s) := by
  simp [loopN, List.range_succ, List.foldl_append]

theorem loopN_congr (n : Nat) (body body2 : Nat → σ → σ)
    (h : ∀ k, k < n → ∀ t, body k t = body2 k t) (s : σ) :
    loopN n body s = loopN n body2 s := by
  induction n with
  | zero => rfl
  | succ m ih =>
    rw [loopN_succ, loopN_succ, ih (fun k hk t => h k (Nat.lt_succ_of_lt hk) t)]
    exact h m (Nat.lt_succ_self m) _

theorem loopN_id (n : Nat) (body : Nat → σ → σ)
    (h : ∀ k, k < n → ∀ t, body k t = t) (s : σ) : loopN n body s = s := by
  induction n with
  | zero => rfl
  | succ m ih =>
    rw [loopN_succ, ih (fun k hk t => h k (Nat.lt_succ_of_lt hk) t)]
    exact h m (Nat.lt_succ_self m) _

theorem loopN_single (n k0 : Nat) (hk0 : k0 < n) (body : Nat → σ → σ)
    (h : ∀ k, k < n → k ≠ k0 → ∀ t, body k t = t) (s : σ) :
    loopN n body s = body k0 s := by
  induction n with
  | zero => exact absurd hk0 (Nat.not_lt_zero _)
  | succ m ih =>
    rw [loopN_succ]
    by_cases hm : k0 = m
    · subst hm
      rw [loopN_id k0 body (fun k hk t => h k (Nat.lt_succ_of_lt hk) (Nat.ne_of_lt hk) t)]
    · have hlt : k0 < m := by omega
      rw [ih hlt (fun k hk hne t => h k (Nat.lt_succ_of_lt hk) hne t)]
      exact h m (Nat.lt_succ_self m) (fun e => hm e.symm) _

/-- Reading a loop result through an observation `rd` on which every iteration acts
pointwise. -/
theorem loopN_read {ι β : Type} (rd : σ → ι → β) (φ : Nat → ι → β → β)
    (body : Nat → σ → σ) (h : ∀ k s o, rd (body k s) o = φ k o (rd s o))
    (n : Nat) (s : σ) (o : ι) :
    rd (loopN n body s) o = loopN n (fun k v => φ k o v) (rd s o) := by
  induction n with
  | zero => rfl
  | succ m ih => rw [loopN_succ, loopN_succ, h, ih]

theorem forRange_id (hi : Int) (body : Int → σ → σ)
    (h : ∀ i, 0 ≤ i → i < hi → ∀ t, body i t = t) (s : σ) : forRange 0 hi body s = s := by
  unfold forRange
  apply loopN_id
  intro k hk t
  apply h
  · omega
  · omega

theorem forRange_single (hi i0 : Int) (h0 : 0 ≤ i0) (h1 : i0 < hi) (body : Int → σ → σ)
    (h : ∀ i, 0 ≤ i → i < hi → i ≠ i0 → ∀ t, body i t = t) (s : σ) :
    forRange 0 hi body s = body i0 s := by
  unfold forRange
  rw [loopN_single (hi - 0).toNat i0.toNat (by omega)]
  · have : (0 : Int) + ((i0.toNat : Nat) : Int) = i0 := by omega
    rw [this]
  · intro k hk hne t
    apply h
    · omega
    · omega
    · omega

theorem forRange_read {ι β : Type} (rd : σ → ι → β) (φ : Int → ι → β → β)
    (body : Int → σ → σ) (h : ∀ i s o, rd (body i s) o = φ i o (rd s o))
    (lo hi : Int) (s : σ) (o : ι) :
    rd (forRange lo hi body s) o = forRange lo hi (fun i v => φ i o v) (rd s o) := by
  unfold forRange
  exact loopN_read rd (fun k => φ (lo + (k : Int))) _ (fun k s o => h _ s o) _ s o

/-- Offsets `i + j*rows` with `0 ≤ i < rows` determine `(i, j)`. -/
theorem offset_inj (rows i j i2 j2 : Int) (h0 : 0 ≤ i) (h1 : i < rows) (h2 : 0 ≤ i2)
    (h3 : i2 < rows) (h : i + j * rows = i2 + j2 * rows) : i = i2 ∧ j = j2 := by
  have hj : j = j2 := by
    by_contra hne
    rcases lt_or_gt_of_ne hne with hl | hl
    · nlinarith
    · nlinarith
  subst hj
  exact ⟨by linarith, rfl⟩

/-- A row-in-column loop nest whose cell body acts, through `rd`, only on its own
offset `i + j*rows`: the value read at an in-range offset after the nest is the cell
body's action on the value read before. -/
theorem grid_read {β : Type} (rd : σ → Int → β) (rows cols : Int)
    (cell : Int → Int → σ → σ) (G : Int → Int → β → β)
    (h : ∀ i j s o, rd (cell i j s) o = if o = i + j * rows then G i j (rd s o) else rd s o)
    (s : σ) (i0 j0 : Int) (hi0 : 0 ≤ i0) (hi1 : i0 < rows) (hj0 : 0 ≤ j0) (hj1 : j0 < cols) :
    rd (forRange 0 cols (fun j s => forRange 0 rows (fun i s => cell i j s) s) s)
        (i0 + j0 * rows)
      = G i0 j0 (rd s (i0 + j0 * rows)) := by
  have inner : ∀ j s o, rd (forRange 0 rows (fun i s => cell i j s) s) o
      = forRange 0 rows (fun i v => if o = i + j * rows then G i j v else v) (rd s o) :=
    fun j s o => forRange_read rd (fun i o v => if o = i + j * rows then G i j v else v)
      (fun i s => cell i j s) (fun i s o => h i j s o) 0 rows s o
  rw [forRange_read rd
    (fun j o v => forRange 0 rows (fun i v => if o = i + j * rows then G i j v else v) v)
    _ (fun j s o => inner j s o)]
  rw [forRange_single cols j0 hj0 hj1, forRange_single rows i0 hi0 hi1]
  · simp
  · intro i hi hi2 hne t
    have : ¬ (i0 + j0 * rows = i + j0 * rows) := fun e => hne (by linarith)
    simp [this]
  · intro j hj hj2 hne t
    apply forRange_id
    intro i hi hi2 t
    have : ¬ (i0 + j0 * rows = i + j * rows) := fun e =>
      hne (offset_inj rows i0 j0 i j hi0 hi1 hi hi2 e).2.symm
    simp [this]

/-- Outside the offsets of the grid the loop nest changes nothing. -/
theorem grid_read_outside {β : Type} (rd : σ → Int → β) (rows cols : Int)
    (cell : Int → Int → σ → σ) (G : Int → Int → β → β)
    (h : ∀ i j s o, rd (cell i j s) o = if o = i + j * rows then G i j (rd s o) else rd s o)
    (s : σ) (o : Int)
    (ho : ∀ i j, 0 ≤ i → i < rows → 0 ≤ j → j < cols → o ≠ i + j * rows) :
    rd (forRange 0 cols (fun j s => forRange 0 rows (fun i s => cell i j s) s) s) o
      = rd s o := by
  have inner : ∀ j s o, rd (forRange 0 rows (fun i s => cell i j s) s) o
      = forRange 0 rows (fun i v => if o = i + j * rows then G i j v else v) (rd s o) :=
    fun j s o => forRange_read rd (fun i o v => if o = i + j * rows then G i j v else v)
      (fun i s => cell i j s) (fun i s o => h i j s o) 0 rows s o
  rw [forRange_read rd
    (fun j o v => forRange 0 rows (fun i v => if o = i + j * rows then G i j v else v) v)
    _ (fun j s o => inner j s o)]
  apply forRange_id
  intro j hj hj2 t
  apply forRange_id
  intro i hi hi2 t
  simp [ho i j hi hi2 hj hj2]

end Loops

/-! ## Prewitt kernels -/

section Prewitt

variable {K : Type} [Field K]

theorem prewittX_kernel_apply (k : Int → K) (o : Int) :
    prewittX_kernel 3 3 k o =
      if o = 8 then 1 else if o = 7 then 0 else if o = 6 then -1
      else if o = 5 then 1 else if o = 4 then 0 else if o = 3 then -1
      else if o = 2 then 1 else if o = 1 then 0 else if o = 0 then -1 else k o := by
  simp [prewittX_kernel, forRange, loopN_succ, loopN_zero, Function.update_apply]

theorem prewittY_kernel_apply (k : Int → K) (o : Int) :
    prewittY_kernel 3 3 k o =
      if o = 8 then -1 else if o = 5 then 0 else if o = 2 then 1
      else if o = 7 then -1 else if o = 4 then 0 else if o = 1 then 1
      else if o = 6 then -1 else if o = 3 then 0 else if o = 0 then 1 else k o := by
  simp [prewittY_kernel, forRange, loopN_succ, loopN_zero, Function.update_apply]

end Prewitt

/-! ## The stencil loop nest -/

section StencilLoop

open Finset

variable {K : Type} [Field K]

/-- One window cell adds its guarded term to each channel of `out[out_offset]`. -/
theorem stencil_window_step_eq (rows cols dim : Int) (kernel : Int → K)
    (inp : Int → pixel K) (off x kx y ky : Int) (out : Int → pixel K) :
    stencil_window_step rows cols dim kernel inp off x kx y ky out =
      Function.update out off
        { red := (out off).red + (if 0 ≤ x ∧ x < rows ∧ 0 ≤ y ∧ y < cols then
            kernel (kx + ky * dim) * (inp (x + y * rows)).red else 0)
          green := (out off).green + (if 0 ≤ x ∧ x < rows ∧ 0 ≤ y ∧ y < cols then
            kernel (kx + ky * dim) * (inp (x + y * rows)).green else 0)
          blue := (out off).blue + (if 0 ≤ x ∧ x < rows ∧ 0 ≤ y ∧ y < cols then
            kernel (kx + ky * dim) * (inp (x + y * rows)).blue else 0) } := by
  unfold stencil_window_step
  by_cases hg : 0 ≤ x ∧ x < rows ∧ 0 ≤ y ∧ y < cols
  · simp [hg, Function.update_idem]
  · have hg2 : ¬ (x ≥ 0 ∧ x < rows ∧ y ≥ 0 ∧ y < cols) := hg
    simp only [hg, hg2, if_false, add_zero]
    exact (Function.update_eq_self off out).symm

/-- A loop whose every iteration adds a term to each channel of one fixed cell adds
the sums of the terms. -/
theorem loopN_accum (off : Int) (tR tG tB : Nat → K)
    (body : Nat → (Int → pixel K) → (Int → pixel K))
    (h : ∀ k s, body k s = Function.update s off
      { red := (s off).red + tR k, green := (s off).green + tG k,
        blue := (s off).blue + tB k })
    (n : Nat) (s : Int → pixel K) :
    loopN n body s = Function.update s off
      { red := (s off).red + ∑ k ∈ range n, tR k
        green := (s off).green + ∑ k ∈ range n, tG k
        blue := (s off).blue + ∑ k ∈ range n, tB k } := by
  induction n with
  | zero =>
    simp only [loopN_zero, range_zero, sum_empty, add_zero]
    exact (Function.update_eq_self off s).symm
  | succ m ih =>
    rw [loopN_succ, ih, h]
    simp [Function.update_idem, sum_range_succ, add_assoc]

/-- A counted window loop as a sum over the integer interval it traverses. -/
theorem sum_window (lo hi : Int) (f : Int → Int → K) :
    ∑ k ∈ range (hi + 1 - lo).toNat, f (lo + (k : Int)) (k : Int)
      = ∑ x ∈ Icc lo hi, f x (x - lo) := by
  rw [Int.Icc_eq_finset_map, sum_map]
  apply sum_congr rfl
  intro k _
  simp

/-- The double guarded sum computed by the window loops, as a sum over the in-range
cells of the window. -/
theorem window_double_sum (rows cols i j r dim : Int) (kernel : Int → K) (g : Int → K) :
    (∑ k ∈ range (i + r + 1 - (i - r)).toNat, ∑ k2 ∈ range (j + r + 1 - (j - r)).toNat,
        if 0 ≤ i - r + (k : Int) ∧ i - r + (k : Int) < rows
            ∧ 0 ≤ j - r + (k2 : Int) ∧ j - r + (k2 : Int) < cols then
          kernel ((k : Int) + (k2 : Int) * dim)
            * g (i - r + (k : Int) + (j - r + (k2 : Int)) * rows)
        else 0)
      = ∑ p ∈ (Icc (i - r) (i + r) ×ˢ Icc (j - r) (j + r)).filter
          (fun p => 0 ≤ p.1 ∧ p.1 < rows ∧ 0 ≤ p.2 ∧ p.2 < cols),
          kernel ((p.1 - (i - r)) + (p.2 - (j - r)) * dim) * g (p.1 + p.2 * rows) := by
  rw [sum_filter, sum_product]
  rw [← sum_window (i - r) (i + r) (fun x kx => ∑ y ∈ Icc (j - r) (j + r),
    if 0 ≤ x ∧ x < rows ∧ 0 ≤ y ∧ y < cols then
      kernel (kx + (y - (j - r)) * dim) * g (x + y * rows) else 0)]
  apply sum_congr rfl
  intro k _
  rw [← sum_window (j - r) (j + r) (fun y ky =>
    if 0 ≤ i - r + (k : Int) ∧ i - r + (k : Int) < rows ∧ 0 ≤ y ∧ y < cols then
      kernel ((k : Int) + ky * dim) * g (i - r + (k : Int) + y * rows) else 0)]

/-- The effect of the window loops for output cell `(i, j)`. -/
theorem stencil_cell_eq (radius rows cols dim : Int) (kernel : Int → K)
    (inp : Int → pixel K) (i j : Int) (out : Int → pixel K) :
    stencil_cell radius rows cols dim kernel inp i j out =
      Function.update out (i + j * rows)
        { red := (out (i + j * rows)).red +
            ∑ p ∈ (Icc (i - radius) (i + radius) ×ˢ Icc (j - radius) (j + radius)).filter
              (fun p => 0 ≤ p.1 ∧ p.1 < rows ∧ 0 ≤ p.2 ∧ p.2 < cols),
              kernel ((p.1 - (i - radius)) + (p.2 - (j - radius)) * dim)
                * (inp (p.1 + p.2 * rows)).red
          green := (out (i + j * rows)).green +
            ∑ p ∈ (Icc (i - radius) (i + radius) ×ˢ Icc (j - radius) (j + radius)).filter
              (fun p => 0 ≤ p.1 ∧ p.1 < rows ∧ 0 ≤ p.2 ∧ p.2 < cols),
              kernel ((p.1 - (i - radius)) + (p.2 - (j - radius)) * dim)
                * (inp (p.1 + p.2 * rows)).green
          blue := (out (i + j * rows)).blue +
            ∑ p ∈ (Icc (i - radius) (i + radius) ×ˢ Icc (j - radius) (j + radius)).filter
              (fun p => 0 ≤ p.1 ∧ p.1 < rows ∧ 0 ≤ p.2 ∧ p.2 < cols),
              kernel ((p.1 - (i - radius)) + (p.2 - (j - radius)) * dim)
                * (inp (p.1 + p.2 * rows)).blue } := by
  have hR := window_double_sum rows cols i j radius dim kernel (fun o => (inp o).red)
  have hG := window_double_sum rows cols i j radius dim kernel (fun o => (inp o).green)
  have hB := window_double_sum rows cols i j radius dim kernel (fun o => (inp o).blue)
  simp only [] at hR hG hB
  unfold stencil_cell forWindow
  simp only []
  rw [loopN_accum (i + j * rows) _ _ _ _
    (fun k s => by
      rw [loopN_accum (i + j * rows) _ _ _ _
        (fun k2 s2 => stencil_window_step_eq rows cols dim kernel inp (i + j * rows)
          (i - radius + (k : Int)) (k : Int) (j - radius + (k2 : Int)) (k2 : Int) s2)])]
  rw [hR, hG, hB]

end StencilLoop

section StencilApply

open Finset

variable {K : Type} [Field K]

/-- The stencil loop nest adds, to every in-range output cell, the weighted sum over the
in-range cells of its window. -/
theorem stencil_loop_apply (radius rows cols : Int) (kernel : Int → K)
    (inp out : Int → pixel K) (i j : Int) (hi0 : 0 ≤ i) (hi1 : i < rows) (hj0 : 0 ≤ j)
    (hj1 : j < cols) :
    stencil_loop radius rows cols kernel inp out (i + j * rows) =
      { red := (out (i + j * rows)).red +
          ∑ p ∈ (Icc (i - radius) (i + radius) ×ˢ Icc (j - radius) (j + radius)).filter
            (fun p => 0 ≤ p.1 ∧ p.1 < rows ∧ 0 ≤ p.2 ∧ p.2 < cols),
            kernel ((p.1 - (i - radius)) + (p.2 - (j - radius)) * (radius * 2 + 1))
              * (inp (p.1 + p.2 * rows)).red
        green := (out (i + j * rows)).green +
          ∑ p ∈ (Icc (i - radius) (i + radius) ×ˢ Icc (j - radius) (j + radius)).filter
            (fun p => 0 ≤ p.1 ∧ p.1 < rows ∧ 0 ≤ p.2 ∧ p.2 < cols),
            kernel ((p.1 - (i - radius)) + (p.2 - (j - radius)) * (radius * 2 + 1))
              * (inp (p.1 + p.2 * rows)).green
        blue := (out (i + j * rows)).blue +
          ∑ p ∈ (Icc (i - radius) (i + radius) ×ˢ Icc (j - radius) (j + radius)).filter
            (fun p => 0 ≤ p.1 ∧ p.1 < rows ∧ 0 ≤ p.2 ∧ p.2 < cols),
            kernel ((p.1 - (i - radius)) + (p.2 - (j - radius)) * (radius * 2 + 1))
              * (inp (p.1 + p.2 * rows)).blue } := by
  unfold stencil_loop
  rw [grid_read (fun (s : Int → pixel K) o => s o) rows cols
    (fun i j s => stencil_cell radius rows cols (radius * 2 + 1) kernel inp i j s)
    (fun i j v =>
      { red := v.red +
          ∑ p ∈ (Icc (i - radius) (i + radius) ×ˢ Icc (j - radius) (j + radius)).filter
            (fun p => 0 ≤ p.1 ∧ p.1 < rows ∧ 0 ≤ p.2 ∧ p.2 < cols),
            kernel ((p.1 - (i - radius)) + (p.2 - (j - radius)) * (radius * 2 + 1))
              * (inp (p.1 + p.2 * rows)).red
        green := v.green +
          ∑ p ∈ (Icc (i - radius) (i + radius) ×ˢ Icc (j - radius) (j + radius)).filter
            (fun p => 0 ≤ p.1 ∧ p.1 < rows ∧ 0 ≤ p.2 ∧ p.2 < cols),
            kernel ((p.1 - (i - radius)) + (p.2 - (j - radius)) * (radius * 2 + 1))
              * (inp (p.1 + p.2 * rows)).green
        blue := v.blue +
          ∑ p ∈ (Icc (i - radius) (i + radius) ×ˢ Icc (j - radius) (j + radius)).filter
            (fun p => 0 ≤ p.1 ∧ p.1 < rows ∧ 0 ≤ p.2 ∧ p.2 < cols),
            kernel ((p.1 - (i - radius)) + (p.2 - (j - radius)) * (radius * 2 + 1))
              * (inp (p.1 + p.2 * rows)).blue })
    _ out i j hi0 hi1 hj0 hj1]
  intro i j s o
  simp only [stencil_cell_eq, Function.update_apply]
  split_ifs with h
  · rw [h]
  · rfl

/-- The in-range part of a window is the product of the clipped intervals. -/
theorem window_filter_eq (rows cols a b c d : Int) :
    (Icc a b ×ˢ Icc c d).filter (fun p => 0 ≤ p.1 ∧ p.1 < rows ∧ 0 ≤ p.2 ∧ p.2 < cols)
      = Icc (max a 0) (min b (rows - 1)) ×ˢ Icc (max c 0) (min d (cols - 1)) := by
  ext ⟨x, y⟩
  simp only [mem_filter, mem_product, mem_Icc]
  omega

/-- An in-range cell has an in-range offset. -/
theorem offset_range (rows cols x y : Int) (hx0 : 0 ≤ x) (hx1 : x < rows) (hy0 : 0 ≤ y)
    (hy1 : y < cols) : 0 ≤ x + y * rows ∧ x + y * rows < rows * cols := by
  constructor
  · nlinarith
  · nlinarith

end StencilApply

/-! ## The Gaussian kernel -/

section Gaussian

open Finset

variable {K : Type} [Field K]

/-- A loop that adds a term to the second component of its state adds the sum. -/
theorem forRange_snd_accum {α : Type} (t : Int → K) (body : Int → α × K → α × K)
    (h : ∀ i s, (body i s).2 = s.2 + t i) (hi : Int) (s : α × K) :
    (forRange 0 hi body s).2 = s.2 + ∑ k ∈ range hi.toNat, t (k : Int) := by
  unfold forRange
  rw [sub_zero]
  generalize hi.toNat = n
  induction n with
  | zero => simp [loopN_zero]
  | succ m ih => rw [loopN_succ, h, ih, sum_range_succ, add_assoc, zero_add]

/-- The first loop nest of `gaussian_kernel`, for any cell value `val i j`: the kernel
component holds `val i j` at every in-range offset. -/
theorem gaussian_fill_fst (rows cols : Int) (val : Int → Int → K) (s : (Int → K) × K)
    (i j : Int) (hi0 : 0 ≤ i) (hi1 : i < rows) (hj0 : 0 ≤ j) (hj1 : j < cols) :
    (forRange 0 cols (fun j acc =>
      forRange 0 rows (fun i (acc : (Int → K) × K) =>
        (Function.update acc.1 (i + (j * rows)) (val i j), acc.2 + val i j)) acc) s).1
        (i + j * rows) = val i j := by
  have h := grid_read (fun (s : (Int → K) × K) o => s.1 o) rows cols
    (fun i j (acc : (Int → K) × K) =>
      (Function.update acc.1 (i + (j * rows)) (val i j), acc.2 + val i j))
    (fun i j _ => val i j)
    (fun i j s o => by simp only [Function.update_apply]) s i j hi0 hi1 hj0 hj1
  exact h

/-- The first loop nest of `gaussian_kernel`: the running sum is the sum of all cell
values. -/
theorem gaussian_fill_snd (rows cols : Int) (val : Int → Int → K) (s : (Int → K) × K) :
    (forRange 0 cols (fun j acc =>
      forRange 0 rows (fun i (acc : (Int → K) × K) =>
        (Function.update acc.1 (i + (j * rows)) (val i j), acc.2 + val i j)) acc) s).2
      = s.2 + ∑ b ∈ range cols.toNat, ∑ a ∈ range rows.toNat, val (a : Int) (b : Int) := by
  rw [forRange_snd_accum (fun j => ∑ a ∈ range rows.toNat, val (a : Int) j)]
  intro j s
  rw [forRange_snd_accum (fun i => val i j)]
  intro i s
  rfl

/-- The normalisation loop nest of `gaussian_kernel` multiplies every in-range cell by
the factor. -/
theorem gaussian_scale (rows cols : Int) (c : K) (k : Int → K)
    (i j : Int) (hi0 : 0 ≤ i) (hi1 : i < rows) (hj0 : 0 ≤ j) (hj1 : j < cols) :
    (forRange 0 cols (fun j kernel =>
      forRange 0 rows (fun i kernel =>
        Function.update kernel (i + (j * rows)) (kernel (i + (j * rows)) * c))
        kernel) k) (i + j * rows) = k (i + j * rows) * c := by
  have h := grid_read (fun (s : Int → K) o => s o) rows cols
    (fun i j (kernel : Int → K) =>
      Function.update kernel (i + (j * rows)) (kernel (i + (j * rows)) * c))
    (fun _ _ v => v * c)
    (fun i j s o => by
      simp only [Function.update_apply]
      split_ifs with h
      · rw [h]
      · rfl) k i j hi0 hi1 hj0 hj1
  exact h

/-- A sum over the first `n` naturals as a sum over the integer interval `[0, n)`. -/
theorem sum_range_toNat (n : Int) (f : Int → K) :
    ∑ k ∈ range n.toNat, f (k : Int) = ∑ x ∈ Ico 0 n, f x := by
  rw [Int.Ico_eq_finset_map, sum_map, sub_zero]
  apply sum_congr rfl
  intro k _
  simp

/-- The value that `gaussian_kernel` leaves in cell `(i, j)`: the unnormalised weight of
the cell times the reciprocal of the sum of all unnormalised weights. -/
theorem gaussian_kernel_apply (exp : K → K) (pi : K) (rows cols : Int) (stddev : K)
    (kmem : Int → K) (i j : Int) (hi0 : 0 ≤ i) (hi1 : i < rows) (hj0 : 0 ≤ j)
    (hj1 : j < cols) :
    gaussian_kernel exp pi rows cols stddev kmem (i + j * rows) =
      gaussian_value exp pi rows cols stddev i j
        * (1 / ∑ b ∈ Ico 0 cols, ∑ a ∈ Ico 0 rows,
            gaussian_value exp pi rows cols stddev a b) := by
  unfold gaussian_kernel
  simp only []
  rw [gaussian_scale rows cols _ _ i j hi0 hi1 hj0 hj1]
  have hfst := gaussian_fill_fst rows cols
    (fun i j => gaussian_value exp pi rows cols stddev i j) (kmem, 0) i j hi0 hi1 hj0 hj1
  have hsnd := gaussian_fill_snd rows cols
    (fun i j => gaussian_value exp pi rows cols stddev i j) (kmem, 0)
  simp only [gaussian_value] at hfst hsnd
  rw [hfst, hsnd, zero_add]
  rw [← sum_range_toNat cols (fun b => ∑ a ∈ Ico 0 rows,
    gaussian_value exp pi rows cols stddev a b)]
  have hin : ∀ b : Int, ∑ a ∈ Ico 0 rows, gaussian_value exp pi rows cols stddev a b
      = ∑ a ∈ range rows.toNat, gaussian_value exp pi rows cols stddev (a : Int) b :=
    fun b => (sum_range_toNat rows (fun a => gaussian_value exp pi rows cols stddev a b)).symm
  simp only [hin]
  rfl

/-- Cells outside the `rows*cols` grid keep their initial content. -/
theorem gaussian_kernel_outside (exp : K → K) (pi : K) (rows cols : Int) (stddev : K)
    (kmem : Int → K) (o : Int)
    (ho : ∀ i j, 0 ≤ i → i < rows → 0 ≤ j → j < cols → o ≠ i + j * rows) :
    gaussian_kernel exp pi rows cols stddev kmem o = kmem o := by
  unfold gaussian_kernel
  simp only []
  rw [grid_read_outside (fun (s : Int → K) o => s o) rows cols
    (fun i j (kernel : Int → K) =>
      Function.update kernel (i + (j * rows)) (kernel (i + (j * rows)) * _))
    (fun _ _ v => v * _)
    (fun i j s o => by
      simp only [Function.update_apply]
      split_ifs with h
      · rw [h]
      · rfl) _ o ho]
  exact grid_read_outside (fun (s : (Int → K) × K) o => s.1 o) rows cols
    (fun i j (acc : (Int → K) × K) =>
      (Function.update acc.1 (i + (j * rows)) _, acc.2 + _))
    (fun i j _ => gaussian_value exp pi rows cols stddev i j)
    (fun i j s o => by simp only [Function.update_apply, gaussian_value]) (kmem, 0) o ho

end Gaussian

section GaussianReal

open Finset

/-- Every unnormalised weight is positive. -/
theorem gaussian_value_pos (rows cols : Int) (stddev : ℝ) (hs : stddev ≠ 0) (i j : Int) :
    0 < gaussian_value Real.exp Real.pi rows cols stddev i j := by
  unfold gaussian_value
  have h2 : 0 < 2 * stddev * stddev := by
    have := mul_self_pos.mpr hs
    linarith
  have h3 : 0 < Real.pi * (2 * stddev * stddev) := mul_pos Real.pi_pos h2
  exact mul_pos (one_div_pos.mpr h3) (Real.exp_pos _)

/-- The sum of all unnormalised weights of a non-empty kernel is positive. -/
theorem gaussian_value_sum_pos (rows cols : Int) (stddev : ℝ) (hs : stddev ≠ 0)
    (hrows : 0 < rows) (hcols : 0 < cols) :
    0 < ∑ b ∈ Ico 0 cols, ∑ a ∈ Ico 0 rows,
      gaussian_value Real.exp Real.pi rows cols stddev a b := by
  apply sum_pos
  · intro b _
    apply sum_pos
    · intro a _
      exact gaussian_value_pos rows cols stddev hs a b
    · exact ⟨0, by simp [hrows]⟩
  · exact ⟨0, by simp [hcols]⟩

/-- Every cell of the normalised kernel is positive. -/
theorem gaussian_kernel_pos (rows cols : Int) (stddev : ℝ) (hs : stddev ≠ 0)
    (kmem : Int → ℝ) (i j : Int) (hi0 : 0 ≤ i) (hi1 : i < rows) (hj0 : 0 ≤ j)
    (hj1 : j < cols) :
    0 < gaussian_kernel Real.exp Real.pi rows cols stddev kmem (i + j * rows) := by
  rw [gaussian_kernel_apply Real.exp Real.pi rows cols stddev kmem i j hi0 hi1 hj0 hj1]
  exact mul_pos (gaussian_value_pos rows cols stddev hs i j)
    (one_div_pos.mpr (gaussian_value_sum_pos rows cols stddev hs (by omega) (by omega)))

/-- The cells of the normalised kernel sum to one. -/
theorem gaussian_kernel_sum (rows cols : Int) (stddev : ℝ) (hs : stddev ≠ 0)
    (hrows : 0 < rows) (hcols : 0 < cols) (kmem : Int → ℝ) :
    ∑ j ∈ Ico 0 cols, ∑ i ∈ Ico 0 rows,
      gaussian_kernel Real.exp Real.pi rows cols stddev kmem (i + j * rows) = 1 := by
  have hS := gaussian_value_sum_pos rows cols stddev hs hrows hcols
  have step : ∀ j ∈ Ico 0 cols, ∑ i ∈ Ico 0 rows,
      gaussian_kernel Real.exp Real.pi rows cols stddev kmem (i + j * rows)
      = (∑ i ∈ Ico 0 rows, gaussian_value Real.exp Real.pi rows cols stddev i j)
        * (1 / ∑ b ∈ Ico 0 cols, ∑ a ∈ Ico 0 rows,
            gaussian_value Real.exp Real.pi rows cols stddev a b) := by
    intro j hj
    rw [sum_mul]
    apply sum_congr rfl
    intro i hi
    rw [mem_Ico] at hi hj
    exact gaussian_kernel_apply Real.exp Real.pi rows cols stddev kmem i j hi.1 hi.2 hj.1 hj.2
  rw [sum_congr rfl step, ← sum_mul]
  exact mul_one_div_cancel (ne_of_gt hS)

end GaussianReal

section Claims

open Finset

/-- C1: for every in-range output cell `(i, j)` and each of the three channels, the
channel of `out[i + j*rows]` after `apply_stencil` is its value before the call plus the
sum, over exactly the window cells `(x, y)` with `|x-i| ≤ radius`, `|y-j| ≤ radius`,
`0 ≤ x < rows`, `0 ≤ y < cols`, of
`kernel[(x-i+radius) + (y-j+radius)*(2*radius+1)] * in[x + y*rows]`, where `kernel` is
the array produced by `gaussian_kernel`; with a zero output cell this is the weighted sum
itself. -/
theorem apply_stencil_weighted_sum (radius rows cols : Int) (stddev : ℝ)
    (kmem : Int → ℝ) (inp out : Int → pixel ℝ) (i j : Int)
    (_hrad : 1 ≤ radius) (_hstd : 0 < stddev)
    (hi0 : 0 ≤ i) (hi1 : i < rows) (hj0 : 0 ≤ j) (hj1 : j < cols) :
    ∀ ch ∈ [pixel.red, pixel.green, pixel.blue],
      (ch (apply_stencil Real.exp Real.pi radius stddev rows cols kmem inp out (i + j * rows))
        = ch (out (i + j * rows))
          + ∑ p ∈ (Icc (i - radius) (i + radius) ×ˢ Icc (j - radius) (j + radius)).filter
              (fun p => 0 ≤ p.1 ∧ p.1 < rows ∧ 0 ≤ p.2 ∧ p.2 < cols),
              gaussian_kernel Real.exp Real.pi (2 * radius + 1) (2 * radius + 1) stddev kmem
                  ((p.1 - i + radius) + (p.2 - j + radius) * (2 * radius + 1))
                * ch (inp (p.1 + p.2 * rows)))
      ∧ (out (i + j * rows) = { red := 0, green := 0, blue := 0 } →
        ch (apply_stencil Real.exp Real.pi radius stddev rows cols kmem inp out (i + j * rows))
        = ∑ p ∈ (Icc (i - radius) (i + radius) ×ˢ Icc (j - radius) (j + radius)).filter
              (fun p => 0 ≤ p.1 ∧ p.1 < rows ∧ 0 ≤ p.2 ∧ p.2 < cols),
              gaussian_kernel Real.exp Real.pi (2 * radius + 1) (2 * radius + 1) stddev kmem
                  ((p.1 - i + radius) + (p.2 - j + radius) * (2 * radius + 1))
                * ch (inp (p.1 + p.2 * rows))) := by
  have e1 : radius * 2 + 1 = 2 * radius + 1 := by ring
  have e2 : ∀ a b : Int, a - (b - radius) = a - b + radius := fun a b => by ring
  intro ch hch
  unfold apply_stencil
  rw [stencil_loop_apply radius rows cols _ inp out i j hi0 hi1 hj0 hj1]
  simp only [e1, e2]
  simp only [List.mem_cons, List.mem_singleton, List.not_mem_nil, or_false] at hch
  rcases hch with h | h | h
  all_goals
    subst h
    refine ⟨rfl, fun hz => ?_⟩
    simp [hz]

end Claims

section AllOnes

open Finset

variable {K : Type} [Field K]

/-- The stencil loop with an all-ones kernel on an all-ones buffer and a zero output
counts the in-range cells of the window. -/
theorem stencil_ones_count (radius rows cols : Int) (kernel : Int → K)
    (inp out : Int → pixel K)
    (hk : ∀ k, 0 ≤ k → k < (radius * 2 + 1) * (radius * 2 + 1) → kernel k = 1)
    (hin : ∀ o, 0 ≤ o → o < rows * cols → inp o = { red := 1, green := 1, blue := 1 })
    (hout : ∀ o, 0 ≤ o → o < rows * cols → out o = { red := 0, green := 0, blue := 0 })
    (i j : Int) (hi0 : 0 ≤ i) (hi1 : i < rows) (hj0 : 0 ≤ j) (hj1 : j < cols) :
    stencil_loop radius rows cols kernel inp out (i + j * rows) =
      { red := (((Icc (max (i - radius) 0) (min (i + radius) (rows - 1))
          ×ˢ Icc (max (j - radius) 0) (min (j + radius) (cols - 1))).card : Nat) : K)
        green := (((Icc (max (i - radius) 0) (min (i + radius) (rows - 1))
          ×ˢ Icc (max (j - radius) 0) (min (j + radius) (cols - 1))).card : Nat) : K)
        blue := (((Icc (max (i - radius) 0) (min (i + radius) (rows - 1))
          ×ˢ Icc (max (j - radius) 0) (min (j + radius) (cols - 1))).card : Nat) : K) } := by
  rw [stencil_loop_apply radius rows cols kernel inp out i j hi0 hi1 hj0 hj1]
  have ho := offset_range rows cols i j hi0 hi1 hj0 hj1
  rw [hout _ ho.1 ho.2, window_filter_eq]
  have term : ∀ p ∈ Icc (max (i - radius) 0) (min (i + radius) (rows - 1))
        ×ˢ Icc (max (j - radius) 0) (min (j + radius) (cols - 1)),
      kernel ((p.1 - (i - radius)) + (p.2 - (j - radius)) * (radius * 2 + 1)) = 1
        ∧ inp (p.1 + p.2 * rows) = { red := 1, green := 1, blue := 1 } := by
    intro p hp
    simp only [mem_product, mem_Icc] at hp
    obtain ⟨⟨h1, h2⟩, h3, h4⟩ := hp
    have hx0 : 0 ≤ p.1 := by omega
    have hx1 : p.1 < rows := by omega
    have hy0 : 0 ≤ p.2 := by omega
    have hy1 : p.2 < cols := by omega
    have hp1 := offset_range rows cols p.1 p.2 hx0 hx1 hy0 hy1
    refine ⟨hk _ ?_ ?_, hin _ hp1.1 hp1.2⟩
    · have : 0 ≤ p.1 - (i - radius) := by omega
      have : 0 ≤ p.2 - (j - radius) := by omega
      have : 0 ≤ radius * 2 + 1 := by omega
      positivity
    · have ha0 : 0 ≤ p.1 - (i - radius) := by omega
      have ha1 : p.1 - (i - radius) ≤ radius * 2 := by omega
      have hb0 : 0 ≤ p.2 - (j - radius) := by omega
      have hb1 : p.2 - (j - radius) ≤ radius * 2 := by omega
      nlinarith
  have hsum : ∀ g : pixel K → K, g { red := 1, green := 1, blue := 1 } = 1 →
      ∑ p ∈ Icc (max (i - radius) 0) (min (i + radius) (rows - 1))
        ×ˢ Icc (max (j - radius) 0) (min (j + radius) (cols - 1)),
        kernel ((p.1 - (i - radius)) + (p.2 - (j - radius)) * (radius * 2 + 1))
          * g (inp (p.1 + p.2 * rows))
      = (((Icc (max (i - radius) 0) (min (i + radius) (rows - 1))
          ×ˢ Icc (max (j - radius) 0) (min (j + radius) (cols - 1))).card : Nat) : K) := by
    intro g hg
    rw [sum_congr rfl (fun p hp => by rw [(term p hp).1, (term p hp).2, hg, mul_one])]
    simp
  rw [hsum pixel.red rfl, hsum pixel.green rfl, hsum pixel.blue rfl]
  simp

/-- C4: under the skip boundary policy of the stencil loop, an all-ones 3x3 kernel
(radius 1) applied to an all-ones buffer with `rows ≥ 3`, `cols ≥ 3` and a zero output
yields 9 in every channel of every interior cell (`1 ≤ i ≤ rows-2`, `1 ≤ j ≤ cols-2`) and
4 in every channel of each of the four corner cells. -/
theorem stencil_all_ones (rows cols : Int) (kernel : Int → K) (inp out : Int → pixel K)
    (hrows : 3 ≤ rows) (hcols : 3 ≤ cols)
    (hk : ∀ k, 0 ≤ k → k < 9 → kernel k = 1)
    (hin : ∀ o, 0 ≤ o → o < rows * cols → inp o = { red := 1, green := 1, blue := 1 })
    (hout : ∀ o, 0 ≤ o → o < rows * cols → out o = { red := 0, green := 0, blue := 0 }) :
    (∀ i j, 1 ≤ i → i ≤ rows - 2 → 1 ≤ j → j ≤ cols - 2 →
        stencil_loop 1 rows cols kernel inp out (i + j * rows)
          = { red := 9, green := 9, blue := 9 })
    ∧ stencil_loop 1 rows cols kernel inp out (0 + 0 * rows)
        = { red := 4, green := 4, blue := 4 }
    ∧ stencil_loop 1 rows cols kernel inp out ((rows - 1) + 0 * rows)
        = { red := 4, green := 4, blue := 4 }
    ∧ stencil_loop 1 rows cols kernel inp out (0 + (cols - 1) * rows)
        = { red := 4, green := 4, blue := 4 }
    ∧ stencil_loop 1 rows cols kernel inp out ((rows - 1) + (cols - 1) * rows)
        = { red := 4, green := 4, blue := 4 } := by
  have hk2 : ∀ k, 0 ≤ k → k < ((1 : Int) * 2 + 1) * ((1 : Int) * 2 + 1) → kernel k = 1 :=
    fun k h0 h1 => hk k h0 (by omega)
  have key := stencil_ones_count 1 rows cols kernel inp out hk2 hin hout
  refine ⟨fun i j hi0 hi1 hj0 hj1 => ?_, ?_, ?_, ?_, ?_⟩
  · rw [key i j (by omega) (by omega) (by omega) (by omega)]
    have e1 : max (i - 1) 0 = i - 1 := by omega
    have e2 : min (i + 1) (rows - 1) = i + 1 := by omega
    have e3 : max (j - 1) 0 = j - 1 := by omega
    have e4 : min (j + 1) (cols - 1) = j + 1 := by omega
    rw [e1, e2, e3, e4, card_product, Int.card_Icc, Int.card_Icc]
    have c1 : (i + 1 + 1 - (i - 1)).toNat = 3 := by omega
    have c2 : (j + 1 + 1 - (j - 1)).toNat = 3 := by omega
    rw [c1, c2]
    norm_num [show Int.toNat 2 = 2 from rfl]
  · rw [key 0 0 (by omega) (by omega) (by omega) (by omega)]
    have e1 : max ((0 : Int) - 1) 0 = 0 := by omega
    have e2 : min ((0 : Int) + 1) (rows - 1) = 1 := by omega
    have e4 : min ((0 : Int) + 1) (cols - 1) = 1 := by omega
    rw [e1, e2, e4, card_product, Int.card_Icc]
    norm_num [show Int.toNat 2 = 2 from rfl]
  · rw [key (rows - 1) 0 (by omega) (by omega) (by omega) (by omega)]
    have e1 : max ((0 : Int) - 1) 0 = 0 := by omega
    have e2 : min ((0 : Int) + 1) (cols - 1) = 1 := by omega
    have e3 : max (rows - 1 - 1) 0 = rows - 2 := by omega
    have e4 : min (rows - 1 + 1) (rows - 1) = rows - 1 := by omega
    rw [e1, e2, e3, e4, card_product, Int.card_Icc, Int.card_Icc]
    have c1 : (rows - 1 + 1 - (rows - 2)).toNat = 2 := by omega
    rw [c1]
    norm_num [show Int.toNat 2 = 2 from rfl]
  · rw [key 0 (cols - 1) (by omega) (by omega) (by omega) (by omega)]
    have e1 : max ((0 : Int) - 1) 0 = 0 := by omega
    have e2 : min ((0 : Int) + 1) (rows - 1) = 1 := by omega
    have e3 : max (cols - 1 - 1) 0 = cols - 2 := by omega
    have e4 : min (cols - 1 + 1) (cols - 1) = cols - 1 := by omega
    rw [e1, e2, e3, e4, card_product, Int.card_Icc, Int.card_Icc]
    have c1 : (cols - 1 + 1 - (cols - 2)).toNat = 2 := by omega
    rw [c1]
    norm_num [show Int.toNat 2 = 2 from rfl]
  · rw [key (rows - 1) (cols - 1) (by omega) (by omega) (by omega) (by omega)]
    have e1 : max (rows - 1 - 1) 0 = rows - 2 := by omega
    have e2 : min (rows - 1 + 1) (rows - 1) = rows - 1 := by omega
    have e3 : max (cols - 1 - 1) 0 = cols - 2 := by omega
    have e4 : min (cols - 1 + 1) (cols - 1) = cols - 1 := by omega
    rw [e1, e2, e3, e4, card_product, Int.card_Icc, Int.card_Icc]
    have c1 : (rows - 1 + 1 - (rows - 2)).toNat = 2 := by omega
    have c2 : (cols - 1 + 1 - (cols - 2)).toNat = 2 := by omega
    rw [c1, c2]
    norm_num [show Int.toNat 2 = 2 from rfl]

end AllOnes

/-! ## The Prewitt gradient loop nest -/

section PrewittLoop

open Finset

variable {K : Type} [Field K]

/-- One window cell adds its guarded terms to `Xedges[out_offset]` and
`Yedges[out_offset]`. -/
theorem prewitt_window_step_eq (rows cols : Int) (Xkernel Ykernel : Int → K)
    (blurred : Int → pixel K) (off x kx y ky : Int) (st : PrewittState K) :
    prewitt_window_step rows cols Xkernel Ykernel blurred off x kx y ky st =
      { Xedges := Function.update st.Xedges off (st.Xedges off +
          (if 0 ≤ x ∧ x < rows ∧ 0 ≤ y ∧ y < cols then
            Xkernel (kx + ky * 3) * (((blurred (x + y * rows)).red
              + (blurred (x + y * rows)).green + (blurred (x + y * rows)).blue) / 3)
           else 0))
        Yedges := Function.update st.Yedges off (st.Yedges off +
          (if 0 ≤ x ∧ x < rows ∧ 0 ≤ y ∧ y < cols then
            Ykernel (kx + ky * 3) * (((blurred (x + y * rows)).red
              + (blurred (x + y * rows)).green + (blurred (x + y * rows)).blue) / 3)
           else 0))
        out := st.out } := by
  unfold prewitt_window_step
  by_cases hg : 0 ≤ x ∧ x < rows ∧ 0 ≤ y ∧ y < cols
  · have hg2 : x ≥ 0 ∧ x < rows ∧ y ≥ 0 ∧ y < cols := hg
    simp only [if_pos hg2, if_pos hg]
  · have hg2 : ¬ (x ≥ 0 ∧ x < rows ∧ y ≥ 0 ∧ y < cols) := hg
    simp only [if_neg hg2, if_neg hg, add_zero, Function.update_eq_self]

/-- A loop whose every iteration adds a term to one fixed cell of each gradient array
adds the sums of the terms. -/
theorem loopN_accum_edges (off : Int) (tX tY : Nat → K)
    (body : Nat → PrewittState K → PrewittState K)
    (h : ∀ k st, body k st =
      { Xedges := Function.update st.Xedges off (st.Xedges off + tX k)
        Yedges := Function.update st.Yedges off (st.Yedges off + tY k)
        out := st.out })
    (n : Nat) (st : PrewittState K) :
    loopN n body st =
      { Xedges := Function.update st.Xedges off (st.Xedges off + ∑ k ∈ range n, tX k)
        Yedges := Function.update st.Yedges off (st.Yedges off + ∑ k ∈ range n, tY k)
        out := st.out } := by
  induction n with
  | zero =>
    simp only [loopN_zero, range_zero, sum_empty, add_zero, Function.update_eq_self]
  | succ m ih =>
    rw [loopN_succ, ih, h]
    simp [Function.update_idem, sum_range_succ, add_assoc]

/-- The effect of the body of the row loop of `apply_prewittKs` for cell `(i, j)`. -/
theorem prewitt_cell_eq (sqrt : K → K) (rows cols : Int) (Xkernel Ykernel : Int → K)
    (blurred : Int → pixel K) (i j : Int) (st : PrewittState K) :
    prewitt_cell sqrt rows cols Xkernel Ykernel blurred i j st =
      { Xedges := Function.update st.Xedges (i + j * rows) (st.Xedges (i + j * rows) +
          ∑ p ∈ (Icc (i - 1) (i + 1) ×ˢ Icc (j - 1) (j + 1)).filter
            (fun p => 0 ≤ p.1 ∧ p.1 < rows ∧ 0 ≤ p.2 ∧ p.2 < cols),
            Xkernel ((p.1 - (i - 1)) + (p.2 - (j - 1)) * 3)
              * (((blurred (p.1 + p.2 * rows)).red + (blurred (p.1 + p.2 * rows)).green
                + (blurred (p.1 + p.2 * rows)).blue) / 3))
        Yedges := Function.update st.Yedges (i + j * rows) (st.Yedges (i + j * rows) +
          ∑ p ∈ (Icc (i - 1) (i + 1) ×ˢ Icc (j - 1) (j + 1)).filter
            (fun p => 0 ≤ p.1 ∧ p.1 < rows ∧ 0 ≤ p.2 ∧ p.2 < cols),
            Ykernel ((p.1 - (i - 1)) + (p.2 - (j - 1)) * 3)
              * (((blurred (p.1 + p.2 * rows)).red + (blurred (p.1 + p.2 * rows)).green
                + (blurred (p.1 + p.2 * rows)).blue) / 3))
        out := Function.update st.out (i + j * rows)
          { red := sqrt ((st.Xedges (i + j * rows) +
              ∑ p ∈ (Icc (i - 1) (i + 1) ×ˢ Icc (j - 1) (j + 1)).filter
                (fun p => 0 ≤ p.1 ∧ p.1 < rows ∧ 0 ≤ p.2 ∧ p.2 < cols),
                Xkernel ((p.1 - (i - 1)) + (p.2 - (j - 1)) * 3)
                  * (((blurred (p.1 + p.2 * rows)).red + (blurred (p.1 + p.2 * rows)).green
                    + (blurred (p.1 + p.2 * rows)).blue) / 3))
              * (st.Xedges (i + j * rows) +
              ∑ p ∈ (Icc (i - 1) (i + 1) ×ˢ Icc (j - 1) (j + 1)).filter
                (fun p => 0 ≤ p.1 ∧ p.1 < rows ∧ 0 ≤ p.2 ∧ p.2 < cols),
                Xkernel ((p.1 - (i - 1)) + (p.2 - (j - 1)) * 3)
                  * (((blurred (p.1 + p.2 * rows)).red + (blurred (p.1 + p.2 * rows)).green
                    + (blurred (p.1 + p.2 * rows)).blue) / 3))
              + (st.Yedges (i + j * rows) +
              ∑ p ∈ (Icc (i - 1) (i + 1) ×ˢ Icc (j - 1) (j + 1)).filter
                (fun p => 0 ≤ p.1 ∧ p.1 < rows ∧ 0 ≤ p.2 ∧ p.2 < cols),
                Ykernel ((p.1 - (i - 1)) + (p.2 - (j - 1)) * 3)
                  * (((blurred (p.1 + p.2 * rows)).red + (blurred (p.1 + p.2 * rows)).green
                    + (blurred (p.1 + p.2 * rows)).blue) / 3))
              * (st.Yedges (i + j * rows) +
              ∑ p ∈ (Icc (i - 1) (i + 1) ×ˢ Icc (j - 1) (j + 1)).filter
                (fun p => 0 ≤ p.1 ∧ p.1 < rows ∧ 0 ≤ p.2 ∧ p.2 < cols),
                Ykernel ((p.1 - (i - 1)) + (p.2 - (j - 1)) * 3)
                  * (((blurred (p.1 + p.2 * rows)).red + (blurred (p.1 + p.2 * rows)).green
                    + (blurred (p.1 + p.2 * rows)).blue) / 3)))
            green := sqrt ((st.Xedges (i + j * rows) +
              ∑ p ∈ (Icc (i - 1) (i + 1) ×ˢ Icc (j - 1) (j + 1)).filter
                (fun p => 0 ≤ p.1 ∧ p.1 < rows ∧ 0 ≤ p.2 ∧ p.2 < cols),
                Xkernel ((p.1 - (i - 1)) + (p.2 - (j - 1)) * 3)
                  * (((blurred (p.1 + p.2 * rows)).red + (blurred (p.1 + p.2 * rows)).green
                    + (blurred (p.1 + p.2 * rows)).blue) / 3))
              * (st.Xedges (i + j * rows) +
              ∑ p ∈ (Icc (i - 1) (i + 1) ×ˢ Icc (j - 1) (j + 1)).filter
                (fun p => 0 ≤ p.1 ∧ p.1 < rows ∧ 0 ≤ p.2 ∧ p.2 < cols),
                Xkernel ((p.1 - (i - 1)) + (p.2 - (j - 1)) * 3)
                  * (((blurred (p.1 + p.2 * rows)).red + (blurred (p.1 + p.2 * rows)).green
                    + (blurred (p.1 + p.2 * rows)).blue) / 3))
              + (st.Yedges (i + j * rows) +
              ∑ p ∈ (Icc (i - 1) (i + 1) ×ˢ Icc (j - 1) (j + 1)).filter
                (fun p => 0 ≤ p.1 ∧ p.1 < rows ∧ 0 ≤ p.2 ∧ p.2 < cols),
                Ykernel ((p.1 - (i - 1)) + (p.2 - (j - 1)) * 3)
                  * (((blurred (p.1 + p.2 * rows)).red + (blurred (p.1 + p.2 * rows)).green
                    + (blurred (p.1 + p.2 * rows)).blue) / 3))
              * (st.Yedges (i + j * rows) +
              ∑ p ∈ (Icc (i - 1) (i + 1) ×ˢ Icc (j - 1) (j + 1)).filter
                (fun p => 0 ≤ p.1 ∧ p.1 < rows ∧ 0 ≤ p.2 ∧ p.2 < cols),
                Ykernel ((p.1 - (i - 1)) + (p.2 - (j - 1)) * 3)
                  * (((blurred (p.1 + p.2 * rows)).red + (blurred (p.1 + p.2 * rows)).green
                    + (blurred (p.1 + p.2 * rows)).blue) / 3)))
            blue := sqrt ((st.Xedges (i + j * rows) +
              ∑ p ∈ (Icc (i - 1) (i + 1) ×ˢ Icc (j - 1) (j + 1)).filter
                (fun p => 0 ≤ p.1 ∧ p.1 < rows ∧ 0 ≤ p.2 ∧ p.2 < cols),
                Xkernel ((p.1 - (i - 1)) + (p.2 - (j - 1)) * 3)
                  * (((blurred (p.1 + p.2 * rows)).red + (blurred (p.1 + p.2 * rows)).green
                    + (blurred (p.1 + p.2 * rows)).blue) / 3))
              * (st.Xedges (i + j * rows) +
              ∑ p ∈ (Icc (i - 1) (i + 1) ×ˢ Icc (j - 1) (j + 1)).filter
                (fun p => 0 ≤ p.1 ∧ p.1 < rows ∧ 0 ≤ p.2 ∧ p.2 < cols),
                Xkernel ((p.1 - (i - 1)) + (p.2 - (j - 1)) * 3)
                  * (((blurred (p.1 + p.2 * rows)).red + (blurred (p.1 + p.2 * rows)).green
                    + (blurred (p.1 + p.2 * rows)).blue) / 3))
              + (st.Yedges (i + j * rows) +
              ∑ p ∈ (Icc (i - 1) (i + 1) ×ˢ Icc (j - 1) (j + 1)).filter
                (fun p => 0 ≤ p.1 ∧ p.1 < rows ∧ 0 ≤ p.2 ∧ p.2 < cols),
                Ykernel ((p.1 - (i - 1)) + (p.2 - (j - 1)) * 3)
                  * (((blurred (p.1 + p.2 * rows)).red + (blurred (p.1 + p.2 * rows)).green
                    + (blurred (p.1 + p.2 * rows)).blue) / 3))
              * (st.Yedges (i + j * rows) +
              ∑ p ∈ (Icc (i - 1) (i + 1) ×ˢ Icc (j - 1) (j + 1)).filter
                (fun p => 0 ≤ p.1 ∧ p.1 < rows ∧ 0 ≤ p.2 ∧ p.2 < cols),
                Ykernel ((p.1 - (i - 1)) + (p.2 - (j - 1)) * 3)
                  * (((blurred (p.1 + p.2 * rows)).red + (blurred (p.1 + p.2 * rows)).green
                    + (blurred (p.1 + p.2 * rows)).blue) / 3))) } } := by
  have hX := window_double_sum rows cols i j 1 3 Xkernel (fun o =>
    ((blurred o).red + (blurred o).green + (blurred o).blue) / 3)
  have hY := window_double_sum rows cols i j 1 3 Ykernel (fun o =>
    ((blurred o).red + (blurred o).green + (blurred o).blue) / 3)
  simp only [] at hX hY
  unfold prewitt_cell forWindow
  simp only []
  rw [loopN_accum_edges (i + j * rows) _ _ _
    (fun k s => by
      rw [loopN_accum_edges (i + j * rows) _ _ _
        (fun k2 s2 => prewitt_window_step_eq rows cols Xkernel Ykernel blurred (i + j * rows)
          (i - 1 + (k : Int)) (k : Int) (j - 1 + (k2 : Int)) (k2 : Int) s2)])]
  simp only [Function.update_same, Function.update_idem, hX, hY]

/-- The initialisation loop of `apply_prewittKs` zeroes both gradient arrays on
`[0, n)`. -/
theorem edges_zeroed (n : Int) (Xmem Ymem : Int → K) (o : Int) (h0 : 0 ≤ o) (h1 : o < n) :
    (forRange 0 n (fun i (e : (Int → K) × (Int → K)) =>
      (Function.update e.1 i 0, Function.update e.2 i 0)) (Xmem, Ymem)).1 o = 0
    ∧ (forRange 0 n (fun i (e : (Int → K) × (Int → K)) =>
      (Function.update e.1 i 0, Function.update e.2 i 0)) (Xmem, Ymem)).2 o = 0 := by
  have h := forRange_read (fun (e : (Int → K) × (Int → K)) o => (e.1 o, e.2 o))
    (fun i o v => if o = i then ((0 : K), (0 : K)) else v)
    (fun i (e : (Int → K) × (Int → K)) =>
      (Function.update e.1 i 0, Function.update e.2 i 0))
    (fun i s o => by
      simp only [Function.update_apply]
      split_ifs <;> rfl) 0 n (Xmem, Ymem) o
  have h2 : forRange 0 n (fun i (v : K × K) => if o = i then ((0 : K), (0 : K)) else v)
      (Xmem o, Ymem o) = (0, 0) := by
    rw [forRange_single n o h0 h1 _ (fun i _ _ hne t => by simp [hne.symm])]
    simp
  have h3 := h.trans h2
  exact ⟨congrArg Prod.fst h3, congrArg Prod.snd h3⟩

/-- The output cell written by `apply_prewittKs` at an in-range `(i, j)`: all three
channels hold `sqrt(GX*GX + GY*GY)` for the two window sums. -/
theorem apply_prewittKs_apply (sqrt : K → K) (rows cols : Int)
    (Xkmem Ykmem Xmem Ymem : Int → K) (blurred out : Int → pixel K) (i j : Int)
    (hi0 : 0 ≤ i) (hi1 : i < rows) (hj0 : 0 ≤ j) (hj1 : j < cols) :
    apply_prewittKs sqrt rows cols Xkmem Ykmem Xmem Ymem blurred out (i + j * rows) =
      { red := sqrt (
            (∑ p ∈ (Icc (i - 1) (i + 1) ×ˢ Icc (j - 1) (j + 1)).filter
                (fun p => 0 ≤ p.1 ∧ p.1 < rows ∧ 0 ≤ p.2 ∧ p.2 < cols),
                prewittX_kernel 3 3 Xkmem ((p.1 - (i - 1)) + (p.2 - (j - 1)) * 3)
                  * (((blurred (p.1 + p.2 * rows)).red + (blurred (p.1 + p.2 * rows)).green
                    + (blurred (p.1 + p.2 * rows)).blue) / 3))
            * (∑ p ∈ (Icc (i - 1) (i + 1) ×ˢ Icc (j - 1) (j + 1)).filter
                (fun p => 0 ≤ p.1 ∧ p.1 < rows ∧ 0 ≤ p.2 ∧ p.2 < cols),
                prewittX_kernel 3 3 Xkmem ((p.1 - (i - 1)) + (p.2 - (j - 1)) * 3)
                  * (((blurred (p.1 + p.2 * rows)).red + (blurred (p.1 + p.2 * rows)).green
                    + (blurred (p.1 + p.2 * rows)).blue) / 3))
            + (∑ p ∈ (Icc (i - 1) (i + 1) ×ˢ Icc (j - 1) (j + 1)).filter
                (fun p => 0 ≤ p.1 ∧ p.1 < rows ∧ 0 ≤ p.2 ∧ p.2 < cols),
                prewittY_kernel 3 3 Ykmem ((p.1 - (i - 1)) + (p.2 - (j - 1)) * 3)
                  * (((blurred (p.1 + p.2 * rows)).red + (blurred (p.1 + p.2 * rows)).green
                    + (blurred (p.1 + p.2 * rows)).blue) / 3))
            * (∑ p ∈ (Icc (i - 1) (i + 1) ×ˢ Icc (j - 1) (j + 1)).filter
                (fun p => 0 ≤ p.1 ∧ p.1 < rows ∧ 0 ≤ p.2 ∧ p.2 < cols),
                prewittY_kernel 3 3 Ykmem ((p.1 - (i - 1)) + (p.2 - (j - 1)) * 3)
                  * (((blurred (p.1 + p.2 * rows)).red + (blurred (p.1 + p.2 * rows)).green
                    + (blurred (p.1 + p.2 * rows)).blue) / 3)))
        green := sqrt (
            (∑ p ∈ (Icc (i - 1) (i + 1) ×ˢ Icc (j - 1) (j + 1)).filter
                (fun p => 0 ≤ p.1 ∧ p.1 < rows ∧ 0 ≤ p.2 ∧ p.2 < cols),
                prewittX_kernel 3 3 Xkmem ((p.1 - (i - 1)) + (p.2 - (j - 1)) * 3)
                  * (((blurred (p.1 + p.2 * rows)).red + (blurred (p.1 + p.2 * rows)).green
                    + (blurred (p.1 + p.2 * rows)).blue) / 3))
            * (∑ p ∈ (Icc (i - 1) (i + 1) ×ˢ Icc (j - 1) (j + 1)).filter
                (fun p => 0 ≤ p.1 ∧ p.1 < rows ∧ 0 ≤ p.2 ∧ p.2 < cols),
                prewittX_kernel 3 3 Xkmem ((p.1 - (i - 1)) + (p.2 - (j - 1)) * 3)
                  * (((blurred (p.1 + p.2 * rows)).red + (blurred (p.1 + p.2 * rows)).green
                    + (blurred (p.1 + p.2 * rows)).blue) / 3))
            + (∑ p ∈ (Icc (i - 1) (i + 1) ×ˢ Icc (j - 1) (j + 1)).filter
                (fun p => 0 ≤ p.1 ∧ p.1 < rows ∧ 0 ≤ p.2 ∧ p.2 < cols),
                prewittY_kernel 3 3 Ykmem ((p.1 - (i - 1)) + (p.2 - (j - 1)) * 3)
                  * (((blurred (p.1 + p.2 * rows)).red + (blurred (p.1 + p.2 * rows)).green
                    + (blurred (p.1 + p.2 * rows)).blue) / 3))
            * (∑ p ∈ (Icc (i - 1) (i + 1) ×ˢ Icc (j - 1) (j + 1)).filter
                (fun p => 0 ≤ p.1 ∧ p.1 < rows ∧ 0 ≤ p.2 ∧ p.2 < cols),
                prewittY_kernel 3 3 Ykmem ((p.1 - (i - 1)) + (p.2 - (j - 1)) * 3)
                  * (((blurred (p.1 + p.2 * rows)).red + (blurred (p.1 + p.2 * rows)).green
                    + (blurred (p.1 + p.2 * rows)).blue) / 3)))
        blue := sqrt (
            (∑ p ∈ (Icc (i - 1) (i + 1) ×ˢ Icc (j - 1) (j + 1)).filter
                (fun p => 0 ≤ p.1 ∧ p.1 < rows ∧ 0 ≤ p.2 ∧ p.2 < cols),
                prewittX_kernel 3 3 Xkmem ((p.1 - (i - 1)) + (p.2 - (j - 1)) * 3)
                  * (((blurred (p.1 + p.2 * rows)).red + (blurred (p.1 + p.2 * rows)).green
                    + (blurred (p.1 + p.2 * rows)).blue) / 3))
            * (∑ p ∈ (Icc (i - 1) (i + 1) ×ˢ Icc (j - 1) (j + 1)).filter
                (fun p => 0 ≤ p.1 ∧ p.1 < rows ∧ 0 ≤ p.2 ∧ p.2 < cols),
                prewittX_kernel 3 3 Xkmem ((p.1 - (i - 1)) + (p.2 - (j - 1)) * 3)
                  * (((blurred (p.1 + p.2 * rows)).red + (blurred (p.1 + p.2 * rows)).green
                    + (blurred (p.1 + p.2 * rows)).blue) / 3))
            + (∑ p ∈ (Icc (i - 1) (i + 1) ×ˢ Icc (j - 1) (j + 1)).filter
                (fun p => 0 ≤ p.1 ∧ p.1 < rows ∧ 0 ≤ p.2 ∧ p.2 < cols),
                prewittY_kernel 3 3 Ykmem ((p.1 - (i - 1)) + (p.2 - (j - 1)) * 3)
                  * (((blurred (p.1 + p.2 * rows)).red + (blurred (p.1 + p.2 * rows)).green
                    + (blurred (p.1 + p.2 * rows)).blue) / 3))
            * (∑ p ∈ (Icc (i - 1) (i + 1) ×ˢ Icc (j - 1) (j + 1)).filter
                (fun p => 0 ≤ p.1 ∧ p.1 < rows ∧ 0 ≤ p.2 ∧ p.2 < cols),
                prewittY_kernel 3 3 Ykmem ((p.1 - (i - 1)) + (p.2 - (j - 1)) * 3)
                  * (((blurred (p.1 + p.2 * rows)).red + (blurred (p.1 + p.2 * rows)).green
                    + (blurred (p.1 + p.2 * rows)).blue) / 3))) } := by
  have ho := offset_range rows cols i j hi0 hi1 hj0 hj1
  have hz := edges_zeroed (rows * cols) Xmem Ymem (i + j * rows) ho.1 ho.2
  unfold apply_prewittKs
  have h := grid_read
    (fun (st : PrewittState K) o => (st.Xedges o, st.Yedges o, st.out o)) rows cols
    (fun i j st => prewitt_cell sqrt rows cols (prewittX_kernel 3 3 Xkmem)
      (prewittY_kernel 3 3 Ykmem) blurred i j st)
    (fun i j (v : K × K × pixel K) => ((prewitt_cell sqrt rows cols (prewittX_kernel 3 3 Xkmem)
        (prewittY_kernel 3 3 Ykmem) blurred i j
        { Xedges := fun _ => v.1, Yedges := fun _ => v.2.1, out := fun _ => v.2.2 }).Xedges
          (i + j * rows),
      (prewitt_cell sqrt rows cols (prewittX_kernel 3 3 Xkmem)
        (prewittY_kernel 3 3 Ykmem) blurred i j
        { Xedges := fun _ => v.1, Yedges := fun _ => v.2.1, out := fun _ => v.2.2 }).Yedges
          (i + j * rows),
      (prewitt_cell sqrt rows cols (prewittX_kernel 3 3 Xkmem)
        (prewittY_kernel 3 3 Ykmem) blurred i j
        { Xedges := fun _ => v.1, Yedges := fun _ => v.2.1, out := fun _ => v.2.2 }).out
          (i + j * rows)))
    (fun i j s o => by
      simp only [prewitt_cell_eq, Function.update_apply]
      split_ifs with h
      · rw [h]
      · rfl)
    { Xedges := (forRange 0 (rows * cols) (fun i (e : (Int → K) × (Int → K)) =>
        (Function.update e.1 i 0, Function.update e.2 i 0)) (Xmem, Ymem)).1
      Yedges := (forRange 0 (rows * cols) (fun i (e : (Int → K) × (Int → K)) =>
        (Function.update e.1 i 0, Function.update e.2 i 0)) (Xmem, Ymem)).2
      out := out } i j hi0 hi1 hj0 hj1
  have h3 := congrArg (fun t => t.2.2) h
  simp only [] at h3
  rw [h3]
  simp only [prewitt_cell_eq, Function.update_same, hz.1, hz.2, zero_add]

end PrewittLoop

/-! ## Windows over uniform fields -/

section Uniform

open Finset

variable {K : Type} [Field K]

/-- Re-indexing a sum over a window interval by the kernel coordinate. -/
theorem sum_Icc_shift (lo hi n : Int) (hn : hi + 1 - lo = n) (f : Int → K) :
    ∑ x ∈ Icc lo hi, f (x - lo) = ∑ a ∈ Ico 0 n, f a := by
  rw [Int.Ico_eq_finset_map, Int.Icc_eq_finset_map, sum_map, sum_map, hn, sub_zero]
  apply sum_congr rfl
  intro k _
  simp

/-- The kernel weights met by a whole window are all the cells of the kernel. -/
theorem window_weights (i j r dim : Int) (kernel : Int → K) :
    ∑ p ∈ Icc (i - r) (i + r) ×ˢ Icc (j - r) (j + r),
        kernel ((p.1 - (i - r)) + (p.2 - (j - r)) * dim)
      = ∑ b ∈ Ico 0 (2 * r + 1), ∑ a ∈ Ico 0 (2 * r + 1), kernel (a + b * dim) := by
  rw [sum_product, sum_comm]
  rw [← sum_Icc_shift (j - r) (j + r) (2 * r + 1) (by ring)
    (fun b => ∑ a ∈ Ico 0 (2 * r + 1), kernel (a + b * dim))]
  apply sum_congr rfl
  intro y _
  exact sum_Icc_shift (i - r) (i + r) (2 * r + 1) (by ring)
    (fun a => kernel (a + (y - (j - r)) * dim))

/-- Over a field that is constant on the in-range cells, the window sum is the constant
times the sum of the weights of the in-range window cells. -/
theorem window_sum_uniform (rows cols i j r dim : Int) (kernel : Int → K) (g : Int → K)
    (c : K) (hu : ∀ x y, 0 ≤ x → x < rows → 0 ≤ y → y < cols → g (x + y * rows) = c) :
    ∑ p ∈ (Icc (i - r) (i + r) ×ˢ Icc (j - r) (j + r)).filter
        (fun p => 0 ≤ p.1 ∧ p.1 < rows ∧ 0 ≤ p.2 ∧ p.2 < cols),
        kernel ((p.1 - (i - r)) + (p.2 - (j - r)) * dim) * g (p.1 + p.2 * rows)
      = (∑ p ∈ (Icc (i - r) (i + r) ×ˢ Icc (j - r) (j + r)).filter
          (fun p => 0 ≤ p.1 ∧ p.1 < rows ∧ 0 ≤ p.2 ∧ p.2 < cols),
          kernel ((p.1 - (i - r)) + (p.2 - (j - r)) * dim)) * c := by
  rw [sum_mul]
  apply sum_congr rfl
  intro p hp
  rw [mem_filter] at hp
  rw [hu p.1 p.2 hp.2.1 hp.2.2.1 hp.2.2.2.1 hp.2.2.2.2]

/-- A window that lies inside the buffer has no out-of-range cell. -/
theorem window_filter_interior (rows cols i j r : Int) (hi0 : r ≤ i) (hi1 : i + r < rows)
    (hj0 : r ≤ j) (hj1 : j + r < cols) :
    (Icc (i - r) (i + r) ×ˢ Icc (j - r) (j + r)).filter
        (fun p => 0 ≤ p.1 ∧ p.1 < rows ∧ 0 ≤ p.2 ∧ p.2 < cols)
      = Icc (i - r) (i + r) ×ˢ Icc (j - r) (j + r) := by
  apply filter_true_of_mem
  intro p hp
  simp only [mem_product, mem_Icc] at hp
  omega

/-- The nine weights of each Prewitt kernel sum to zero. -/
theorem prewitt_weights_zero (Xkmem Ykmem : Int → K) :
    (∑ b ∈ Ico (0 : Int) (2 * 1 + 1), ∑ a ∈ Ico (0 : Int) (2 * 1 + 1),
        prewittX_kernel 3 3 Xkmem (a + b * 3)) = 0
    ∧ (∑ b ∈ Ico (0 : Int) (2 * 1 + 1), ∑ a ∈ Ico (0 : Int) (2 * 1 + 1),
        prewittY_kernel 3 3 Ykmem (a + b * 3)) = 0 := by
  have e : Ico (0 : Int) (2 * 1 + 1) = {0, 1, 2} := by decide
  rw [e]
  constructor
  · simp [prewittX_kernel_apply]
  · simp [prewittY_kernel_apply]
    ring

end Uniform

section PrewittClaims

open Finset

/-- C8: whatever `k` held before, `prewittX_kernel(3,3,k)` and `prewittY_kernel(3,3,k)`
overwrite all 9 cells; with flat index `c + 3*r` the X kernel holds `c-1` (flat contents
`[-1,0,1,-1,0,1,-1,0,1]`) and the Y kernel holds `1-r` (flat contents
`[1,1,1,0,0,0,-1,-1,-1]`); the values are not normalised. -/
theorem prewitt_kernels_fixed {K : Type} [Field K] (k : Int → K) :
    (∀ r c : Fin 3,
      prewittX_kernel 3 3 k ((c.val : Int) + 3 * (r.val : Int)) = (c.val : K) - 1
      ∧ prewittY_kernel 3 3 k ((c.val : Int) + 3 * (r.val : Int)) = 1 - (r.val : K))
    ∧ List.map (prewittX_kernel 3 3 k) [0, 1, 2, 3, 4, 5, 6, 7, 8]
        = [-1, 0, 1, -1, 0, 1, -1, 0, 1]
    ∧ List.map (prewittY_kernel 3 3 k) [0, 1, 2, 3, 4, 5, 6, 7, 8]
        = [1, 1, 1, 0, 0, 0, -1, -1, -1] := by
  refine ⟨fun r c => ?_, ?_, ?_⟩
  · fin_cases r <;> fin_cases c <;>
      simp [prewittX_kernel_apply, prewittY_kernel_apply] <;> norm_num
  · simp [prewittX_kernel_apply]
  · simp [prewittY_kernel_apply]

/-- C5: for every in-range `(i, j)` and whatever `out` held before, the three channels of
`out[i + j*rows]` after `apply_prewittKs` all equal `sqrt(GX^2 + GY^2)`, where `GX` and
`GY` are the sums over the in-range cells `(x, y)` of the 3x3 window centred at `(i, j)`
of `Xkernel` resp. `Ykernel` at offset `(x-i+1) + 3*(y-j+1)` times the mean
`(red+green+blue)/3` of `blurred[x + y*rows]`.  (`blurred` is an input of the function
and is not part of its result.) -/
theorem apply_prewittKs_magnitude (rows cols : Int) (Xkmem Ykmem Xmem Ymem : Int → ℝ)
    (blurred out : Int → pixel ℝ) (i j : Int)
    (hi0 : 0 ≤ i) (hi1 : i < rows) (hj0 : 0 ≤ j) (hj1 : j < cols) :
    ∀ ch ∈ [pixel.red, pixel.green, pixel.blue],
      ch (apply_prewittKs Real.sqrt rows cols Xkmem Ykmem Xmem Ymem blurred out
          (i + j * rows))
        = Real.sqrt (
            (∑ p ∈ (Icc (i - 1) (i + 1) ×ˢ Icc (j - 1) (j + 1)).filter
                (fun p => 0 ≤ p.1 ∧ p.1 < rows ∧ 0 ≤ p.2 ∧ p.2 < cols),
                prewittX_kernel 3 3 Xkmem ((p.1 - i + 1) + 3 * (p.2 - j + 1))
                  * (((blurred (p.1 + p.2 * rows)).red + (blurred (p.1 + p.2 * rows)).green
                    + (blurred (p.1 + p.2 * rows)).blue) / 3)) ^ 2
            + (∑ p ∈ (Icc (i - 1) (i + 1) ×ˢ Icc (j - 1) (j + 1)).filter
                (fun p => 0 ≤ p.1 ∧ p.1 < rows ∧ 0 ≤ p.2 ∧ p.2 < cols),
                prewittY_kernel 3 3 Ykmem ((p.1 - i + 1) + 3 * (p.2 - j + 1))
                  * (((blurred (p.1 + p.2 * rows)).red + (blurred (p.1 + p.2 * rows)).green
                    + (blurred (p.1 + p.2 * rows)).blue) / 3)) ^ 2) := by
  have idx : ∀ p : Int × Int,
      (p.1 - i + 1) + 3 * (p.2 - j + 1) = (p.1 - (i - 1)) + (p.2 - (j - 1)) * 3 :=
    fun p => by ring
  intro ch hch
  rw [apply_prewittKs_apply Real.sqrt rows cols Xkmem Ykmem Xmem Ymem blurred out i j
    hi0 hi1 hj0 hj1]
  simp only [idx, sq]
  simp only [List.mem_cons, List.mem_singleton, List.not_mem_nil, or_false] at hch
  rcases hch with h | h | h <;> subst h <;> rfl

end PrewittClaims

section UniformClaims

open Finset

/-- C3 (as stated, refuted): on the 1x2 buffer whose every pixel is `(1, 1, 1)` (uniform
grayscale intensity 1), `apply_prewittKs` writes magnitude 1, not 0, to the border cell
`(0, 0)`, in exact arithmetic.  And on binary64, for the 3x3 buffer whose every channel is
the `double` nearest `11/255`, it writes the rounding residue `2^-56`, not 0, to the
interior cell `(1, 1)`. -/
theorem prewitt_uniform_border_nonzero :
    apply_prewittKs Real.sqrt 1 2 (fun _ => 0) (fun _ => 0) (fun _ => 0) (fun _ => 0)
        (fun _ => { red := 1, green := 1, blue := 1 })
        (fun _ => { red := 0, green := 0, blue := 0 }) (0 + 0 * 1)
      = { red := 1, green := 1, blue := 1 }
    ∧ (apply_prewittKs Real.sqrt 1 2 (fun _ => 0) (fun _ => 0) (fun _ => 0) (fun _ => 0)
        (fun _ => { red := 1, green := 1, blue := 1 })
        (fun _ => { red := 0, green := 0, blue := 0 }) (0 + 0 * 1)).red ≠ 0
    ∧ (Binary64.apply_prewittKs 3 3 (fun _ => 0) (fun _ => 0) (fun _ => 0) (fun _ => 0)
        (fun _ => { red := Binary64.rnd (11 / 255), green := Binary64.rnd (11 / 255),
                    blue := Binary64.rnd (11 / 255) })
        (fun _ => { red := 0, green := 0, blue := 0 }) (1 + 1 * 3)).red
      = Binary64.F64.fin (1 / 2 ^ 56)
    ∧ Binary64.lt 0
        (Binary64.apply_prewittKs 3 3 (fun _ => 0) (fun _ => 0) (fun _ => 0) (fun _ => 0)
          (fun _ => { red := Binary64.rnd (11 / 255), green := Binary64.rnd (11 / 255),
                      blue := Binary64.rnd (11 / 255) })
          (fun _ => { red := 0, green := 0, blue := 0 }) (1 + 1 * 3)).red = true := by
  have key : apply_prewittKs Real.sqrt 1 2 (fun _ => 0) (fun _ => 0) (fun _ => 0)
        (fun _ => 0) (fun _ => { red := 1, green := 1, blue := 1 })
        (fun _ => { red := 0, green := 0, blue := 0 }) (0 + 0 * 1)
      = { red := 1, green := 1, blue := 1 } := by
    rw [apply_prewittKs_apply Real.sqrt 1 2 _ _ _ _ _ _ 0 0 (by norm_num) (by norm_num)
      (by norm_num) (by norm_num), window_filter_eq]
    have e : Icc (max ((0 : Int) - 1) 0) (min (0 + 1) (1 - 1))
        ×ˢ Icc (max ((0 : Int) - 1) 0) (min (0 + 1) (2 - 1)) = {(0, 0), (0, 1)} := by
      decide
    rw [e]
    simp [prewittX_kernel_apply, prewittY_kernel_apply]
    norm_num
  rw [key]
  exact ⟨rfl, one_ne_zero, by decide!, by decide!⟩

/-- C3 (amended): in exact real arithmetic, for a blurred buffer whose grayscale intensity
`(red+green+blue)/3` is the same at every cell, `apply_prewittKs` writes gradient
magnitude 0 to all three channels of every interior output cell (`1 ≤ i ≤ rows-2`,
`1 ≤ j ≤ cols-2`). -/
theorem prewitt_uniform_interior_zero (rows cols : Int) (Xkmem Ykmem Xmem Ymem : Int → ℝ)
    (blurred out : Int → pixel ℝ) (g : ℝ) (i j : Int)
    (hu : ∀ x y, 0 ≤ x → x < rows → 0 ≤ y → y < cols →
      ((blurred (x + y * rows)).red + (blurred (x + y * rows)).green
        + (blurred (x + y * rows)).blue) / 3 = g)
    (hi0 : 1 ≤ i) (hi1 : i ≤ rows - 2) (hj0 : 1 ≤ j) (hj1 : j ≤ cols - 2) :
    ∀ ch ∈ [pixel.red, pixel.green, pixel.blue],
      ch (apply_prewittKs Real.sqrt rows cols Xkmem Ykmem Xmem Ymem blurred out
          (i + j * rows)) = 0 := by
  have hX := window_sum_uniform rows cols i j 1 3 (prewittX_kernel 3 3 Xkmem)
    (fun o => ((blurred o).red + (blurred o).green + (blurred o).blue) / 3) g hu
  have hY := window_sum_uniform rows cols i j 1 3 (prewittY_kernel 3 3 Ykmem)
    (fun o => ((blurred o).red + (blurred o).green + (blurred o).blue) / 3) g hu
  simp only [] at hX hY
  rw [window_filter_interior rows cols i j 1 (by omega) (by omega) (by omega) (by omega),
    window_weights] at hX hY
  rw [(prewitt_weights_zero Xkmem Ykmem).1] at hX
  rw [(prewitt_weights_zero Xkmem Ykmem).2] at hY
  intro ch hch
  rw [apply_prewittKs_apply Real.sqrt rows cols Xkmem Ykmem Xmem Ymem blurred out i j
    (by omega) (by omega) (by omega) (by omega)]
  rw [window_filter_interior rows cols i j 1 (by omega) (by omega) (by omega) (by omega),
    hX, hY]
  simp only [List.mem_cons, List.mem_singleton, List.not_mem_nil, or_false] at hch
  rcases hch with h | h | h <;> subst h <;> simp

/-- C6 (amended): in exact real arithmetic, for a buffer in which a channel has the same
value `c > 0` at every cell and a zero-initialised output, `apply_stencil` yields exactly
`c` in that channel at every cell whose `(2*radius+1)^2` window lies entirely inside the
buffer, and a value strictly between 0 and `c` at every cell lying within `radius` of an
edge. -/
theorem blur_uniform_edge_smaller (radius rows cols : Int) (stddev c : ℝ)
    (kmem : Int → ℝ) (inp out : Int → pixel ℝ) (i j : Int)
    (hrad : 1 ≤ radius) (hstd : 0 < stddev) (hc : 0 < c)
    (hi0 : 0 ≤ i) (hi1 : i < rows) (hj0 : 0 ≤ j) (hj1 : j < cols)
    (hout : ∀ x y, 0 ≤ x → x < rows → 0 ≤ y → y < cols →
      out (x + y * rows) = { red := 0, green := 0, blue := 0 }) :
    ∀ ch ∈ [pixel.red, pixel.green, pixel.blue],
      (∀ x y, 0 ≤ x → x < rows → 0 ≤ y → y < cols → ch (inp (x + y * rows)) = c) →
      ((radius ≤ i ∧ i + radius < rows ∧ radius ≤ j ∧ j + radius < cols →
          ch (apply_stencil Real.exp Real.pi radius stddev rows cols kmem inp out
            (i + j * rows)) = c)
       ∧ (i < radius ∨ rows ≤ i + radius ∨ j < radius ∨ cols ≤ j + radius →
          0 < ch (apply_stencil Real.exp Real.pi radius stddev rows cols kmem inp out
            (i + j * rows))
          ∧ ch (apply_stencil Real.exp Real.pi radius stddev rows cols kmem inp out
            (i + j * rows)) < c)) := by
  intro ch hch hu
  have hs : stddev ≠ 0 := ne_of_gt hstd
  have e1 : radius * 2 + 1 = 2 * radius + 1 := by ring
  -- the blurred channel is `c` times the weight of the in-range window cells
  have hval : ch (apply_stencil Real.exp Real.pi radius stddev rows cols kmem inp out
      (i + j * rows))
      = (∑ p ∈ (Icc (i - radius) (i + radius) ×ˢ Icc (j - radius) (j + radius)).filter
          (fun p => 0 ≤ p.1 ∧ p.1 < rows ∧ 0 ≤ p.2 ∧ p.2 < cols),
          gaussian_kernel Real.exp Real.pi (2 * radius + 1) (2 * radius + 1) stddev kmem
            ((p.1 - (i - radius)) + (p.2 - (j - radius)) * (2 * radius + 1))) * c := by
    have hw := window_sum_uniform rows cols i j radius (2 * radius + 1)
      (gaussian_kernel Real.exp Real.pi (2 * radius + 1) (2 * radius + 1) stddev kmem)
      (fun o => ch (inp o)) c hu
    simp only [] at hw
    rw [← hw]
    unfold apply_stencil
    rw [stencil_loop_apply radius rows cols _ inp out i j hi0 hi1 hj0 hj1,
      hout i j hi0 hi1 hj0 hj1]
    simp only [e1]
    simp only [List.mem_cons, List.mem_singleton, List.not_mem_nil, or_false] at hch
    rcases hch with h | h | h <;> subst h <;> simp
  -- the weights of the whole window sum to one
  have hall : ∑ p ∈ Icc (i - radius) (i + radius) ×ˢ Icc (j - radius) (j + radius),
      gaussian_kernel Real.exp Real.pi (2 * radius + 1) (2 * radius + 1) stddev kmem
        ((p.1 - (i - radius)) + (p.2 - (j - radius)) * (2 * radius + 1)) = 1 := by
    rw [window_weights]
    exact gaussian_kernel_sum (2 * radius + 1) (2 * radius + 1) stddev hs (by omega)
      (by omega) kmem
  -- every weight met by the window is positive
  have hpos : ∀ p ∈ Icc (i - radius) (i + radius) ×ˢ Icc (j - radius) (j + radius),
      0 < gaussian_kernel Real.exp Real.pi (2 * radius + 1) (2 * radius + 1) stddev kmem
        ((p.1 - (i - radius)) + (p.2 - (j - radius)) * (2 * radius + 1)) := by
    intro p hp
    simp only [mem_product, mem_Icc] at hp
    exact gaussian_kernel_pos (2 * radius + 1) (2 * radius + 1) stddev hs kmem
      (p.1 - (i - radius)) (p.2 - (j - radius)) (by omega) (by omega) (by omega) (by omega)
  rw [hval]
  constructor
  · intro hin
    rw [window_filter_interior rows cols i j radius hin.1 hin.2.1 hin.2.2.1 hin.2.2.2,
      hall, one_mul]
  · intro hedge
    have hT0 : 0 < ∑ p ∈ (Icc (i - radius) (i + radius)
          ×ˢ Icc (j - radius) (j + radius)).filter
          (fun p => 0 ≤ p.1 ∧ p.1 < rows ∧ 0 ≤ p.2 ∧ p.2 < cols),
          gaussian_kernel Real.exp Real.pi (2 * radius + 1) (2 * radius + 1) stddev kmem
            ((p.1 - (i - radius)) + (p.2 - (j - radius)) * (2 * radius + 1)) := by
      apply sum_pos
      · intro p hp
        exact hpos p (mem_of_mem_filter p hp)
      · refine ⟨(i, j), ?_⟩
        simp only [mem_filter, mem_product, mem_Icc]
        omega
    have hT1 : ∑ p ∈ (Icc (i - radius) (i + radius)
          ×ˢ Icc (j - radius) (j + radius)).filter
          (fun p => 0 ≤ p.1 ∧ p.1 < rows ∧ 0 ≤ p.2 ∧ p.2 < cols),
          gaussian_kernel Real.exp Real.pi (2 * radius + 1) (2 * radius + 1) stddev kmem
            ((p.1 - (i - radius)) + (p.2 - (j - radius)) * (2 * radius + 1)) < 1 := by
      rw [← hall]
      have hmiss : ∃ p ∈ Icc (i - radius) (i + radius) ×ˢ Icc (j - radius) (j + radius),
          ¬ (0 ≤ p.1 ∧ p.1 < rows ∧ 0 ≤ p.2 ∧ p.2 < cols) := by
        rcases hedge with h | h | h | h
        · exact ⟨(i - radius, j), by simp only [mem_product, mem_Icc]; omega,
            by simp only []; omega⟩
        · exact ⟨(i + radius, j), by simp only [mem_product, mem_Icc]; omega,
            by simp only []; omega⟩
        · exact ⟨(i, j - radius), by simp only [mem_product, mem_Icc]; omega,
            by simp only []; omega⟩
        · exact ⟨(i, j + radius), by simp only [mem_product, mem_Icc]; omega,
            by simp only []; omega⟩
      obtain ⟨p0, hp0, hp0n⟩ := hmiss
      exact sum_lt_sum_of_subset (filter_subset _ _) hp0
        (fun hmem => hp0n (mem_filter.mp hmem).2) (hpos p0 hp0)
        (fun q hq _ => le_of_lt (hpos q hq))
    constructor
    · exact mul_pos hT0 hc
    · calc (∑ p ∈ (Icc (i - radius) (i + radius)
          ×ˢ Icc (j - radius) (j + radius)).filter
          (fun p => 0 ≤ p.1 ∧ p.1 < rows ∧ 0 ≤ p.2 ∧ p.2 < cols),
          gaussian_kernel Real.exp Real.pi (2 * radius + 1) (2 * radius + 1) stddev kmem
            ((p.1 - (i - radius)) + (p.2 - (j - radius)) * (2 * radius + 1))) * c
          < 1 * c := mul_lt_mul_of_pos_right hT1 hc
        _ = c := one_mul c

end UniformClaims

section Validation

open Finset

/-- C9 (as stated, refuted): for `radius = 0` and `stddev = 1` kernel generation does not
fail: `gaussian_kernel(1, 1, 1.0, kernel)` writes the one-cell kernel `[1]`, and
`apply_stencil(0, 1.0, ...)` runs to completion, adding the input pixel to the output
pixel. -/
theorem gaussian_kernel_radius_zero_succeeds :
    gaussian_kernel Real.exp Real.pi 1 1 1 (fun _ => 0) 0 = 1
    ∧ apply_stencil Real.exp Real.pi 0 1 1 1 (fun _ => 0)
        (fun _ => { red := 1, green := 1, blue := 1 })
        (fun _ => { red := 0, green := 0, blue := 0 }) (0 + 0 * 1)
      = { red := 1, green := 1, blue := 1 } := by
  have hk : gaussian_kernel Real.exp Real.pi 1 1 1 (fun _ => 0) 0 = 1 := by
    have h := gaussian_kernel_sum 1 1 1 one_ne_zero (by norm_num) (by norm_num) (fun _ => 0)
    have e : Ico (0 : Int) 1 = {0} := by decide
    rw [e] at h
    simpa using h
  refine ⟨hk, ?_⟩
  unfold apply_stencil
  rw [stencil_loop_apply 0 1 1 _ _ _ 0 0 (by norm_num) (by norm_num) (by norm_num)
    (by norm_num), window_filter_eq]
  have e : Icc (max ((0 : Int) - 0) 0) (min (0 + 0) (1 - 1))
      ×ˢ Icc (max ((0 : Int) - 0) 0) (min (0 + 0) (1 - 1)) = {(0, 0)} := by decide
  rw [e]
  simp [hk]

end Validation

/-! ## The pipeline of `main` -/

section Pipeline

open Finset

/-- Every cell of the 7x7 kernel that `main` uses (radius 3, standard deviation 32) is at
least `(1 - 18/2048)/49`. -/
theorem gaussian_kernel_lower (kmem : Int → ℝ) (a b : Int) (ha0 : 0 ≤ a) (ha1 : a < 7)
    (hb0 : 0 ≤ b) (hb1 : b < 7) :
    (1015 : ℝ) / 50176 ≤ gaussian_kernel Real.exp Real.pi 7 7 32 kmem (a + b * 7) := by
  have ht : Int.tdiv 7 2 = 3 := by decide
  have hG : (0 : ℝ) < 1 / (Real.pi * (2 * 32 * 32)) :=
    one_div_pos.mpr (mul_pos Real.pi_pos (by norm_num))
  -- each unnormalised weight lies between `G * (1 - 18/2048)` and `G`
  have hv : ∀ x y : Int, 0 ≤ x → x < 7 → 0 ≤ y → y < 7 →
      1 / (Real.pi * (2 * 32 * 32)) * (1015 / 1024)
        ≤ gaussian_value Real.exp Real.pi 7 7 32 x y
      ∧ gaussian_value Real.exp Real.pi 7 7 32 x y ≤ 1 / (Real.pi * (2 * 32 * 32)) := by
    intro x y hx0 hx1 hy0 hy1
    unfold gaussian_value
    simp only [ht]
    have hx : ((x - 3 : Int) : ℝ) * ((x - 3 : Int) : ℝ) ≤ 9 := by
      have : (x - 3) * (x - 3) ≤ 9 := by nlinarith
      exact_mod_cast this
    have hy : ((y - 3 : Int) : ℝ) * ((y - 3 : Int) : ℝ) ≤ 9 := by
      have : (y - 3) * (y - 3) ≤ 9 := by nlinarith
      exact_mod_cast this
    have hx2 : 0 ≤ ((x - 3 : Int) : ℝ) * ((x - 3 : Int) : ℝ) := mul_self_nonneg _
    have hy2 : 0 ≤ ((y - 3 : Int) : ℝ) * ((y - 3 : Int) : ℝ) := mul_self_nonneg _
    have harg0 : -(((x - 3 : Int) : ℝ) * ((x - 3 : Int) : ℝ)
        + ((y - 3 : Int) : ℝ) * ((y - 3 : Int) : ℝ)) / (2 * 32 * 32) ≤ 0 := by
      apply div_nonpos_of_nonpos_of_nonneg <;> linarith
    have harg1 : -(18 : ℝ) / 2048 ≤ -(((x - 3 : Int) : ℝ) * ((x - 3 : Int) : ℝ)
        + ((y - 3 : Int) : ℝ) * ((y - 3 : Int) : ℝ)) / (2 * 32 * 32) := by
      rw [div_le_div_iff₀ (by norm_num) (by norm_num)]
      linarith
    have hlow := Real.add_one_le_exp (-(((x - 3 : Int) : ℝ) * ((x - 3 : Int) : ℝ)
        + ((y - 3 : Int) : ℝ) * ((y - 3 : Int) : ℝ)) / (2 * 32 * 32))
    have hup := Real.exp_le_one_iff.mpr harg0
    constructor
    · apply mul_le_mul_of_nonneg_left _ (le_of_lt hG)
      linarith
    · calc 1 / (Real.pi * (2 * 32 * 32)) * Real.exp _
          ≤ 1 / (Real.pi * (2 * 32 * 32)) * 1 := mul_le_mul_of_nonneg_left hup (le_of_lt hG)
        _ = 1 / (Real.pi * (2 * 32 * 32)) := mul_one _
  -- the sum of the weights is at most `49 * G`
  have hS : ∑ y ∈ Ico (0 : Int) 7, ∑ x ∈ Ico (0 : Int) 7,
      gaussian_value Real.exp Real.pi 7 7 32 x y ≤ 49 * (1 / (Real.pi * (2 * 32 * 32))) := by
    calc ∑ y ∈ Ico (0 : Int) 7, ∑ x ∈ Ico (0 : Int) 7,
          gaussian_value Real.exp Real.pi 7 7 32 x y
        ≤ ∑ _y ∈ Ico (0 : Int) 7, ∑ _x ∈ Ico (0 : Int) 7,
            1 / (Real.pi * (2 * 32 * 32)) := by
          apply sum_le_sum
          intro y hy
          apply sum_le_sum
          intro x hx
          rw [mem_Ico] at hx hy
          exact (hv x y hx.1 hx.2 hy.1 hy.2).2
      _ = 49 * (1 / (Real.pi * (2 * 32 * 32))) := by
          simp only [sum_const, Int.card_Ico, smul_eq_mul, nsmul_eq_mul]
          norm_num [show Int.toNat 7 = 7 from rfl]
          ring
  have hSpos := gaussian_value_sum_pos 7 7 32 (by norm_num) (by norm_num) (by norm_num)
  rw [gaussian_kernel_apply Real.exp Real.pi 7 7 32 kmem a b ha0 ha1 hb0 hb1,
    ← div_eq_mul_one_div, le_div_iff₀ hSpos]
  have h1 := (hv a b ha0 ha1 hb0 hb1).1
  nlinarith

/-- The ingestion loop nest of `main` stores the scaled samples of every pixel. -/
theorem image_ingested {K : Type} [Field K] (rows cols : Int) (image : Image)
    (imem : Int → pixel K) (x y : Int) (hx0 : 0 ≤ x) (hx1 : x < rows) (hy0 : 0 ≤ y)
    (hy1 : y < cols) :
    (forRange 0 cols (fun j px =>
      forRange 0 rows (fun i px =>
        let p := image i j
        Function.update px (i + (j * rows))
          { red := ((p 0).val : K) / 255, green := ((p 1).val : K) / 255,
            blue := ((p 2).val : K) / 255 }) px) imem) (x + y * rows)
      = { red := ((image x y 0).val : K) / 255, green := ((image x y 1).val : K) / 255,
          blue := ((image x y 2).val : K) / 255 } := by
  have h := grid_read (fun (s : Int → pixel K) o => s o) rows cols
    (fun i j (px : Int → pixel K) =>
      Function.update px (i + (j * rows))
        { red := ((image i j 0).val : K) / 255, green := ((image i j 1).val : K) / 255,
          blue := ((image i j 2).val : K) / 255 })
    (fun i j _ => { red := ((image i j 0).val : K) / 255,
                    green := ((image i j 1).val : K) / 255,
                    blue := ((image i j 2).val : K) / 255 })
    (fun i j s o => by simp only [Function.update_apply]) imem x y hx0 hx1 hy0 hy1
  exact h

/-- The initialisation loop of `main` zeroes `blurred` and `outPixels` on `[0, n)`. -/
theorem buffers_zeroed {K : Type} [Field K] (n : Int) (bmem omem : Int → pixel K)
    (o : Int) (h0 : 0 ≤ o) (h1 : o < n) :
    (forRange 0 n (fun i (bo : (Int → pixel K) × (Int → pixel K)) =>
      let blurred := Function.update bo.1 i { bo.1 i with red := 0 }
      let blurred := Function.update blurred i { blurred i with green := 0 }
      let blurred := Function.update blurred i { blurred i with blue := 0 }
      let outPixels := Function.update bo.2 i { bo.2 i with red := 0 }
      let outPixels := Function.update outPixels i { outPixels i with green := 0 }
      let outPixels := Function.update outPixels i { outPixels i with blue := 0 }
      (blurred, outPixels)) (bmem, omem)).1 o = { red := 0, green := 0, blue := 0 }
    ∧ (forRange 0 n (fun i (bo : (Int → pixel K) × (Int → pixel K)) =>
      let blurred := Function.update bo.1 i { bo.1 i with red := 0 }
      let blurred := Function.update blurred i { blurred i with green := 0 }
      let blurred := Function.update blurred i { blurred i with blue := 0 }
      let outPixels := Function.update bo.2 i { bo.2 i with red := 0 }
      let outPixels := Function.update outPixels i { outPixels i with green := 0 }
      let outPixels := Function.update outPixels i { outPixels i with blue := 0 }
      (blurred, outPixels)) (bmem, omem)).2 o = { red := 0, green := 0, blue := 0 } := by
  have h := forRange_read
    (fun (bo : (Int → pixel K) × (Int → pixel K)) o => (bo.1 o, bo.2 o))
    (fun i o v => if o = i then
      (({ red := 0, green := 0, blue := 0 } : pixel K),
        ({ red := 0, green := 0, blue := 0 } : pixel K)) else v)
    (fun i (bo : (Int → pixel K) × (Int → pixel K)) =>
      let blurred := Function.update bo.1 i { bo.1 i with red := 0 }
      let blurred := Function.update blurred i { blurred i with green := 0 }
      let blurred := Function.update blurred i { blurred i with blue := 0 }
      let outPixels := Function.update bo.2 i { bo.2 i with red := 0 }
      let outPixels := Function.update outPixels i { outPixels i with green := 0 }
      let outPixels := Function.update outPixels i { outPixels i with blue := 0 }
      (blurred, outPixels))
    (fun i s o => by
      simp only [Function.update_apply, Function.update_idem, Function.update_same]
      split_ifs <;> rfl) 0 n (bmem, omem) o
  have h2 : forRange 0 n (fun i (v : pixel K × pixel K) => if o = i then
      (({ red := 0, green := 0, blue := 0 } : pixel K),
        ({ red := 0, green := 0, blue := 0 } : pixel K)) else v)
      (bmem o, omem o) = ({ red := 0, green := 0, blue := 0 },
        { red := 0, green := 0, blue := 0 }) := by
    rw [forRange_single n o h0 h1 _ (fun i _ _ hne t => by simp [hne.symm])]
    simp
  have h3 := h.trans h2
  exact ⟨congrArg Prod.fst h3, congrArg Prod.snd h3⟩

/-- On a 5x5 all-white input, the blur of `main` leaves at least `25 * (1015/50176)` in
every channel of each cell of the central 3x3 block (whose window covers the image). -/
theorem blur_white_lower (kmem : Int → ℝ) (inp out : Int → pixel ℝ)
    (hin : ∀ x y, 0 ≤ x → x < 5 → 0 ≤ y → y < 5 →
      inp (x + y * 5) = { red := 1, green := 1, blue := 1 })
    (x y : Int) (hx0 : 1 ≤ x) (hx1 : x ≤ 3) (hy0 : 1 ≤ y) (hy1 : y ≤ 3)
    (hout : out (x + y * 5) = { red := 0, green := 0, blue := 0 }) :
    25 * ((1015 : ℝ) / 50176)
        ≤ (apply_stencil Real.exp Real.pi 3 32 5 5 kmem inp out (x + y * 5)).red
    ∧ 25 * ((1015 : ℝ) / 50176)
        ≤ (apply_stencil Real.exp Real.pi 3 32 5 5 kmem inp out (x + y * 5)).green
    ∧ 25 * ((1015 : ℝ) / 50176)
        ≤ (apply_stencil Real.exp Real.pi 3 32 5 5 kmem inp out (x + y * 5)).blue := by
  have e7 : (3 : Int) * 2 + 1 = 7 := by norm_num
  have ex0 : max (x - 3) 0 = 0 := by omega
  have ex1 : min (x + 3) (5 - 1) = 4 := by omega
  have ey0 : max (y - 3) 0 = 0 := by omega
  have ey1 : min (y + 3) (5 - 1) = 4 := by omega
  have hcard : (Icc (0 : Int) 4 ×ˢ Icc (0 : Int) 4).card = 25 := by decide
  have hsum : ∀ g : pixel ℝ → ℝ, g { red := 1, green := 1, blue := 1 } = 1 →
      25 * ((1015 : ℝ) / 50176) ≤ ∑ p ∈ Icc (0 : Int) 4 ×ˢ Icc (0 : Int) 4,
        gaussian_kernel Real.exp Real.pi 7 7 32 kmem ((p.1 - (x - 3)) + (p.2 - (y - 3)) * 7)
          * g (inp (p.1 + p.2 * 5)) := by
    intro g hg
    have hle := card_nsmul_le_sum (Icc (0 : Int) 4 ×ˢ Icc (0 : Int) 4)
      (fun p => gaussian_kernel Real.exp Real.pi 7 7 32 kmem
        ((p.1 - (x - 3)) + (p.2 - (y - 3)) * 7) * g (inp (p.1 + p.2 * 5)))
      ((1015 : ℝ) / 50176) (by
        intro p hp
        simp only [mem_product, mem_Icc] at hp
        simp only []
        rw [hin p.1 p.2 (by omega) (by omega) (by omega) (by omega), hg, mul_one]
        exact gaussian_kernel_lower kmem _ _ (by omega) (by omega) (by omega) (by omega))
    rw [hcard] at hle
    simpa using hle
  unfold apply_stencil
  rw [stencil_loop_apply 3 5 5 _ inp out x y (by omega) (by omega) (by omega) (by omega),
    hout, window_filter_eq, ex0, ex1, ey0, ey1]
  simp only [e7, zero_add]
  exact ⟨hsum pixel.red rfl, hsum pixel.green rfl, hsum pixel.blue rfl⟩

/-- The six in-range cells of the 3x3 window of cell `(2, 0)` in a 5x5 buffer. -/
theorem sum_border_window (F : Int → Int → ℝ) :
    ∑ p ∈ Icc (max ((2 : Int) - 1) 0) (min (2 + 1) (5 - 1))
        ×ˢ Icc (max ((0 : Int) - 1) 0) (min (0 + 1) (5 - 1)), F p.1 p.2
      = F 1 0 + F 1 1 + F 2 0 + F 2 1 + F 3 0 + F 3 1 := by
  have e1 : Icc (max ((2 : Int) - 1) 0) (min (2 + 1) (5 - 1)) = {1, 2, 3} := by decide
  have e2 : Icc (max ((0 : Int) - 1) 0) (min (0 + 1) (5 - 1)) = {0, 1} := by decide
  rw [sum_product, e1, e2]
  simp
  ring

/-- On a 5x5 buffer, the magnitude that `apply_prewittKs` writes at the border cell
`(2, 0)` is at least the sum of the grayscale intensities of the three cells `(1, 1)`,
`(2, 1)`, `(3, 1)`: the window column `y = -1` that would balance them is skipped. -/
theorem prewitt_border_lower (Xkmem Ykmem Xmem Ymem : Int → ℝ)
    (blurred out : Int → pixel ℝ) (t : ℝ)
    (h1 : t ≤ (blurred (1 + 1 * 5)).red ∧ t ≤ (blurred (1 + 1 * 5)).green
      ∧ t ≤ (blurred (1 + 1 * 5)).blue)
    (h2 : t ≤ (blurred (2 + 1 * 5)).red ∧ t ≤ (blurred (2 + 1 * 5)).green
      ∧ t ≤ (blurred (2 + 1 * 5)).blue)
    (h3 : t ≤ (blurred (3 + 1 * 5)).red ∧ t ≤ (blurred (3 + 1 * 5)).green
      ∧ t ≤ (blurred (3 + 1 * 5)).blue) :
    3 * t ≤ (apply_prewittKs Real.sqrt 5 5 Xkmem Ykmem Xmem Ymem blurred out
      (2 + 0 * 5)).red := by
  have hY := sum_border_window (fun x y =>
    prewittY_kernel 3 3 Ykmem ((x - (2 - 1)) + (y - (0 - 1)) * 3)
      * (((blurred (x + y * 5)).red + (blurred (x + y * 5)).green
        + (blurred (x + y * 5)).blue) / 3))
  simp only [] at hY
  have hY2 : ∑ p ∈ Icc (max ((2 : Int) - 1) 0) (min (2 + 1) (5 - 1))
        ×ˢ Icc (max ((0 : Int) - 1) 0) (min (0 + 1) (5 - 1)),
        prewittY_kernel 3 3 Ykmem ((p.1 - (2 - 1)) + (p.2 - (0 - 1)) * 3)
          * (((blurred (p.1 + p.2 * 5)).red + (blurred (p.1 + p.2 * 5)).green
            + (blurred (p.1 + p.2 * 5)).blue) / 3)
      = -((((blurred (1 + 1 * 5)).red + (blurred (1 + 1 * 5)).green
            + (blurred (1 + 1 * 5)).blue) / 3)
          + (((blurred (2 + 1 * 5)).red + (blurred (2 + 1 * 5)).green
            + (blurred (2 + 1 * 5)).blue) / 3)
          + (((blurred (3 + 1 * 5)).red + (blurred (3 + 1 * 5)).green
            + (blurred (3 + 1 * 5)).blue) / 3)) := by
    rw [hY]
    simp [prewittY_kernel_apply]
    ring
  rw [apply_prewittKs_apply Real.sqrt 5 5 Xkmem Ykmem Xmem Ymem blurred out 2 0
    (by norm_num) (by norm_num) (by norm_num) (by norm_num), window_filter_eq, hY2]
  simp only []
  generalize (∑ p ∈ Icc (max ((2 : Int) - 1) 0) (min (2 + 1) (5 - 1))
        ×ˢ Icc (max ((0 : Int) - 1) 0) (min (0 + 1) (5 - 1)),
        prewittX_kernel 3 3 Xkmem ((p.1 - (2 - 1)) + (p.2 - (0 - 1)) * 3)
          * (((blurred (p.1 + p.2 * 5)).red + (blurred (p.1 + p.2 * 5)).green
            + (blurred (p.1 + p.2 * 5)).blue) / 3)) = SX
  generalize hI : (((blurred (1 + 1 * 5)).red + (blurred (1 + 1 * 5)).green
            + (blurred (1 + 1 * 5)).blue) / 3)
          + (((blurred (2 + 1 * 5)).red + (blurred (2 + 1 * 5)).green
            + (blurred (2 + 1 * 5)).blue) / 3)
          + (((blurred (3 + 1 * 5)).red + (blurred (3 + 1 * 5)).green
            + (blurred (3 + 1 * 5)).blue) / 3) = S
  have hS : 3 * t ≤ S := by
    rw [← hI]
    obtain ⟨a1, b1, c1⟩ := h1
    obtain ⟨a2, b2, c2⟩ := h2
    obtain ⟨a3, b3, c3⟩ := h3
    generalize (blurred (1 + 1 * 5)).red = r1 at *
    generalize (blurred (1 + 1 * 5)).green = g1 at *
    generalize (blurred (1 + 1 * 5)).blue = u1 at *
    generalize (blurred (2 + 1 * 5)).red = r2 at *
    generalize (blurred (2 + 1 * 5)).green = g2 at *
    generalize (blurred (2 + 1 * 5)).blue = u2 at *
    generalize (blurred (3 + 1 * 5)).red = r3 at *
    generalize (blurred (3 + 1 * 5)).green = g3 at *
    generalize (blurred (3 + 1 * 5)).blue = u3 at *
    linarith
  calc 3 * t ≤ S := hS
    _ ≤ |(-S)| := by rw [abs_neg]; exact le_abs_self S
    _ ≤ Real.sqrt (SX * SX + -S * -S) :=
        Real.abs_le_sqrt (by nlinarith [mul_self_nonneg SX])

/-- C10 (failing input): on the 5x5 all-white image (every 8-bit sample 255, ingested as
`255/255 = 1`), whatever the uninitialised storage held, the value
`floor(outPixels[offset].red * 255.0)` that `main` computes for the border pixel
`(i, j) = (2, 0)` is at least 386, outside the range `[0, 255]` of an 8-bit channel. -/
theorem main_white_border_overflow (imem bmem omem : Int → pixel ℝ)
    (kmem Xkmem Ykmem Xmem Ymem : Int → ℝ) :
    386 ≤ (main_dest Real.exp Real.pi Real.sqrt 5 5 (fun _ _ _ => 255)
        imem bmem omem kmem Xkmem Ykmem Xmem Ymem 2 0).1
    ∧ ¬ ((main_dest Real.exp Real.pi Real.sqrt 5 5 (fun _ _ _ => 255)
        imem bmem omem kmem Xkmem Ykmem Xmem Ymem 2 0).1 ≤ 255) := by
  have key : 3 * (25 * ((1015 : ℝ) / 50176))
      ≤ (main_outPixels Real.exp Real.pi Real.sqrt 5 5 (fun _ _ _ => 255)
        imem bmem omem kmem Xkmem Ykmem Xmem Ymem (2 + 0 * 5)).red := by
    generalize hw : (fun (_ _ : Int) (_ : Fin 3) => (255 : Fin 256)) = image
    have hwhite : ∀ i j c, image i j c = 255 := fun i j c => by rw [← hw]
    unfold main_outPixels
    have hin : ∀ x y : Int, 0 ≤ x → x < 5 → 0 ≤ y → y < 5 →
        (forRange 0 5 (fun j px =>
          forRange 0 5 (fun i px =>
            let p := image i j
            Function.update px (i + (j * 5))
              { red := ((p 0).val : ℝ) / 255, green := ((p 1).val : ℝ) / 255,
                blue := ((p 2).val : ℝ) / 255 }) px) imem) (x + y * 5)
          = { red := 1, green := 1, blue := 1 } := by
      intro x y hx0 hx1 hy0 hy1
      have h255 : (((255 : Fin 256).val : Nat) : ℝ) / 255 = 1 := by
        have : ((255 : Fin 256).val : Nat) = 255 := rfl
        rw [this]
        norm_num
      rw [image_ingested 5 5 image imem x y hx0 hx1 hy0 hy1]
      simp only [hwhite, h255]
    have hz : ∀ x y : Int, 0 ≤ x → x < 5 → 0 ≤ y → y < 5 → _ :=
      fun x y hx0 hx1 hy0 hy1 =>
        (buffers_zeroed (5 * 5) bmem omem (x + y * 5)
          (offset_range 5 5 x y hx0 hx1 hy0 hy1).1
          (offset_range 5 5 x y hx0 hx1 hy0 hy1).2).1
    refine prewitt_border_lower _ _ _ _ _ _ (25 * ((1015 : ℝ) / 50176)) ?_ ?_ ?_
    · exact blur_white_lower kmem _ _ hin 1 1 (by norm_num) (by norm_num) (by norm_num)
        (by norm_num) (hz 1 1 (by norm_num) (by norm_num) (by norm_num) (by norm_num))
    · exact blur_white_lower kmem _ _ hin 2 1 (by norm_num) (by norm_num) (by norm_num)
        (by norm_num) (hz 2 1 (by norm_num) (by norm_num) (by norm_num) (by norm_num))
    · exact blur_white_lower kmem _ _ hin 3 1 (by norm_num) (by norm_num) (by norm_num)
        (by norm_num) (hz 3 1 (by norm_num) (by norm_num) (by norm_num) (by norm_num))
  have h386 : 386 ≤ (main_dest Real.exp Real.pi Real.sqrt 5 5 (fun _ _ _ => 255)
      imem bmem omem kmem Xkmem Ykmem Xmem Ymem 2 0).1 := by
    unfold main_dest
    simp only []
    rw [Int.le_floor]
    push_cast
    nlinarith
  exact ⟨h386, by omega⟩

end Pipeline

/-! ## Instances of the theorems at concrete inputs -/

section Witnesses

open Finset

/-- C1 at radius 1, standard deviation 1 and a 1x1 buffer holding `(1, 1, 1)`. -/
theorem apply_stencil_weighted_sum_witness :
    (1 : Int) ≤ 1 ∧ (0 : ℝ) < 1 ∧ (0 : Int) ≤ 0 ∧ (0 : Int) < 1
    ∧ pixel.red (apply_stencil Real.exp Real.pi 1 1 1 1 (fun _ => 0)
        (fun _ => { red := 1, green := 1, blue := 1 })
        (fun _ => { red := 0, green := 0, blue := 0 }) (0 + 0 * 1))
      = pixel.red ((fun _ => ({ red := 0, green := 0, blue := 0 } : pixel ℝ)) ((0 : Int) + 0 * 1))
        + ∑ p ∈ (Icc ((0 : Int) - 1) (0 + 1) ×ˢ Icc ((0 : Int) - 1) (0 + 1)).filter
            (fun p => 0 ≤ p.1 ∧ p.1 < 1 ∧ 0 ≤ p.2 ∧ p.2 < 1),
            gaussian_kernel Real.exp Real.pi (2 * 1 + 1) (2 * 1 + 1) 1 (fun _ => 0)
                ((p.1 - 0 + 1) + (p.2 - 0 + 1) * (2 * 1 + 1))
              * pixel.red ((fun _ => ({ red := 1, green := 1, blue := 1 } : pixel ℝ))
                  (p.1 + p.2 * 1)) :=
  ⟨le_refl 1, one_pos, le_refl 0, Int.zero_lt_one,
    (apply_stencil_weighted_sum 1 1 1 1 (fun _ => 0)
      (fun _ => { red := 1, green := 1, blue := 1 })
      (fun _ => { red := 0, green := 0, blue := 0 }) 0 0 (le_refl 1) one_pos (le_refl 0)
      Int.zero_lt_one (le_refl 0) Int.zero_lt_one pixel.red (by simp)).1⟩

/-- C3 (amended) at the centre cell of the 3x3 buffer whose every pixel is `(1, 1, 1)`. -/
theorem prewitt_uniform_interior_zero_witness :
    (1 : Int) ≤ 1 ∧ (1 : Int) ≤ 3 - 2
    ∧ pixel.red (apply_prewittKs Real.sqrt 3 3 (fun _ => 0) (fun _ => 0) (fun _ => 0)
        (fun _ => 0) (fun _ => { red := 1, green := 1, blue := 1 })
        (fun _ => { red := 0, green := 0, blue := 0 }) (1 + 1 * 3)) = 0 :=
  ⟨le_refl 1, by decide,
    prewitt_uniform_interior_zero 3 3 (fun _ => 0) (fun _ => 0) (fun _ => 0) (fun _ => 0)
      (fun _ => { red := 1, green := 1, blue := 1 })
      (fun _ => { red := 0, green := 0, blue := 0 }) 1 1 1
      (fun _ _ _ _ _ _ => by norm_num) (le_refl 1) (by decide) (le_refl 1) (by decide)
      pixel.red (by simp)⟩

/-- C4 on the 3x3 all-ones buffer over the rationals: 9 at the centre, 4 at a corner. -/
theorem stencil_all_ones_witness :
    (3 : Int) ≤ 3
    ∧ stencil_loop 1 3 3 (fun _ => (1 : ℚ)) (fun _ => { red := 1, green := 1, blue := 1 })
        (fun _ => { red := 0, green := 0, blue := 0 }) (1 + 1 * 3)
      = { red := 9, green := 9, blue := 9 }
    ∧ stencil_loop 1 3 3 (fun _ => (1 : ℚ)) (fun _ => { red := 1, green := 1, blue := 1 })
        (fun _ => { red := 0, green := 0, blue := 0 }) (0 + 0 * 3)
      = { red := 4, green := 4, blue := 4 } :=
  ⟨le_refl 3,
    (stencil_all_ones 3 3 (fun _ => (1 : ℚ)) (fun _ => { red := 1, green := 1, blue := 1 })
      (fun _ => { red := 0, green := 0, blue := 0 }) (le_refl 3) (le_refl 3)
      (fun _ _ _ => rfl) (fun _ _ _ => rfl) (fun _ _ _ => rfl)).1 1 1 (le_refl 1)
        (by decide) (le_refl 1) (by decide),
    (stencil_all_ones 3 3 (fun _ => (1 : ℚ)) (fun _ => { red := 1, green := 1, blue := 1 })
      (fun _ => { red := 0, green := 0, blue := 0 }) (le_refl 3) (le_refl 3)
      (fun _ _ _ => rfl) (fun _ _ _ => rfl) (fun _ _ _ => rfl)).2.1⟩

/-- C5 at the single cell of a 1x1 buffer. -/
theorem apply_prewittKs_magnitude_witness :
    (0 : Int) ≤ 0 ∧ (0 : Int) < 1
    ∧ pixel.red (apply_prewittKs Real.sqrt 1 1 (fun _ => 0) (fun _ => 0) (fun _ => 0)
        (fun _ => 0) (fun _ => { red := 1, green := 1, blue := 1 })
        (fun _ => { red := 5, green := 6, blue := 7 }) (0 + 0 * 1))
      = Real.sqrt (
          (∑ p ∈ (Icc ((0 : Int) - 1) (0 + 1) ×ˢ Icc ((0 : Int) - 1) (0 + 1)).filter
              (fun p => 0 ≤ p.1 ∧ p.1 < 1 ∧ 0 ≤ p.2 ∧ p.2 < 1),
              prewittX_kernel 3 3 (fun _ => (0 : ℝ)) ((p.1 - 0 + 1) + 3 * (p.2 - 0 + 1))
                * ((((fun _ => ({ red := 1, green := 1, blue := 1 } : pixel ℝ))
                      (p.1 + p.2 * 1)).red
                  + ((fun _ => ({ red := 1, green := 1, blue := 1 } : pixel ℝ))
                      (p.1 + p.2 * 1)).green
                  + ((fun _ => ({ red := 1, green := 1, blue := 1 } : pixel ℝ))
                      (p.1 + p.2 * 1)).blue) / 3)) ^ 2
          + (∑ p ∈ (Icc ((0 : Int) - 1) (0 + 1) ×ˢ Icc ((0 : Int) - 1) (0 + 1)).filter
              (fun p => 0 ≤ p.1 ∧ p.1 < 1 ∧ 0 ≤ p.2 ∧ p.2 < 1),
              prewittY_kernel 3 3 (fun _ => (0 : ℝ)) ((p.1 - 0 + 1) + 3 * (p.2 - 0 + 1))
                * ((((fun _ => ({ red := 1, green := 1, blue := 1 } : pixel ℝ))
                      (p.1 + p.2 * 1)).red
                  + ((fun _ => ({ red := 1, green := 1, blue := 1 } : pixel ℝ))
                      (p.1 + p.2 * 1)).green
                  + ((fun _ => ({ red := 1, green := 1, blue := 1 } : pixel ℝ))
                      (p.1 + p.2 * 1)).blue) / 3)) ^ 2) :=
  ⟨le_refl 0, Int.zero_lt_one,
    apply_prewittKs_magnitude 1 1 (fun _ => 0) (fun _ => 0) (fun _ => 0) (fun _ => 0)
      (fun _ => { red := 1, green := 1, blue := 1 })
      (fun _ => { red := 5, green := 6, blue := 7 }) 0 0 (le_refl 0) Int.zero_lt_one
      (le_refl 0) Int.zero_lt_one pixel.red (by simp)⟩

/-- C6 (amended) at radius 1 on the 3x3 buffer of value 1: the centre cell keeps 1, the
corner cell `(0, 0)` gets a value strictly between 0 and 1. -/
theorem blur_uniform_edge_smaller_witness :
    (1 : Int) ≤ 1 ∧ (0 : ℝ) < 1
    ∧ pixel.red (apply_stencil Real.exp Real.pi 1 1 3 3 (fun _ => 0)
        (fun _ => { red := 1, green := 1, blue := 1 })
        (fun _ => { red := 0, green := 0, blue := 0 }) (1 + 1 * 3)) = 1
    ∧ 0 < pixel.red (apply_stencil Real.exp Real.pi 1 1 3 3 (fun _ => 0)
        (fun _ => { red := 1, green := 1, blue := 1 })
        (fun _ => { red := 0, green := 0, blue := 0 }) (0 + 0 * 3))
    ∧ pixel.red (apply_stencil Real.exp Real.pi 1 1 3 3 (fun _ => 0)
        (fun _ => { red := 1, green := 1, blue := 1 })
        (fun _ => { red := 0, green := 0, blue := 0 }) (0 + 0 * 3)) < 1 :=
  ⟨le_refl 1, one_pos,
    (blur_uniform_edge_smaller 1 3 3 1 1 (fun _ => 0)
      (fun _ => { red := 1, green := 1, blue := 1 })
      (fun _ => { red := 0, green := 0, blue := 0 }) 1 1 (le_refl 1) one_pos one_pos
      (by decide) (by decide) (by decide) (by decide) (fun _ _ _ _ _ _ => rfl)
      pixel.red (by simp) (fun _ _ _ _ _ _ => rfl)).1
      ⟨le_refl 1, by decide, le_refl 1, by decide⟩,
    (blur_uniform_edge_smaller 1 3 3 1 1 (fun _ => 0)
      (fun _ => { red := 1, green := 1, blue := 1 })
      (fun _ => { red := 0, green := 0, blue := 0 }) 0 0 (le_refl 1) one_pos one_pos
      (by decide) (by decide) (by decide) (by decide) (fun _ _ _ _ _ _ => rfl)
      pixel.red (by simp) (fun _ _ _ _ _ _ => rfl)).2 (Or.inl (by decide))⟩

end Witnesses

/-! ## The Gaussian kernel on binary64 -/

section DoubleKernel

open Binary64

/-- Loops whose bodies agree on the range traversed are equal. -/
theorem forRange_congr {σ : Type} (lo hi : Int) (body body2 : Int → σ → σ)
    (h : ∀ i, lo ≤ i → i < hi → ∀ t, body i t = body2 i t) (s : σ) :
    forRange lo hi body s = forRange lo hi body2 s := by
  unfold forRange
  apply loopN_congr
  intro k hk t
  exact h _ (by omega) (by omega) t

/-- A property that every iteration establishes holds after a loop that runs at least
once. -/
theorem forRange_last {σ : Type} (P : σ → Prop) (lo hi : Int) (body : Int → σ → σ)
    (hlt : lo < hi) (h : ∀ i, lo ≤ i → i < hi → ∀ s, P (body i s)) (s : σ) :
    P (forRange lo hi body s) := by
  unfold forRange
  obtain ⟨m, hm⟩ : ∃ m, (hi - lo).toNat = m + 1 := ⟨(hi - lo).toNat - 1, by omega⟩
  rw [hm, loopN_succ]
  exact h _ (by omega) (by omega) _

/-- Not-a-number or an infinity. -/
theorem special_mul_inf (y : F64) :
    F64.inf false * y = F64.nan ∨ ∃ s, F64.inf false * y = F64.inf s := by
  cases y with
  | nan => exact Or.inl rfl
  | inf t => exact Or.inr ⟨xor false t, rfl⟩
  | fin b =>
    by_cases hb : b = 0
    · left
      show mul (F64.inf false) (F64.fin b) = F64.nan
      simp [mul, hb]
    · right
      refine ⟨xor false (decide (b < 0)), ?_⟩
      show mul (F64.inf false) (F64.fin b) = _
      simp [mul, hb]

/-- Adding a not-a-number or an infinity gives a not-a-number or an infinity. -/
theorem special_add (x y : F64) (hy : y = F64.nan ∨ ∃ s, y = F64.inf s) :
    x + y = F64.nan ∨ ∃ s, x + y = F64.inf s := by
  rcases hy with hy | ⟨t, hy⟩
  · subst hy
    left
    cases x <;> rfl
  · subst hy
    cases x with
    | nan => exact Or.inl rfl
    | inf s =>
      by_cases hst : s = t
      · right
        refine ⟨s, ?_⟩
        show add (F64.inf s) (F64.inf t) = _
        simp [add, hst]
      · left
        show add (F64.inf s) (F64.inf t) = _
        simp [add, hst]
    | fin a => exact Or.inr ⟨t, rfl⟩

/-- The product of a not-a-number or an infinity with the reciprocal of one is
not-a-number. -/
theorem special_mul_recip (v s : F64) (hv : v = F64.nan ∨ ∃ t, v = F64.inf t)
    (hs : s = F64.nan ∨ ∃ t, s = F64.inf t) : v * (1 / s) = F64.nan := by
  rcases hs with hs | ⟨t, hs⟩
  · subst hs
    rcases hv with hv | ⟨u, hv⟩
    · subst hv
      rfl
    · subst hv
      rfl
  · subst hs
    rcases hv with hv | ⟨u, hv⟩
    · subst hv
      rfl
    · subst hv
      show mul (F64.inf u) (div (F64.fin 1) (F64.inf t)) = F64.nan
      simp [mul, div]

end DoubleKernel

section DoubleKernelLoops

open Binary64

/-- The first loop nest of `gaussian_kernel` on binary64, for any cell value `val i j`:
the kernel component holds `val i j` at every in-range offset. -/
theorem double_fill_fst (rows cols : Int) (val : Int → Int → F64) (s : (Int → F64) × F64)
    (i j : Int) (hi0 : 0 ≤ i) (hi1 : i < rows) (hj0 : 0 ≤ j) (hj1 : j < cols) :
    (forRange 0 cols (fun j acc =>
      forRange 0 rows (fun i (acc : (Int → F64) × F64) =>
        (Function.update acc.1 (i + (j * rows)) (val i j), acc.2 + val i j)) acc) s).1
        (i + j * rows) = val i j := by
  have h := grid_read (fun (s : (Int → F64) × F64) o => s.1 o) rows cols
    (fun i j (acc : (Int → F64) × F64) =>
      (Function.update acc.1 (i + (j * rows)) (val i j), acc.2 + val i j))
    (fun i j _ => val i j)
    (fun i j s o => by simp only [Function.update_apply]) s i j hi0 hi1 hj0 hj1
  exact h

/-- The first loop nest of `gaussian_kernel` on binary64: when every cell value is
not-a-number or an infinity, so is the running sum after a nest that runs at least
once. -/
theorem double_fill_snd_special (rows cols : Int) (val : Int → Int → F64)
    (s : (Int → F64) × F64) (hrows : 0 < rows) (hcols : 0 < cols)
    (hval : ∀ i j, val i j = F64.nan ∨ ∃ t, val i j = F64.inf t) :
    (forRange 0 cols (fun j acc =>
      forRange 0 rows (fun i (acc : (Int → F64) × F64) =>
        (Function.update acc.1 (i + (j * rows)) (val i j), acc.2 + val i j)) acc) s).2
        = F64.nan
    ∨ ∃ t, (forRange 0 cols (fun j acc =>
      forRange 0 rows (fun i (acc : (Int → F64) × F64) =>
        (Function.update acc.1 (i + (j * rows)) (val i j), acc.2 + val i j)) acc) s).2
        = F64.inf t := by
  refine forRange_last
    (fun (acc : (Int → F64) × F64) => acc.2 = F64.nan ∨ ∃ t, acc.2 = F64.inf t) 0 cols _
    hcols ?_ s
  intro j _ _ s
  refine forRange_last
    (fun (acc : (Int → F64) × F64) => acc.2 = F64.nan ∨ ∃ t, acc.2 = F64.inf t) 0 rows _
    hrows ?_ s
  intro i _ _ s
  exact special_add s.2 (val i j) (hval i j)

/-- The normalisation loop nest of `gaussian_kernel` on binary64 multiplies every
in-range cell by the factor. -/
theorem double_scale (rows cols : Int) (c : F64) (k : Int → F64)
    (i j : Int) (hi0 : 0 ≤ i) (hi1 : i < rows) (hj0 : 0 ≤ j) (hj1 : j < cols) :
    (forRange 0 cols (fun j kernel =>
      forRange 0 rows (fun i kernel =>
        Function.update kernel (i + (j * rows)) (kernel (i + (j * rows)) * c))
        kernel) k) (i + j * rows) = k (i + j * rows) * c := by
  have h := grid_read (fun (s : Int → F64) o => s o) rows cols
    (fun i j (kernel : Int → F64) =>
      Function.update kernel (i + (j * rows)) (kernel (i + (j * rows)) * c))
    (fun _ _ v => v * c)
    (fun i j s o => by
      simp only [Function.update_apply]
      split_ifs with h
      · rw [h]
      · rfl) k i j hi0 hi1 hj0 hj1
  exact h

/-- On binary64 too, `gaussian_kernel` leaves every cell outside the `rows*cols` grid
with its initial content. -/
theorem double_kernel_outside (exp : F64 → F64) (rows cols : Int) (stddev : F64)
    (kmem : Int → F64) (o : Int)
    (ho : ∀ i j, 0 ≤ i → i < rows → 0 ≤ j → j < cols → o ≠ i + j * rows) :
    Binary64.gaussian_kernel exp rows cols stddev kmem o = kmem o := by
  unfold Binary64.gaussian_kernel
  simp only []
  rw [grid_read_outside (fun (s : Int → F64) o => s o) rows cols
    (fun i j (kernel : Int → F64) =>
      Function.update kernel (i + (j * rows)) (kernel (i + (j * rows)) * _))
    (fun _ _ v => v * _)
    (fun i j s o => by
      simp only [Function.update_apply]
      split_ifs with h
      · rw [h]
      · rfl) _ o ho]
  exact grid_read_outside (fun (s : (Int → F64) × F64) o => s.1 o) rows cols
    (fun i j (acc : (Int → F64) × F64) =>
      (Function.update acc.1 (i + (j * rows)) _, acc.2 + _))
    (fun i j _ => 1 / (M_PI * (2 * stddev * stddev))
      * exp ((-(((i - Int.tdiv rows 2 : Int) : F64) * ((i - Int.tdiv rows 2 : Int) : F64)
          + ((j - Int.tdiv cols 2 : Int) : F64) * ((j - Int.tdiv cols 2 : Int) : F64)))
        / (2 * stddev * stddev)))
    (fun i j s o => by simp only [Function.update_apply]) (kmem, 0) o ho

/-- On binary64, when `2 * stddev * stddev` is zero (`stddev` is zero, or so small that
its square underflows), every cell of the grid that `gaussian_kernel` writes is
not-a-number, whatever `exp` returns. -/
theorem double_kernel_nan (exp : F64 → F64) (rows cols : Int) (stddev : F64)
    (kmem : Int → F64) (hden : 2 * stddev * stddev = F64.fin 0)
    (i j : Int) (hi0 : 0 ≤ i) (hi1 : i < rows) (hj0 : 0 ≤ j) (hj1 : j < cols) :
    Binary64.gaussian_kernel exp rows cols stddev kmem (i + j * rows) = F64.nan := by
  have hrec : (1 : F64) / (M_PI * (2 * stddev * stddev)) = F64.inf false := by
    rw [hden]
    decide!
  have hval : ∀ a b : Int, (1 : F64) / (M_PI * (2 * stddev * stddev))
      * exp ((-(((a - Int.tdiv rows 2 : Int) : F64) * ((a - Int.tdiv rows 2 : Int) : F64)
          + ((b - Int.tdiv cols 2 : Int) : F64) * ((b - Int.tdiv cols 2 : Int) : F64)))
        / (2 * stddev * stddev)) = F64.nan
      ∨ ∃ t, (1 : F64) / (M_PI * (2 * stddev * stddev))
      * exp ((-(((a - Int.tdiv rows 2 : Int) : F64) * ((a - Int.tdiv rows 2 : Int) : F64)
          + ((b - Int.tdiv cols 2 : Int) : F64) * ((b - Int.tdiv cols 2 : Int) : F64)))
        / (2 * stddev * stddev)) = F64.inf t := by
    intro a b
    rw [hrec]
    exact special_mul_inf _
  unfold Binary64.gaussian_kernel
  simp only []
  rw [double_scale rows cols _ _ i j hi0 hi1 hj0 hj1]
  have h1 := double_fill_fst rows cols (fun a b => (1 : F64) / (M_PI * (2 * stddev * stddev))
      * exp ((-(((a - Int.tdiv rows 2 : Int) : F64) * ((a - Int.tdiv rows 2 : Int) : F64)
          + ((b - Int.tdiv cols 2 : Int) : F64) * ((b - Int.tdiv cols 2 : Int) : F64)))
        / (2 * stddev * stddev))) (kmem, 0) i j hi0 hi1 hj0 hj1
  have h2 := double_fill_snd_special rows cols
    (fun a b => (1 : F64) / (M_PI * (2 * stddev * stddev))
      * exp ((-(((a - Int.tdiv rows 2 : Int) : F64) * ((a - Int.tdiv rows 2 : Int) : F64)
          + ((b - Int.tdiv cols 2 : Int) : F64) * ((b - Int.tdiv cols 2 : Int) : F64)))
        / (2 * stddev * stddev))) (kmem, 0) (by omega) (by omega) hval
  simp only [] at h1 h2
  rw [h1]
  exact special_mul_recip _ _ (hval i j) h2

/-- On binary64, `gaussian_kernel` depends on `exp` only through its values at the
arguments `(-dist_sq)/denom` of the cells of the grid. -/
theorem double_kernel_congr (exp exp2 : F64 → F64) (rows cols : Int) (stddev : F64)
    (kmem : Int → F64)
    (h : ∀ i j, 0 ≤ i → i < rows → 0 ≤ j → j < cols →
      exp ((-(((i - Int.tdiv rows 2 : Int) : F64) * ((i - Int.tdiv rows 2 : Int) : F64)
          + ((j - Int.tdiv cols 2 : Int) : F64) * ((j - Int.tdiv cols 2 : Int) : F64)))
        / (2 * stddev * stddev))
      = exp2 ((-(((i - Int.tdiv rows 2 : Int) : F64) * ((i - Int.tdiv rows 2 : Int) : F64)
          + ((j - Int.tdiv cols 2 : Int) : F64) * ((j - Int.tdiv cols 2 : Int) : F64)))
        / (2 * stddev * stddev))) :
    Binary64.gaussian_kernel exp rows cols stddev kmem
      = Binary64.gaussian_kernel exp2 rows cols stddev kmem := by
  have hacc : forRange 0 cols (fun j acc =>
      forRange 0 rows (fun i (acc : (Int → F64) × F64) =>
        (Function.update acc.1 (i + (j * rows)) (1 / (M_PI * (2 * stddev * stddev))
            * exp ((-(((i - Int.tdiv rows 2 : Int) : F64)
                  * ((i - Int.tdiv rows 2 : Int) : F64)
                + ((j - Int.tdiv cols 2 : Int) : F64)
                  * ((j - Int.tdiv cols 2 : Int) : F64))) / (2 * stddev * stddev))),
          acc.2 + 1 / (M_PI * (2 * stddev * stddev))
            * exp ((-(((i - Int.tdiv rows 2 : Int) : F64)
                  * ((i - Int.tdiv rows 2 : Int) : F64)
                + ((j - Int.tdiv cols 2 : Int) : F64)
                  * ((j - Int.tdiv cols 2 : Int) : F64))) / (2 * stddev * stddev))))
        acc) (kmem, 0)
      = forRange 0 cols (fun j acc =>
      forRange 0 rows (fun i (acc : (Int → F64) × F64) =>
        (Function.update acc.1 (i + (j * rows)) (1 / (M_PI * (2 * stddev * stddev))
            * exp2 ((-(((i - Int.tdiv rows 2 : Int) : F64)
                  * ((i - Int.tdiv rows 2 : Int) : F64)
                + ((j - Int.tdiv cols 2 : Int) : F64)
                  * ((j - Int.tdiv cols 2 : Int) : F64))) / (2 * stddev * stddev))),
          acc.2 + 1 / (M_PI * (2 * stddev * stddev))
            * exp2 ((-(((i - Int.tdiv rows 2 : Int) : F64)
                  * ((i - Int.tdiv rows 2 : Int) : F64)
                + ((j - Int.tdiv cols 2 : Int) : F64)
                  * ((j - Int.tdiv cols 2 : Int) : F64))) / (2 * stddev * stddev))))
        acc) (kmem, 0) := by
    apply forRange_congr
    intro j hj0 hj1 t
    apply forRange_congr
    intro i hi0 hi1 t
    rw [h i j hi0 hi1 hj0 hj1]
  unfold Binary64.gaussian_kernel
  simp only []
  rw [hacc]

end DoubleKernelLoops

section DoubleClaims

open Binary64

/-- On binary64, `apply_stencil` depends on `exp` only through the kernel. -/
theorem double_stencil_congr (exp exp2 : F64 → F64) (radius : Int) (stddev : F64)
    (rows cols : Int) (kmem : Int → F64) (inp out : Int → pixel F64)
    (h : Binary64.gaussian_kernel exp (radius * 2 + 1) (radius * 2 + 1) stddev kmem
      = Binary64.gaussian_kernel exp2 (radius * 2 + 1) (radius * 2 + 1) stddev kmem) :
    Binary64.apply_stencil exp radius stddev rows cols kmem inp out
      = Binary64.apply_stencil exp2 radius stddev rows cols kmem inp out := by
  unfold Binary64.apply_stencil
  simp only []
  rw [h]

/-- On binary64 with `2 * stddev * stddev` zero, the kernel does not depend on `exp`. -/
theorem double_kernel_nan_eq (exp exp2 : F64 → F64) (rows cols : Int) (stddev : F64)
    (kmem : Int → F64) (hden : 2 * stddev * stddev = F64.fin 0) :
    Binary64.gaussian_kernel exp rows cols stddev kmem
      = Binary64.gaussian_kernel exp2 rows cols stddev kmem := by
  funext o
  by_cases hg : ∃ i j, (0 ≤ i ∧ i < rows ∧ 0 ≤ j ∧ j < cols) ∧ o = i + j * rows
  · obtain ⟨i, j, hr, ho⟩ := hg
    subst ho
    rw [double_kernel_nan exp rows cols stddev kmem hden i j hr.1 hr.2.1 hr.2.2.1 hr.2.2.2,
      double_kernel_nan exp2 rows cols stddev kmem hden i j hr.1 hr.2.1 hr.2.2.1 hr.2.2.2]
  · have ho : ∀ i j, 0 ≤ i → i < rows → 0 ≤ j → j < cols → o ≠ i + j * rows :=
      fun i j h1 h2 h3 h4 e => hg ⟨i, j, ⟨h1, h2, h3, h4⟩, e⟩
    rw [double_kernel_outside exp rows cols stddev kmem o ho,
      double_kernel_outside exp2 rows cols stddev kmem o ho]

/-- For the 3x3 kernel with standard deviation `0.01` or `0.02` on binary64, the
arguments of `exp` are 0 at the centre and below `-746` elsewhere: an `exp` that is 1 at
0 and underflows to 0 from `-746` downwards acts as the function that is 1 at 0 and 0
elsewhere. -/
theorem double_kernel_underflow (exp : F64 → F64) (stddev : F64) (kmem : Int → F64)
    (hs : stddev = rnd (1 / 100) ∨ stddev = rnd (2 / 100))
    (h0 : exp (F64.fin 0) = 1) (hu : ∀ x, le x (F64.fin (-746)) = true → exp x = 0) :
    Binary64.gaussian_kernel exp 3 3 stddev kmem
      = Binary64.gaussian_kernel (fun x => if x = F64.fin 0 then 1 else 0) 3 3 stddev kmem := by
  apply double_kernel_congr
  intro i j hi0 hi1 hj0 hj1
  have key : ∀ x : F64, (x = F64.fin 0 ∨ le x (F64.fin (-746)) = true) →
      exp x = (fun x => if x = F64.fin 0 then (1 : F64) else 0) x := by
    intro x hx
    rcases hx with hx | hx
    · subst hx
      rw [h0]
      rfl
    · rw [hu x hx]
      have hne : x ≠ F64.fin 0 := by
        intro e
        subst e
        revert hx
        decide!
      simp only [if_neg hne]
  apply key
  rcases hs with hs | hs <;> subst hs <;>
    interval_cases i <;> interval_cases j <;> decide!

/-- For radius 0 and `stddev = 1` the kernel on binary64 is the single cell 1, whatever
the array held before, for every `exp` with `exp(0) = 1`. -/
theorem double_kernel_one_cell (exp : F64 → F64) (kmem : Int → F64)
    (h0 : exp (F64.fin 0) = 1) :
    Binary64.gaussian_kernel exp (0 * 2 + 1) (0 * 2 + 1) 1 kmem 0 = 1 := by
  rw [double_kernel_congr exp (fun _ => 1) (0 * 2 + 1) (0 * 2 + 1) 1 kmem (by
    intro i j hi0 hi1 hj0 hj1
    have hi : i = 0 := by omega
    have hj : j = 0 := by omega
    subst hi
    subst hj
    have e : (-((((0 : Int) - Int.tdiv (0 * 2 + 1) 2 : Int) : F64)
          * (((0 : Int) - Int.tdiv (0 * 2 + 1) 2 : Int) : F64)
          + (((0 : Int) - Int.tdiv (0 * 2 + 1) 2 : Int) : F64)
          * (((0 : Int) - Int.tdiv (0 * 2 + 1) 2 : Int) : F64)))
        / (2 * (1 : F64) * 1) = F64.fin 0 := by decide!
    rw [e, h0])]
  unfold Binary64.gaussian_kernel
  simp only [forRange, loopN]
  have e1 : ((0 : Int) * 2 + 1 - 0).toNat = 1 := by decide
  rw [e1]
  simp only [List.range_succ, List.range_zero, List.nil_append, List.foldl_cons,
    List.foldl_nil]
  have e2 : (0 : Int) + ((0 : Nat) : Int) + (0 + ((0 : Nat) : Int)) * (0 * 2 + 1) = 0 := by
    decide
  rw [e2]
  simp only [Function.update_same]
  decide!

/-- The running sum of the first loop nest of `gaussian_kernel` does not depend on what
the array held before. -/
theorem double_fill_snd_init (rows cols : Int) (val : Int → Int → F64)
    (k1 k2 : Int → F64) (a : F64) :
    (forRange 0 cols (fun j acc =>
      forRange 0 rows (fun i (acc : (Int → F64) × F64) =>
        (Function.update acc.1 (i + (j * rows)) (val i j), acc.2 + val i j)) acc) (k1, a)).2
    = (forRange 0 cols (fun j acc =>
      forRange 0 rows (fun i (acc : (Int → F64) × F64) =>
        (Function.update acc.1 (i + (j * rows)) (val i j), acc.2 + val i j)) acc) (k2, a)).2 := by
  have inner : ∀ (j : Int) (s : (Int → F64) × F64),
      (forRange 0 rows (fun i (acc : (Int → F64) × F64) =>
        (Function.update acc.1 (i + (j * rows)) (val i j), acc.2 + val i j)) s).2
      = forRange 0 rows (fun i v => v + val i j) s.2 := by
    intro j s
    exact forRange_read (fun (s : (Int → F64) × F64) (_ : Unit) => s.2)
      (fun i _ v => v + val i j) _ (fun i s o => rfl) 0 rows s ()
  have outer : ∀ s : (Int → F64) × F64,
      (forRange 0 cols (fun j acc =>
        forRange 0 rows (fun i (acc : (Int → F64) × F64) =>
          (Function.update acc.1 (i + (j * rows)) (val i j), acc.2 + val i j)) acc) s).2
      = forRange 0 cols (fun j v => forRange 0 rows (fun i v => v + val i j) v) s.2 := by
    intro s
    exact forRange_read (fun (s : (Int → F64) × F64) (_ : Unit) => s.2)
      (fun j _ v => forRange 0 rows (fun i v => v + val i j) v) _
      (fun j s o => inner j s) 0 cols s ()
  rw [outer, outer]

/-- On binary64, every cell of the grid is written by `gaussian_kernel`: its final value
does not depend on what the array held before. -/
theorem double_kernel_init (exp : F64 → F64) (rows cols : Int) (stddev : F64)
    (k1 k2 : Int → F64) (i j : Int) (hi0 : 0 ≤ i) (hi1 : i < rows) (hj0 : 0 ≤ j)
    (hj1 : j < cols) :
    Binary64.gaussian_kernel exp rows cols stddev k1 (i + j * rows)
      = Binary64.gaussian_kernel exp rows cols stddev k2 (i + j * rows) := by
  unfold Binary64.gaussian_kernel
  simp only []
  rw [double_scale rows cols _ _ i j hi0 hi1 hj0 hj1,
    double_scale rows cols _ _ i j hi0 hi1 hj0 hj1,
    double_fill_fst rows cols _ _ i j hi0 hi1 hj0 hj1,
    double_fill_fst rows cols _ _ i j hi0 hi1 hj0 hj1,
    double_fill_snd_init rows cols _ k1 k2 0]

end DoubleClaims

section DoubleTables

open Binary64

/-- On binary64, the kernel computed with an `exp` that takes the values of a table at
the arguments the kernel passes to it is the kernel computed with the table. -/
theorem double_kernel_table (exp : F64 → F64) (table : List (ℚ × ℚ)) (rows cols : Int)
    (stddev : F64) (kmem : Int → F64)
    (hexp : ∀ p ∈ table, exp (F64.fin p.1) = F64.fin p.2)
    (htab : ∀ p ∈ table, table_exp table (F64.fin p.1) = F64.fin p.2)
    (hargs : ∀ i j, 0 ≤ i → i < rows → 0 ≤ j → j < cols →
      (-(((i - Int.tdiv rows 2 : Int) : F64) * ((i - Int.tdiv rows 2 : Int) : F64)
          + ((j - Int.tdiv cols 2 : Int) : F64) * ((j - Int.tdiv cols 2 : Int) : F64)))
        / (2 * stddev * stddev) ∈ table.map (fun p => F64.fin p.1)) :
    Binary64.gaussian_kernel exp rows cols stddev kmem
      = Binary64.gaussian_kernel (table_exp table) rows cols stddev kmem := by
  apply double_kernel_congr
  intro i j hi0 hi1 hj0 hj1
  obtain ⟨p, hp, e⟩ := List.mem_map.mp (hargs i j hi0 hi1 hj0 hj1)
  rw [← e, hexp p hp, htab p hp]

/-- The three tables list each argument once. -/
theorem table_exp_values :
    (∀ p ∈ exp_stddev_1, table_exp exp_stddev_1 (F64.fin p.1) = F64.fin p.2)
    ∧ (∀ p ∈ exp_stddev_8, table_exp exp_stddev_8 (F64.fin p.1) = F64.fin p.2)
    ∧ (∀ p ∈ exp_stddev_32, table_exp exp_stddev_32 (F64.fin p.1) = F64.fin p.2) := by
  decide!

/-- The kernel `gaussian_kernel(7, 7, 1.0, ...)` on binary64 with the values of `exp`. -/
theorem double_kernel_stddev_1 (exp : F64 → F64) (kmem : Int → F64)
    (hexp : ∀ p ∈ exp_stddev_1, exp (F64.fin p.1) = F64.fin p.2) :
    Binary64.gaussian_kernel exp (3 * 2 + 1) (3 * 2 + 1) 1 kmem
      = Binary64.gaussian_kernel (table_exp exp_stddev_1) (3 * 2 + 1) (3 * 2 + 1) 1 kmem := by
  apply double_kernel_table exp exp_stddev_1 _ _ _ kmem hexp table_exp_values.1
  intro i j hi0 hi1 hj0 hj1
  have hi : i < 7 := hi1
  have hj : j < 7 := hj1
  interval_cases i <;> interval_cases j <;> decide!

/-- The kernel `gaussian_kernel(5, 5, 8.0, ...)` on binary64 with the values of `exp`. -/
theorem double_kernel_stddev_8 (exp : F64 → F64) (kmem : Int → F64)
    (hexp : ∀ p ∈ exp_stddev_8, exp (F64.fin p.1) = F64.fin p.2) :
    Binary64.gaussian_kernel exp (2 * 2 + 1) (2 * 2 + 1) 8 kmem
      = Binary64.gaussian_kernel (table_exp exp_stddev_8) (2 * 2 + 1) (2 * 2 + 1) 8 kmem := by
  apply double_kernel_table exp exp_stddev_8 _ _ _ kmem hexp table_exp_values.2.1
  intro i j hi0 hi1 hj0 hj1
  have hi : i < 5 := hi1
  have hj : j < 5 := hj1
  interval_cases i <;> interval_cases j <;> decide!

/-- The kernel `gaussian_kernel(7, 7, 32.0, ...)` on binary64 with the values of `exp`. -/
theorem double_kernel_stddev_32 (exp : F64 → F64) (kmem : Int → F64)
    (hexp : ∀ p ∈ exp_stddev_32, exp (F64.fin p.1) = F64.fin p.2) :
    Binary64.gaussian_kernel exp (3 * 2 + 1) (3 * 2 + 1) 32 kmem
      = Binary64.gaussian_kernel (table_exp exp_stddev_32) (3 * 2 + 1) (3 * 2 + 1) 32 kmem := by
  apply double_kernel_table exp exp_stddev_32 _ _ _ kmem hexp table_exp_values.2.2
  intro i j hi0 hi1 hj0 hj1
  have hi : i < 7 := hi1
  have hj : j < 7 := hj1
  interval_cases i <;> interval_cases j <;> decide!

/-- On binary64, with `exp` returning the values `exp_stddev_8`, blur with radius 2 and
`stddev = 8` followed by `apply_prewittKs` leaves the rounding residue `2^-52` at the
centre cell `(3, 3)` of the 7x7 buffer whose every pixel is `(0.5, 0.5, 0.5)`. -/
theorem double_pipeline_residue :
    (∃ exp : F64 → F64, ∀ p ∈ exp_stddev_8, exp (F64.fin p.1) = F64.fin p.2)
    ∧ ∀ exp : F64 → F64, (∀ p ∈ exp_stddev_8, exp (F64.fin p.1) = F64.fin p.2) →
        (Binary64.apply_prewittKs 7 7 (fun _ => 0) (fun _ => 0) (fun _ => 0) (fun _ => 0)
          (Binary64.apply_stencil exp 2 8 7 7 (fun _ => 0)
            (fun _ => { red := rnd (1 / 2), green := rnd (1 / 2), blue := rnd (1 / 2) })
            (fun _ => { red := 0, green := 0, blue := 0 }))
          (fun _ => { red := 0, green := 0, blue := 0 }) (3 + 3 * 7)).red
        = F64.fin (1 / 2 ^ 52) := by
  refine ⟨⟨table_exp exp_stddev_8, table_exp_values.2.1⟩, fun exp hexp => ?_⟩
  rw [double_stencil_congr exp (table_exp exp_stddev_8) 2 8 7 7 (fun _ => 0) _ _
    (double_kernel_stddev_8 exp (fun _ => 0) hexp)]
  decide!

end DoubleTables

/-! ## Blur of uniform buffers and the end-to-end pipeline -/

section EndToEnd

open Finset

/-- On an input that holds the same pixel `q` at every cell, with a zero output cell,
`apply_stencil` leaves `q` scaled by the total weight of the in-range window cells. -/
theorem blur_uniform_apply {K : Type} [Field K] (exp : K → K) (pi : K)
    (radius rows cols : Int) (stddev : K) (kmem : Int → K) (inp out : Int → pixel K)
    (q : pixel K) (i j : Int) (hi0 : 0 ≤ i) (hi1 : i < rows) (hj0 : 0 ≤ j) (hj1 : j < cols)
    (hin : ∀ x y, 0 ≤ x → x < rows → 0 ≤ y → y < cols → inp (x + y * rows) = q)
    (hout : out (i + j * rows) = { red := 0, green := 0, blue := 0 }) :
    apply_stencil exp pi radius stddev rows cols kmem inp out (i + j * rows) =
      { red := (∑ p ∈ (Icc (i - radius) (i + radius) ×ˢ Icc (j - radius) (j + radius)).filter
            (fun p => 0 ≤ p.1 ∧ p.1 < rows ∧ 0 ≤ p.2 ∧ p.2 < cols),
            gaussian_kernel exp pi (radius * 2 + 1) (radius * 2 + 1) stddev kmem
              ((p.1 - (i - radius)) + (p.2 - (j - radius)) * (radius * 2 + 1))) * q.red
        green := (∑ p ∈ (Icc (i - radius) (i + radius)
            ×ˢ Icc (j - radius) (j + radius)).filter
            (fun p => 0 ≤ p.1 ∧ p.1 < rows ∧ 0 ≤ p.2 ∧ p.2 < cols),
            gaussian_kernel exp pi (radius * 2 + 1) (radius * 2 + 1) stddev kmem
              ((p.1 - (i - radius)) + (p.2 - (j - radius)) * (radius * 2 + 1))) * q.green
        blue := (∑ p ∈ (Icc (i - radius) (i + radius)
            ×ˢ Icc (j - radius) (j + radius)).filter
            (fun p => 0 ≤ p.1 ∧ p.1 < rows ∧ 0 ≤ p.2 ∧ p.2 < cols),
            gaussian_kernel exp pi (radius * 2 + 1) (radius * 2 + 1) stddev kmem
              ((p.1 - (i - radius)) + (p.2 - (j - radius)) * (radius * 2 + 1))) * q.blue } := by
  have hR := window_sum_uniform rows cols i j radius (radius * 2 + 1)
    (gaussian_kernel exp pi (radius * 2 + 1) (radius * 2 + 1) stddev kmem)
    (fun o => (inp o).red) q.red (fun x y h1 h2 h3 h4 => by simp only []; rw [hin x y h1 h2 h3 h4])
  have hG := window_sum_uniform rows cols i j radius (radius * 2 + 1)
    (gaussian_kernel exp pi (radius * 2 + 1) (radius * 2 + 1) stddev kmem)
    (fun o => (inp o).green) q.green (fun x y h1 h2 h3 h4 => by simp only []; rw [hin x y h1 h2 h3 h4])
  have hB := window_sum_uniform rows cols i j radius (radius * 2 + 1)
    (gaussian_kernel exp pi (radius * 2 + 1) (radius * 2 + 1) stddev kmem)
    (fun o => (inp o).blue) q.blue (fun x y h1 h2 h3 h4 => by simp only []; rw [hin x y h1 h2 h3 h4])
  simp only [] at hR hG hB
  unfold apply_stencil
  rw [stencil_loop_apply radius rows cols _ inp out i j hi0 hi1 hj0 hj1, hout, hR, hG, hB]
  simp only [zero_add]

end EndToEnd

section EndToEnd2

open Finset

/-- The total weight of the in-range cells of a window centred at an in-range cell is
positive. -/
theorem window_weight_pos (radius rows cols : Int) (stddev : ℝ) (kmem : Int → ℝ)
    (i j : Int) (hrad : 0 ≤ radius) (hs : stddev ≠ 0)
    (hi0 : 0 ≤ i) (hi1 : i < rows) (hj0 : 0 ≤ j) (hj1 : j < cols) :
    0 < ∑ p ∈ (Icc (i - radius) (i + radius) ×ˢ Icc (j - radius) (j + radius)).filter
        (fun p => 0 ≤ p.1 ∧ p.1 < rows ∧ 0 ≤ p.2 ∧ p.2 < cols),
        gaussian_kernel Real.exp Real.pi (radius * 2 + 1) (radius * 2 + 1) stddev kmem
          ((p.1 - (i - radius)) + (p.2 - (j - radius)) * (radius * 2 + 1)) := by
  apply sum_pos
  · intro p hp
    simp only [mem_filter, mem_product, mem_Icc] at hp
    exact gaussian_kernel_pos (radius * 2 + 1) (radius * 2 + 1) stddev hs kmem
      (p.1 - (i - radius)) (p.2 - (j - radius)) (by omega) (by omega) (by omega) (by omega)
  · refine ⟨(i, j), ?_⟩
    simp only [mem_filter, mem_product, mem_Icc]
    omega

/-- The total weight of a window that lies inside the buffer is one. -/
theorem window_weight_interior (radius rows cols : Int) (stddev : ℝ) (kmem : Int → ℝ)
    (i j : Int) (hrad : 0 ≤ radius) (hs : stddev ≠ 0)
    (hi0 : radius ≤ i) (hi1 : i + radius < rows) (hj0 : radius ≤ j)
    (hj1 : j + radius < cols) :
    ∑ p ∈ (Icc (i - radius) (i + radius) ×ˢ Icc (j - radius) (j + radius)).filter
        (fun p => 0 ≤ p.1 ∧ p.1 < rows ∧ 0 ≤ p.2 ∧ p.2 < cols),
        gaussian_kernel Real.exp Real.pi (radius * 2 + 1) (radius * 2 + 1) stddev kmem
          ((p.1 - (i - radius)) + (p.2 - (j - radius)) * (radius * 2 + 1)) = 1 := by
  have e1 : radius * 2 + 1 = 2 * radius + 1 := by ring
  rw [window_filter_interior rows cols i j radius hi0 hi1 hj0 hj1, window_weights, e1]
  exact gaussian_kernel_sum (2 * radius + 1) (2 * radius + 1) stddev hs (by omega)
    (by omega) kmem

/-- Over a field that is constant on the in-range cells of one window, the window sum
is the constant times the sum of the weights of these cells. -/
theorem window_sum_uniform_local {K : Type} [Field K] (rows cols i j r dim : Int)
    (kernel : Int → K) (g : Int → K) (c : K)
    (hu : ∀ p ∈ (Icc (i - r) (i + r) ×ˢ Icc (j - r) (j + r)).filter
        (fun p => 0 ≤ p.1 ∧ p.1 < rows ∧ 0 ≤ p.2 ∧ p.2 < cols),
      g (p.1 + p.2 * rows) = c) :
    ∑ p ∈ (Icc (i - r) (i + r) ×ˢ Icc (j - r) (j + r)).filter
        (fun p => 0 ≤ p.1 ∧ p.1 < rows ∧ 0 ≤ p.2 ∧ p.2 < cols),
        kernel ((p.1 - (i - r)) + (p.2 - (j - r)) * dim) * g (p.1 + p.2 * rows)
      = (∑ p ∈ (Icc (i - r) (i + r) ×ˢ Icc (j - r) (j + r)).filter
          (fun p => 0 ≤ p.1 ∧ p.1 < rows ∧ 0 ≤ p.2 ∧ p.2 < cols),
          kernel ((p.1 - (i - r)) + (p.2 - (j - r)) * dim)) * c := by
  rw [sum_mul]
  apply sum_congr rfl
  intro p hp
  rw [hu p hp]

/-- The four in-range cells of the 3x3 window of the corner cell `(0, 0)` in a buffer
with at least two rows and two columns. -/
theorem sum_corner_window (rows cols : Int) (hrows : 2 ≤ rows) (hcols : 2 ≤ cols)
    (F : Int → Int → ℝ) :
    ∑ p ∈ (Icc ((0 : Int) - 1) (0 + 1) ×ˢ Icc ((0 : Int) - 1) (0 + 1)).filter
        (fun p => 0 ≤ p.1 ∧ p.1 < rows ∧ 0 ≤ p.2 ∧ p.2 < cols), F p.1 p.2
      = F 0 0 + F 0 1 + F 1 0 + F 1 1 := by
  have e1 : max ((0 : Int) - 1) 0 = 0 := by omega
  have e2 : min ((0 : Int) + 1) (rows - 1) = 1 := by omega
  have e3 : min ((0 : Int) + 1) (cols - 1) = 1 := by omega
  have e4 : Icc (0 : Int) 1 = {0, 1} := by decide
  rw [window_filter_eq, e1, e2, e3, sum_product, e4]
  simp
  ring

end EndToEnd2

section EndToEnd3

open Finset

/-- Blur followed by `apply_prewittKs` on a uniform positive buffer: the corner cell
`(0, 0)` gets a strictly positive magnitude, because the skipped window row leaves the
X gradient unbalanced. -/
theorem pipeline_corner_pos (radius rows cols : Int) (stddev c : ℝ)
    (kmem Xkmem Ykmem Xmem Ymem : Int → ℝ) (inp bz oz : Int → pixel ℝ)
    (hrad : 0 ≤ radius) (hs : stddev ≠ 0) (hrows : 2 ≤ rows) (hcols : 2 ≤ cols)
    (hc : 0 < c)
    (hin : ∀ x y, 0 ≤ x → x < rows → 0 ≤ y → y < cols →
      inp (x + y * rows) = { red := c, green := c, blue := c })
    (hbz : ∀ x y, 0 ≤ x → x < rows → 0 ≤ y → y < cols →
      bz (x + y * rows) = { red := 0, green := 0, blue := 0 }) :
    0 < (apply_prewittKs Real.sqrt rows cols Xkmem Ykmem Xmem Ymem
        (apply_stencil Real.exp Real.pi radius stddev rows cols kmem inp bz) oz
        (0 + 0 * rows)).red
    ∧ 0 < (apply_prewittKs Real.sqrt rows cols Xkmem Ykmem Xmem Ymem
        (apply_stencil Real.exp Real.pi radius stddev rows cols kmem inp bz) oz
        (0 + 0 * rows)).green
    ∧ 0 < (apply_prewittKs Real.sqrt rows cols Xkmem Ykmem Xmem Ymem
        (apply_stencil Real.exp Real.pi radius stddev rows cols kmem inp bz) oz
        (0 + 0 * rows)).blue := by
  -- the grayscale intensity of every blurred cell is positive
  have hI : ∀ x y, 0 ≤ x → x < rows → 0 ≤ y → y < cols →
      0 < ((apply_stencil Real.exp Real.pi radius stddev rows cols kmem inp bz
            (x + y * rows)).red
          + (apply_stencil Real.exp Real.pi radius stddev rows cols kmem inp bz
            (x + y * rows)).green
          + (apply_stencil Real.exp Real.pi radius stddev rows cols kmem inp bz
            (x + y * rows)).blue) / 3 := by
    intro x y hx0 hx1 hy0 hy1
    rw [blur_uniform_apply Real.exp Real.pi radius rows cols stddev kmem inp bz
      { red := c, green := c, blue := c } x y hx0 hx1 hy0 hy1 hin (hbz x y hx0 hx1 hy0 hy1)]
    have hT := window_weight_pos radius rows cols stddev kmem x y hrad hs hx0 hx1 hy0 hy1
    simp only []
    have := mul_pos hT hc
    linarith
  have hX := sum_corner_window rows cols hrows hcols (fun x y =>
    prewittX_kernel 3 3 Xkmem ((x - (0 - 1)) + (y - (0 - 1)) * 3)
      * (((apply_stencil Real.exp Real.pi radius stddev rows cols kmem inp bz
            (x + y * rows)).red
          + (apply_stencil Real.exp Real.pi radius stddev rows cols kmem inp bz
            (x + y * rows)).green
          + (apply_stencil Real.exp Real.pi radius stddev rows cols kmem inp bz
            (x + y * rows)).blue) / 3))
  simp only [] at hX
  have h10 := hI 1 0 (by norm_num) (by omega) (by norm_num) (by omega)
  have h11 := hI 1 1 (by norm_num) (by omega) (by norm_num) (by omega)
  rw [apply_prewittKs_apply Real.sqrt rows cols Xkmem Ykmem Xmem Ymem _ oz 0 0
    (le_refl 0) (by omega) (le_refl 0) (by omega), hX]
  simp only []
  generalize (∑ p ∈ (Icc ((0 : Int) - 1) (0 + 1) ×ˢ Icc ((0 : Int) - 1) (0 + 1)).filter
        (fun p => 0 ≤ p.1 ∧ p.1 < rows ∧ 0 ≤ p.2 ∧ p.2 < cols),
      prewittY_kernel 3 3 Ykmem ((p.1 - (0 - 1)) + (p.2 - (0 - 1)) * 3)
        * (((apply_stencil Real.exp Real.pi radius stddev rows cols kmem inp bz
              (p.1 + p.2 * rows)).red
            + (apply_stencil Real.exp Real.pi radius stddev rows cols kmem inp bz
              (p.1 + p.2 * rows)).green
            + (apply_stencil Real.exp Real.pi radius stddev rows cols kmem inp bz
              (p.1 + p.2 * rows)).blue) / 3)) = SY
  generalize ((apply_stencil Real.exp Real.pi radius stddev rows cols kmem inp bz
            (1 + 0 * rows)).red
          + (apply_stencil Real.exp Real.pi radius stddev rows cols kmem inp bz
            (1 + 0 * rows)).green
          + (apply_stencil Real.exp Real.pi radius stddev rows cols kmem inp bz
            (1 + 0 * rows)).blue) / 3 = a at h10 ⊢
  generalize ((apply_stencil Real.exp Real.pi radius stddev rows cols kmem inp bz
            (1 + 1 * rows)).red
          + (apply_stencil Real.exp Real.pi radius stddev rows cols kmem inp bz
            (1 + 1 * rows)).green
          + (apply_stencil Real.exp Real.pi radius stddev rows cols kmem inp bz
            (1 + 1 * rows)).blue) / 3 = b at h11 ⊢
  simp only [prewittX_kernel_apply]
  norm_num
  have hpos : 0 < (a + b) * (a + b) + SY * SY := by nlinarith [mul_self_nonneg SY]
  exact hpos

end EndToEnd3

section EndToEnd4

open Finset

/-- C12 (as stated, refuted): for the 4x4 buffer in which every pixel is `(0.5, 0.5, 0.5)`,
blur with the kernel of `main` (radius 3, standard deviation 32, zero-initialised
output) followed by `apply_prewittKs` leaves a strictly positive value, not 0, in the
red channel of the corner cell `(0, 0)`. -/
theorem pipeline_uniform_4x4_nonzero :
    0 < (apply_prewittKs Real.sqrt 4 4 (fun _ => 0) (fun _ => 0) (fun _ => 0) (fun _ => 0)
        (apply_stencil Real.exp Real.pi 3 32 4 4 (fun _ => 0)
          (fun _ => { red := 1 / 2, green := 1 / 2, blue := 1 / 2 })
          (fun _ => { red := 0, green := 0, blue := 0 }))
        (fun _ => { red := 0, green := 0, blue := 0 }) (0 + 0 * 4)).red
    ∧ (apply_prewittKs Real.sqrt 4 4 (fun _ => 0) (fun _ => 0) (fun _ => 0) (fun _ => 0)
        (apply_stencil Real.exp Real.pi 3 32 4 4 (fun _ => 0)
          (fun _ => { red := 1 / 2, green := 1 / 2, blue := 1 / 2 })
          (fun _ => { red := 0, green := 0, blue := 0 }))
        (fun _ => { red := 0, green := 0, blue := 0 }) (0 + 0 * 4)).red ≠ 0 := by
  have h := (pipeline_corner_pos 3 4 4 32 (1 / 2) (fun _ => 0) (fun _ => 0) (fun _ => 0)
    (fun _ => 0) (fun _ => 0) (fun _ => { red := 1 / 2, green := 1 / 2, blue := 1 / 2 })
    (fun _ => { red := 0, green := 0, blue := 0 })
    (fun _ => { red := 0, green := 0, blue := 0 })
    (by norm_num) (by norm_num) (by norm_num) (by norm_num) (by norm_num)
    (fun _ _ _ _ _ _ => rfl) (fun _ _ _ _ _ _ => rfl)).1
  exact ⟨h, ne_of_gt h⟩

/-- C12 (amended): in exact real arithmetic, for a buffer in which every pixel is
`(0.5, 0.5, 0.5)`, blur (`apply_stencil`, radius `r ≥ 1`, `stddev > 0`, zero-initialised
output) followed by `apply_prewittKs` yields 0 in every channel of every cell `(i, j)`
with `r+1 ≤ i ≤ rows-r-2` and `r+1 ≤ j ≤ cols-r-2`; the corner cell `(0, 0)` of a buffer
with at least two rows and two columns, such as the 4x4 buffer (which has no cell of the
first kind), gets a strictly positive value in every channel.  On binary64 the cells of
the first kind are 0 only up to rounding: with radius 2, `stddev = 8` and `exp` returning
the values `exp_stddev_8`, the cell `(3, 3)` of the 7x7 buffer gets `2^-52`. -/
theorem pipeline_uniform_half (radius rows cols : Int) (stddev : ℝ)
    (kmem Xkmem Ykmem Xmem Ymem : Int → ℝ) (inp bz oz : Int → pixel ℝ)
    (hrad : 1 ≤ radius) (hstd : 0 < stddev)
    (hin : ∀ x y, 0 ≤ x → x < rows → 0 ≤ y → y < cols →
      inp (x + y * rows) = { red := 1 / 2, green := 1 / 2, blue := 1 / 2 })
    (hbz : ∀ x y, 0 ≤ x → x < rows → 0 ≤ y → y < cols →
      bz (x + y * rows) = { red := 0, green := 0, blue := 0 }) :
    (∀ i j, radius + 1 ≤ i → i ≤ rows - radius - 2 → radius + 1 ≤ j →
        j ≤ cols - radius - 2 →
        apply_prewittKs Real.sqrt rows cols Xkmem Ykmem Xmem Ymem
          (apply_stencil Real.exp Real.pi radius stddev rows cols kmem inp bz) oz
          (i + j * rows) = { red := 0, green := 0, blue := 0 })
    ∧ (2 ≤ rows → 2 ≤ cols →
        0 < (apply_prewittKs Real.sqrt rows cols Xkmem Ykmem Xmem Ymem
          (apply_stencil Real.exp Real.pi radius stddev rows cols kmem inp bz) oz
          (0 + 0 * rows)).red
        ∧ 0 < (apply_prewittKs Real.sqrt rows cols Xkmem Ykmem Xmem Ymem
          (apply_stencil Real.exp Real.pi radius stddev rows cols kmem inp bz) oz
          (0 + 0 * rows)).green
        ∧ 0 < (apply_prewittKs Real.sqrt rows cols Xkmem Ykmem Xmem Ymem
          (apply_stencil Real.exp Real.pi radius stddev rows cols kmem inp bz) oz
          (0 + 0 * rows)).blue)
    ∧ ((∃ exp : Binary64.F64 → Binary64.F64,
          ∀ p ∈ Binary64.exp_stddev_8, exp (Binary64.F64.fin p.1) = Binary64.F64.fin p.2)
      ∧ ∀ exp : Binary64.F64 → Binary64.F64,
          (∀ p ∈ Binary64.exp_stddev_8,
            exp (Binary64.F64.fin p.1) = Binary64.F64.fin p.2) →
          (Binary64.apply_prewittKs 7 7 (fun _ => 0) (fun _ => 0) (fun _ => 0) (fun _ => 0)
            (Binary64.apply_stencil exp 2 8 7 7 (fun _ => 0)
              (fun _ => { red := Binary64.rnd (1 / 2), green := Binary64.rnd (1 / 2),
                          blue := Binary64.rnd (1 / 2) })
              (fun _ => { red := 0, green := 0, blue := 0 }))
            (fun _ => { red := 0, green := 0, blue := 0 }) (3 + 3 * 7)).red
          = Binary64.F64.fin (1 / 2 ^ 52)) := by
  have hs : stddev ≠ 0 := ne_of_gt hstd
  refine ⟨fun i j hi0 hi1 hj0 hj1 => ?_, fun hrows hcols =>
    pipeline_corner_pos radius rows cols stddev (1 / 2) kmem Xkmem Ykmem Xmem Ymem inp bz oz
      (by omega) hs hrows hcols (by norm_num) hin hbz, double_pipeline_residue⟩
  -- every cell of the 3x3 window of `(i, j)` is blurred from a window inside the buffer
  have hloc : ∀ p ∈ (Icc (i - 1) (i + 1) ×ˢ Icc (j - 1) (j + 1)).filter
        (fun p => 0 ≤ p.1 ∧ p.1 < rows ∧ 0 ≤ p.2 ∧ p.2 < cols),
      (fun o => ((apply_stencil Real.exp Real.pi radius stddev rows cols kmem inp bz o).red
          + (apply_stencil Real.exp Real.pi radius stddev rows cols kmem inp bz o).green
          + (apply_stencil Real.exp Real.pi radius stddev rows cols kmem inp bz o).blue) / 3)
        (p.1 + p.2 * rows) = 1 / 2 := by
    intro p hp
    simp only [mem_filter, mem_product, mem_Icc] at hp
    simp only []
    rw [blur_uniform_apply Real.exp Real.pi radius rows cols stddev kmem inp bz
      { red := 1 / 2, green := 1 / 2, blue := 1 / 2 } p.1 p.2 (by omega) (by omega)
      (by omega) (by omega) hin (hbz p.1 p.2 (by omega) (by omega) (by omega) (by omega)),
      window_weight_interior radius rows cols stddev kmem p.1 p.2 (by omega) hs
        (by omega) (by omega) (by omega) (by omega)]
    norm_num
  have hX := window_sum_uniform_local rows cols i j 1 3 (prewittX_kernel 3 3 Xkmem)
    (fun o => ((apply_stencil Real.exp Real.pi radius stddev rows cols kmem inp bz o).red
      + (apply_stencil Real.exp Real.pi radius stddev rows cols kmem inp bz o).green
      + (apply_stencil Real.exp Real.pi radius stddev rows cols kmem inp bz o).blue) / 3)
    (1 / 2) hloc
  have hY := window_sum_uniform_local rows cols i j 1 3 (prewittY_kernel 3 3 Ykmem)
    (fun o => ((apply_stencil Real.exp Real.pi radius stddev rows cols kmem inp bz o).red
      + (apply_stencil Real.exp Real.pi radius stddev rows cols kmem inp bz o).green
      + (apply_stencil Real.exp Real.pi radius stddev rows cols kmem inp bz o).blue) / 3)
    (1 / 2) hloc
  simp only [] at hX hY
  rw [window_filter_interior rows cols i j 1 (by omega) (by omega) (by omega) (by omega),
    window_weights] at hX hY
  rw [(prewitt_weights_zero Xkmem Ykmem).1] at hX
  rw [(prewitt_weights_zero Xkmem Ykmem).2] at hY
  rw [apply_prewittKs_apply Real.sqrt rows cols Xkmem Ykmem Xmem Ymem _ oz i j
    (by omega) (by omega) (by omega) (by omega)]
  rw [window_filter_interior rows cols i j 1 (by omega) (by omega) (by omega) (by omega),
    hX, hY]
  simp

end EndToEnd4

/-! ## Independence of the order in which the cells are processed -/

section Tiling

variable {σ : Type}

theorem foldl_read {α ι β : Type} (rd : σ → ι → β) (φ : α → ι → β → β)
    (body : α → σ → σ) (h : ∀ a s o, rd (body a s) o = φ a o (rd s o))
    (L : List α) (s : σ) (o : ι) :
    rd (L.foldl (fun s a => body a s) s) o = L.foldl (fun v a => φ a o v) (rd s o) := by
  induction L generalizing s with
  | nil => rfl
  | cons a L ih => simp only [List.foldl_cons]; rw [ih, h]

theorem foldl_id {α β : Type} (L : List α) (f : α → β → β)
    (h : ∀ a ∈ L, ∀ v, f a v = v) (v : β) : L.foldl (fun v a => f a v) v = v := by
  induction L generalizing v with
  | nil => rfl
  | cons a L ih =>
    simp only [List.foldl_cons]
    rw [h a (List.mem_cons_self a L), ih (fun b hb => h b (List.mem_cons_of_mem a hb))]

theorem foldl_single {α β : Type} (L : List α) (hnd : L.Nodup) (a0 : α) (ha0 : a0 ∈ L)
    (f : α → β → β) (h : ∀ a ∈ L, a ≠ a0 → ∀ v, f a v = v) (v : β) :
    L.foldl (fun v a => f a v) v = f a0 v := by
  induction L generalizing v with
  | nil => exact absurd ha0 (List.not_mem_nil a0)
  | cons a L ih =>
    simp only [List.foldl_cons]
    rw [List.nodup_cons] at hnd
    by_cases hA : a = a0
    · subst hA
      exact foldl_id L f (fun b hb v => h b (List.mem_cons_of_mem a hb)
        (fun e => hnd.1 (e ▸ hb)) v) (f a v)
    · have hmem : a0 ∈ L := by
        rcases List.mem_cons.mp ha0 with e | e
        · exact absurd e.symm hA
        · exact e
      rw [h a (List.mem_cons_self a L) hA v]
      exact ih hnd.2 hmem (fun b hb => h b (List.mem_cons_of_mem a hb)) v

/-- A cell body that acts, through `rd`, only on its own offset gives the same reading
whether it is run over an enumeration of the index space in any order or by the
column-by-column loop nest. -/
theorem order_eq_grid {β : Type} (rd : σ → Int → β) (rows cols : Int)
    (cell : Int → Int → σ → σ) (G : Int → Int → β → β)
    (h : ∀ i j s o, rd (cell i j s) o = if o = i + j * rows then G i j (rd s o) else rd s o)
    (order : List (Int × Int)) (hnd : order.Nodup)
    (hmem : ∀ p, p ∈ order ↔ 0 ≤ p.1 ∧ p.1 < rows ∧ 0 ≤ p.2 ∧ p.2 < cols)
    (s : σ) (o : Int) :
    rd (order.foldl (fun s p => cell p.1 p.2 s) s) o
      = rd (forRange 0 cols (fun j s => forRange 0 rows (fun i s => cell i j s) s) s) o := by
  rw [foldl_read rd (fun (p : Int × Int) o v =>
    if o = p.1 + p.2 * rows then G p.1 p.2 v else v) (fun p s => cell p.1 p.2 s)
    (fun p s o => h p.1 p.2 s o)]
  by_cases hgrid : ∃ i j, (0 ≤ i ∧ i < rows ∧ 0 ≤ j ∧ j < cols) ∧ o = i + j * rows
  · obtain ⟨i0, j0, hr, ho⟩ := hgrid
    subst ho
    rw [grid_read rd rows cols cell G h s i0 j0 hr.1 hr.2.1 hr.2.2.1 hr.2.2.2]
    rw [foldl_single order hnd (i0, j0) ((hmem (i0, j0)).mpr hr)]
    · simp
    · intro p hp hne v
      have hpr := (hmem p).mp hp
      have : ¬ (i0 + j0 * rows = p.1 + p.2 * rows) := fun e => by
        have := offset_inj rows i0 j0 p.1 p.2 hr.1 hr.2.1 hpr.1 hpr.2.1 e
        exact hne (Prod.ext this.1.symm this.2.symm)
      simp [this]
  · have hout : ∀ i j, 0 ≤ i → i < rows → 0 ≤ j → j < cols → o ≠ i + j * rows :=
      fun i j h1 h2 h3 h4 e => hgrid ⟨i, j, ⟨h1, h2, h3, h4⟩, e⟩
    rw [grid_read_outside rd rows cols cell G h s o hout]
    apply foldl_id
    intro p hp v
    have hpr := (hmem p).mp hp
    simp [hout p.1 p.2 hpr.1 hpr.2.1 hpr.2.2.1 hpr.2.2.2]

/-- C13: for every list `order` that enumerates the index space
`{0..rows-1} x {0..cols-1}` (every cell exactly once, in any sequence, hence under any
partition of the row and column ranges into blocks), running the per-cell body of
`apply_stencil` over `order` produces the output buffer of `apply_stencil`, and running
the per-cell body of `apply_prewittKs` over `order` produces the output buffer of
`apply_prewittKs` (input and output buffers are distinct). -/
theorem tiling_independence {K : Type} [Field K] (exp : K → K) (pi : K) (sqrt : K → K)
    (radius rows cols : Int) (stddev : K) (kmem Xkmem Ykmem Xmem Ymem : Int → K)
    (inp out : Int → pixel K) (order : List (Int × Int)) (hnd : order.Nodup)
    (hmem : ∀ p, p ∈ order ↔ 0 ≤ p.1 ∧ p.1 < rows ∧ 0 ≤ p.2 ∧ p.2 < cols) :
    apply_stencil_in_order exp pi radius stddev rows cols kmem inp order out
        = apply_stencil exp pi radius stddev rows cols kmem inp out
    ∧ apply_prewittKs_in_order sqrt rows cols Xkmem Ykmem Xmem Ymem inp order out
        = apply_prewittKs sqrt rows cols Xkmem Ykmem Xmem Ymem inp out := by
  constructor
  · funext o
    unfold apply_stencil_in_order apply_stencil stencil_in_order stencil_loop
    exact order_eq_grid (fun (s : Int → pixel K) o => s o) rows cols
      (fun i j s => stencil_cell radius rows cols (radius * 2 + 1)
        (gaussian_kernel exp pi (radius * 2 + 1) (radius * 2 + 1) stddev kmem) inp i j s)
      (fun i j v => (stencil_cell radius rows cols (radius * 2 + 1)
        (gaussian_kernel exp pi (radius * 2 + 1) (radius * 2 + 1) stddev kmem) inp i j
        (fun _ => v)) (i + j * rows))
      (fun i j s o => by
        simp only [stencil_cell_eq, Function.update_apply]
        split_ifs with h
        · rw [h]
        · rfl) order hnd hmem out o
  · funext o
    unfold apply_prewittKs_in_order apply_prewittKs
    have h := order_eq_grid
      (fun (st : PrewittState K) o => (st.Xedges o, st.Yedges o, st.out o)) rows cols
      (fun i j st => prewitt_cell sqrt rows cols (prewittX_kernel 3 3 Xkmem)
        (prewittY_kernel 3 3 Ykmem) inp i j st)
      (fun i j (v : K × K × pixel K) =>
        ((prewitt_cell sqrt rows cols (prewittX_kernel 3 3 Xkmem)
          (prewittY_kernel 3 3 Ykmem) inp i j
          { Xedges := fun _ => v.1, Yedges := fun _ => v.2.1, out := fun _ => v.2.2 }).Xedges
            (i + j * rows),
        (prewitt_cell sqrt rows cols (prewittX_kernel 3 3 Xkmem)
          (prewittY_kernel 3 3 Ykmem) inp i j
          { Xedges := fun _ => v.1, Yedges := fun _ => v.2.1, out := fun _ => v.2.2 }).Yedges
            (i + j * rows),
        (prewitt_cell sqrt rows cols (prewittX_kernel 3 3 Xkmem)
          (prewittY_kernel 3 3 Ykmem) inp i j
          { Xedges := fun _ => v.1, Yedges := fun _ => v.2.1, out := fun _ => v.2.2 }).out
            (i + j * rows)))
      (fun i j s o => by
        simp only [prewitt_cell_eq, Function.update_apply]
        split_ifs with h
        · rw [h]
        · rfl) order hnd hmem
      { Xedges := (forRange 0 (rows * cols) (fun i (e : (Int → K) × (Int → K)) =>
          (Function.update e.1 i 0, Function.update e.2 i 0)) (Xmem, Ymem)).1
        Yedges := (forRange 0 (rows * cols) (fun i (e : (Int → K) × (Int → K)) =>
          (Function.update e.1 i 0, Function.update e.2 i 0)) (Xmem, Ymem)).2
        out := out } o
    exact congrArg (fun t => t.2.2) h

end Tiling

/-! ## Loop nests over arbitrary index keys -/

section Keys

variable {σ : Type}

/-- A loop from `lo` is the loop from `0` over the shifted index. -/
theorem forRange_shift (lo hi : Int) (body : Int → σ → σ) (s : σ) :
    forRange lo hi body s = forRange 0 (hi - lo) (fun k => body (lo + k)) s := by
  unfold forRange
  simp only [sub_zero, zero_add]

/-- A loop preserves every property that each of its iterations preserves. -/
theorem forRange_invariant (P : σ → Prop) (lo hi : Int) (body : Int → σ → σ)
    (h : ∀ i, lo ≤ i → i < hi → ∀ s, P s → P (body i s)) (s : σ) (hs : P s) :
    P (forRange lo hi body s) := by
  unfold forRange
  have key : ∀ n : Nat, n ≤ (hi - lo).toNat →
      P (loopN n (fun k => body (lo + (k : Int))) s) := by
    intro n
    induction n with
    | zero => intro _; exact hs
    | succ m ih =>
      intro hm
      rw [loopN_succ]
      exact h _ (by omega) (by omega) _ (ih (by omega))
  exact key _ (le_refl _)

/-- A window loop preserves every property that each of its iterations preserves. -/
theorem forWindow_invariant (P : σ → Prop) (lo hi : Int) (body : Int → Int → σ → σ)
    (h : ∀ x kx, lo ≤ x → x ≤ hi → kx = x - lo → ∀ s, P s → P (body x kx s)) (s : σ)
    (hs : P s) : P (forWindow lo hi body s) := by
  unfold forWindow
  have key : ∀ n : Nat, n ≤ (hi + 1 - lo).toNat →
      P (loopN n (fun k => body (lo + (k : Int)) (k : Int)) s) := by
    intro n
    induction n with
    | zero => intro _; exact hs
    | succ m ih =>
      intro hm
      rw [loopN_succ]
      exact h _ _ (by omega) (by omega) (by omega) _ (ih (by omega))
  exact key _ (le_refl _)

/-- A two-level loop nest whose cell body acts, through `rd`, only on its own key, for
keys that are distinct on the index space: the value read at the key of an in-range cell
is the cell body's action on the value read before. -/
theorem grid_read_key {ι β : Type} [DecidableEq ι] (rd : σ → ι → β) (na nb : Int)
    (key : Int → Int → ι) (cell : Int → Int → σ → σ) (G : Int → Int → β → β)
    (h : ∀ a b s o, rd (cell a b s) o = if o = key a b then G a b (rd s o) else rd s o)
    (hinj : ∀ a b a2 b2, 0 ≤ a → a < na → 0 ≤ b → b < nb → 0 ≤ a2 → a2 < na → 0 ≤ b2 →
      b2 < nb → key a b = key a2 b2 → a = a2 ∧ b = b2)
    (s : σ) (a0 b0 : Int) (ha0 : 0 ≤ a0) (ha1 : a0 < na) (hb0 : 0 ≤ b0) (hb1 : b0 < nb) :
    rd (forRange 0 na (fun a s => forRange 0 nb (fun b s => cell a b s) s) s) (key a0 b0)
      = G a0 b0 (rd s (key a0 b0)) := by
  have inner : ∀ a s o, rd (forRange 0 nb (fun b s => cell a b s) s) o
      = forRange 0 nb (fun b v => if o = key a b then G a b v else v) (rd s o) :=
    fun a s o => forRange_read rd (fun b o v => if o = key a b then G a b v else v)
      (fun b s => cell a b s) (fun b s o => h a b s o) 0 nb s o
  rw [forRange_read rd
    (fun a o v => forRange 0 nb (fun b v => if o = key a b then G a b v else v) v)
    _ (fun a s o => inner a s o)]
  rw [forRange_single na a0 ha0 ha1, forRange_single nb b0 hb0 hb1]
  · simp
  · intro b hb hb2 hne t
    have : ¬ (key a0 b0 = key a0 b) := fun e =>
      hne (hinj a0 b0 a0 b ha0 ha1 hb0 hb1 ha0 ha1 hb hb2 e).2.symm
    simp [this]
  · intro a ha ha2 hne t
    apply forRange_id
    intro b hb hb2 t
    have : ¬ (key a0 b0 = key a b) := fun e =>
      hne (hinj a0 b0 a b ha0 ha1 hb0 hb1 ha ha2 hb hb2 e).1.symm
    simp [this]

/-- Outside the keys of the index space such a loop nest changes nothing. -/
theorem grid_read_key_outside {ι β : Type} [DecidableEq ι] (rd : σ → ι → β) (na nb : Int)
    (key : Int → Int → ι) (cell : Int → Int → σ → σ) (G : Int → Int → β → β)
    (h : ∀ a b s o, rd (cell a b s) o = if o = key a b then G a b (rd s o) else rd s o)
    (s : σ) (o : ι) (ho : ∀ a b, 0 ≤ a → a < na → 0 ≤ b → b < nb → o ≠ key a b) :
    rd (forRange 0 na (fun a s => forRange 0 nb (fun b s => cell a b s) s) s) o = rd s o := by
  have inner : ∀ a s o, rd (forRange 0 nb (fun b s => cell a b s) s) o
      = forRange 0 nb (fun b v => if o = key a b then G a b v else v) (rd s o) :=
    fun a s o => forRange_read rd (fun b o v => if o = key a b then G a b v else v)
      (fun b s => cell a b s) (fun b s o => h a b s o) 0 nb s o
  rw [forRange_read rd
    (fun a o v => forRange 0 nb (fun b v => if o = key a b then G a b v else v) v)
    _ (fun a s o => inner a s o)]
  apply forRange_id
  intro a ha ha2 t
  apply forRange_id
  intro b hb hb2 t
  simp [ho a b ha ha2 hb hb2]

end Keys

/-! ## Partitions of a range into contiguous blocks -/

section Contiguous

open Finset

variable {K : Type} [Field K]

/-- Contiguous blocks lie inside the range they partition, cover it, and their sums add
up to the sum over the range. -/
theorem contiguous_spec (f : Int → K) (chain : List (Int × Int)) (lo hi : Int)
    (hc : contiguous lo hi chain = true) :
    lo ≤ hi
    ∧ (∀ b ∈ chain, lo ≤ b.1 ∧ b.2 ≤ hi)
    ∧ (∀ j, lo ≤ j → j < hi → ∃ b ∈ chain, b.1 ≤ j ∧ j < b.2)
    ∧ (chain.map (fun b => ∑ j ∈ Ico b.1 b.2, f j)).sum = ∑ j ∈ Ico lo hi, f j := by
  induction chain generalizing lo with
  | nil =>
    simp only [contiguous, decide_eq_true_eq] at hc
    subst hc
    refine ⟨le_refl _, fun b hb => absurd hb (List.not_mem_nil b), fun j h1 h2 => ?_, ?_⟩
    · omega
    · simp
  | cons b bs ih =>
    simp only [contiguous, Bool.and_eq_true, decide_eq_true_eq] at hc
    obtain ⟨⟨h1, h2⟩, h3⟩ := hc
    obtain ⟨i1, i2, i3, i4⟩ := ih b.2 h3
    refine ⟨by omega, ?_, ?_, ?_⟩
    · intro c hcm
      rcases List.mem_cons.mp hcm with e | e
      · subst e
        omega
      · have := i2 c e
        omega
    · intro j hj1 hj2
      by_cases hjb : j < b.2
      · exact ⟨b, List.mem_cons_self b bs, by omega, hjb⟩
      · obtain ⟨c, hc1, hc2⟩ := i3 j (by omega) hj2
        exact ⟨c, List.mem_cons_of_mem b hc1, hc2⟩
    · simp only [List.map_cons, List.sum_cons]
      rw [i4, h1, ← sum_union (Ico_disjoint_Ico_consecutive lo b.2 hi),
        Ico_union_Ico_eq_Ico h2 i1]

end Contiguous

/-! ## The kernel-sum reduction: race-free executions -/

section Unsplit

open Finset

variable {K : Type} [Field K]

/-- The two steps of a task on one row, in terms of the weight of the cell. -/
theorem row_task_step_eq (exp : K → K) (pi : K) (rows cols : Int) (stddev : K) (j : Int)
    (t : Nat) (st : RowTasks K) :
    row_task_step exp pi rows cols stddev j t st =
      match st.tasks.get? t with
      | none => st
      | some task =>
        if task.i < task.stop then
          match task.pending with
          | none =>
            { kernel := Function.update st.kernel (task.i + j * rows)
                (gaussian_value exp pi rows cols stddev task.i j)
              acc := st.acc
              tasks := st.tasks.set t
                { i := task.i, stop := task.stop, pending := some st.acc } }
          | some r =>
            { kernel := st.kernel
              acc := r + gaussian_value exp pi rows cols stddev task.i j
              tasks := st.tasks.set t
                { i := task.i + 1, stop := task.stop, pending := none } }
        else st := rfl

/-- The state of the one task of an unsplit nested `parallel_for` after `k` rows. -/
theorem rows_unsplit_steps (exp : K → K) (pi : K) (rows cols : Int) (stddev : K) (j : Int)
    (acc : (Int → K) × K) (k : Nat) (hk : k ≤ rows.toNat) :
    (List.replicate (2 * k) 0).foldl
        (fun st t => row_task_step exp pi rows cols stddev j t st)
        { kernel := acc.1, acc := acc.2,
          tasks := [{ i := 0, stop := rows, pending := none }] }
      = { kernel := (loopN k (fun k (acc : (Int → K) × K) =>
            (Function.update acc.1 ((k : Int) + j * rows)
                (gaussian_value exp pi rows cols stddev (k : Int) j),
              acc.2 + gaussian_value exp pi rows cols stddev (k : Int) j)) acc).1
          acc := (loopN k (fun k (acc : (Int → K) × K) =>
            (Function.update acc.1 ((k : Int) + j * rows)
                (gaussian_value exp pi rows cols stddev (k : Int) j),
              acc.2 + gaussian_value exp pi rows cols stddev (k : Int) j)) acc).2
          tasks := [{ i := (k : Int), stop := rows, pending := none }] } := by
  induction k with
  | zero => rfl
  | succ m ih =>
    have e : 2 * (m + 1) = 2 * m + 2 := by ring
    have hm : (m : Int) < rows := by omega
    rw [e, List.replicate_add, List.foldl_append, ih (by omega), loopN_succ]
    simp [row_task_step_eq, hm]

/-- An unsplit nested `parallel_for` is the sequential loop over the rows, and its task
finishes. -/
theorem rows_unsplit (exp : K → K) (pi : K) (rows cols : Int) (stddev : K) (j : Int)
    (acc : (Int → K) × K) :
    ((rows_parallel_for exp pi rows cols stddev j (unsplit rows j).1 (unsplit rows j).2
        acc).kernel,
      (rows_parallel_for exp pi rows cols stddev j (unsplit rows j).1 (unsplit rows j).2
        acc).acc)
      = forRange 0 rows (fun i (acc : (Int → K) × K) =>
          (Function.update acc.1 (i + j * rows) (gaussian_value exp pi rows cols stddev i j),
            acc.2 + gaussian_value exp pi rows cols stddev i j)) acc
    ∧ (0 ≤ rows →
      (rows_parallel_for exp pi rows cols stddev j (unsplit rows j).1 (unsplit rows j).2
        acc).finished = true) := by
  have h := rows_unsplit_steps exp pi rows cols stddev j acc rows.toNat (le_refl _)
  have e : rows_parallel_for exp pi rows cols stddev j (unsplit rows j).1 (unsplit rows j).2
      acc = (List.replicate (2 * rows.toNat) 0).foldl
        (fun st t => row_task_step exp pi rows cols stddev j t st)
        { kernel := acc.1, acc := acc.2,
          tasks := [{ i := 0, stop := rows, pending := none }] } := rfl
  rw [e, h]
  constructor
  · unfold forRange
    simp only [sub_zero, zero_add]
  · intro h0
    simp [RowTasks.finished]

/-- With unsplit nested loops the body of the reduction is the sequential loop nest. -/
theorem reduce_body_unsplit (exp : K → K) (pi : K) (rows cols : Int) (stddev : K)
    (lo hi : Int) (acc : (Int → K) × K) :
    gaussian_reduce_body exp pi rows cols stddev (unsplit rows) lo hi acc
      = forRange lo hi (fun j acc =>
          forRange 0 rows (fun i (acc : (Int → K) × K) =>
            (Function.update acc.1 (i + j * rows)
                (gaussian_value exp pi rows cols stddev i j),
              acc.2 + gaussian_value exp pi rows cols stddev i j)) acc) acc := by
  unfold gaussian_reduce_body
  congr 1
  funext j acc
  exact (rows_unsplit exp pi rows cols stddev j acc).1

end Unsplit

section Reduce

open Finset

variable {K : Type} [Field K]

/-- A sum over the first naturals, shifted, as a sum over an integer interval. -/
theorem sum_range_shift (lo hi : Int) (f : Int → K) :
    ∑ k ∈ range (hi - lo).toNat, f (lo + (k : Int)) = ∑ x ∈ Ico lo hi, f x := by
  rw [Int.Ico_eq_finset_map, sum_map]
  apply sum_congr rfl
  intro k _
  simp

/-- The body of the reduction on `[lo, hi)` stores the weight of every cell of these
columns. -/
theorem reduce_body_fst_in (exp : K → K) (pi : K) (rows cols : Int) (stddev : K)
    (lo hi : Int) (acc : (Int → K) × K) (i j : Int) (hi0 : 0 ≤ i) (hi1 : i < rows)
    (hj0 : lo ≤ j) (hj1 : j < hi) :
    (gaussian_reduce_body exp pi rows cols stddev (unsplit rows) lo hi acc).1 (i + j * rows)
      = gaussian_value exp pi rows cols stddev i j := by
  rw [reduce_body_unsplit]
  rw [forRange_shift]
  have h := grid_read_key (fun (s : (Int → K) × K) o => s.1 o) (hi - lo) rows
    (fun k i => i + (lo + k) * rows)
    (fun k i (acc : (Int → K) × K) =>
      (Function.update acc.1 (i + ((lo + k) * rows))
          (gaussian_value exp pi rows cols stddev i (lo + k)),
        acc.2 + gaussian_value exp pi rows cols stddev i (lo + k)))
    (fun k i _ => gaussian_value exp pi rows cols stddev i (lo + k))
    (fun k i s o => by simp only [Function.update_apply])
    (fun a b a2 b2 _ _ hb0 hb1 _ _ hb2 hb3 e => by
      have := offset_inj rows b (lo + a) b2 (lo + a2) hb0 hb1 hb2 hb3 e
      exact ⟨by omega, this.1⟩)
    acc (j - lo) i (by omega) (by omega) hi0 hi1
  have e : lo + (j - lo) = j := by ring
  simp only [e] at h
  exact h

/-- The body of the reduction on `[lo, hi)` leaves all other cells alone. -/
theorem reduce_body_fst_out (exp : K → K) (pi : K) (rows cols : Int) (stddev : K)
    (lo hi : Int) (acc : (Int → K) × K) (o : Int)
    (ho : ∀ i j, 0 ≤ i → i < rows → lo ≤ j → j < hi → o ≠ i + j * rows) :
    (gaussian_reduce_body exp pi rows cols stddev (unsplit rows) lo hi acc).1 o = acc.1 o := by
  rw [reduce_body_unsplit]
  rw [forRange_shift]
  exact grid_read_key_outside (fun (s : (Int → K) × K) o => s.1 o) (hi - lo) rows
    (fun k i => i + (lo + k) * rows)
    (fun k i (acc : (Int → K) × K) =>
      (Function.update acc.1 (i + ((lo + k) * rows))
          (gaussian_value exp pi rows cols stddev i (lo + k)),
        acc.2 + gaussian_value exp pi rows cols stddev i (lo + k)))
    (fun k i _ => gaussian_value exp pi rows cols stddev i (lo + k))
    (fun k i s o => by simp only [Function.update_apply])
    acc o (fun a b ha0 ha1 hb0 hb1 => ho b (lo + a) hb0 hb1 (by omega) (by omega))

/-- The body of the reduction on `[lo, hi)` adds the weights of these columns to the
value it was entered with. -/
theorem reduce_body_snd (exp : K → K) (pi : K) (rows cols : Int) (stddev : K)
    (lo hi : Int) (acc : (Int → K) × K) :
    (gaussian_reduce_body exp pi rows cols stddev (unsplit rows) lo hi acc).2
      = acc.2 + ∑ j ∈ Ico lo hi, ∑ i ∈ Ico 0 rows,
          gaussian_value exp pi rows cols stddev i j := by
  rw [reduce_body_unsplit]
  rw [forRange_shift]
  rw [forRange_snd_accum (fun k => ∑ i ∈ Ico 0 rows,
    gaussian_value exp pi rows cols stddev i (lo + k))]
  · rw [sum_range_shift lo hi (fun j => ∑ i ∈ Ico 0 rows,
      gaussian_value exp pi rows cols stddev i j)]
  · intro k s
    rw [forRange_snd_accum (fun i => gaussian_value exp pi rows cols stddev i (lo + k))]
    · rw [sum_range_toNat rows (fun i => gaussian_value exp pi rows cols stddev i (lo + k))]
    · intro i s
      rfl

end Reduce

section ReduceTree

open Finset

variable {K : Type} [Field K]

/-- A reduction stores the weight of every cell of every column that one of its
sub-ranges contains. -/
theorem reduce_fst_in (exp : K → K) (pi : K) (rows cols : Int) (stddev : K)
    (t : Reduction) (kernel : Int → K) (i j : Int) (hi0 : 0 ≤ i) (hi1 : i < rows)
    (hj : ∃ b ∈ t.blocks, b.1 ≤ j ∧ j < b.2) :
    (gaussian_reduce exp pi rows cols stddev (unsplit rows) t kernel).1 (i + j * rows)
      = gaussian_value exp pi rows cols stddev i j := by
  induction t generalizing kernel with
  | leaf lo hi =>
    obtain ⟨b, hb, h1, h2⟩ := hj
    simp only [Reduction.blocks, List.mem_singleton] at hb
    subst hb
    exact reduce_body_fst_in exp pi rows cols stddev lo hi (kernel, 0) i j hi0 hi1 h1 h2
  | join l r ihl ihr =>
    simp only [gaussian_reduce]
    by_cases hr : ∃ b ∈ r.blocks, b.1 ≤ j ∧ j < b.2
    · exact ihr _ hr
    · obtain ⟨b, hb, h1, h2⟩ := hj
      simp only [Reduction.blocks, List.mem_append] at hb
      rcases hb with hb | hb
      · have key : ∀ (t : Reduction) (k : Int → K),
            (¬ ∃ b ∈ t.blocks, b.1 ≤ j ∧ j < b.2) →
            (gaussian_reduce exp pi rows cols stddev (unsplit rows) t k).1 (i + j * rows)
              = k (i + j * rows) := by
          intro t
          induction t with
          | leaf lo hi =>
            intro k hn
            apply reduce_body_fst_out
            intro i2 j2 h1 h2 h3 h4 e
            have := offset_inj rows i j i2 j2 hi0 hi1 h1 h2 e
            exact hn ⟨(lo, hi), by simp [Reduction.blocks], by simp only []; omega⟩
          | join l2 r2 ih1 ih2 =>
            intro k hn
            simp only [gaussian_reduce]
            rw [ih2 _ (fun ⟨b, hb, hh⟩ => hn ⟨b, by
              simp only [Reduction.blocks, List.mem_append]; exact Or.inr hb, hh⟩)]
            exact ih1 _ (fun ⟨b, hb, hh⟩ => hn ⟨b, by
              simp only [Reduction.blocks, List.mem_append]; exact Or.inl hb, hh⟩)
        rw [key r _ hr]
        exact ihl _ ⟨b, hb, h1, h2⟩
      · exact absurd ⟨b, hb, h1, h2⟩ hr

/-- A reduction leaves alone every cell that lies in none of the columns of its
sub-ranges. -/
theorem reduce_fst_out (exp : K → K) (pi : K) (rows cols : Int) (stddev : K)
    (t : Reduction) (kernel : Int → K) (o : Int)
    (ho : ∀ i j, 0 ≤ i → i < rows → (∃ b ∈ t.blocks, b.1 ≤ j ∧ j < b.2) →
      o ≠ i + j * rows) :
    (gaussian_reduce exp pi rows cols stddev (unsplit rows) t kernel).1 o = kernel o := by
  induction t generalizing kernel with
  | leaf lo hi =>
    apply reduce_body_fst_out
    intro i j h1 h2 h3 h4
    exact ho i j h1 h2 ⟨(lo, hi), by simp [Reduction.blocks], h3, h4⟩
  | join l r ihl ihr =>
    simp only [gaussian_reduce]
    rw [ihr _ (fun i j h1 h2 ⟨b, hb, hh⟩ => ho i j h1 h2 ⟨b, by
      simp only [Reduction.blocks, List.mem_append]; exact Or.inr hb, hh⟩)]
    exact ihl _ (fun i j h1 h2 ⟨b, hb, hh⟩ => ho i j h1 h2 ⟨b, by
      simp only [Reduction.blocks, List.mem_append]; exact Or.inl hb, hh⟩)

/-- The value of a reduction is the sum, over its sub-ranges, of the weights of the
columns of the sub-range. -/
theorem reduce_snd (exp : K → K) (pi : K) (rows cols : Int) (stddev : K)
    (t : Reduction) (kernel : Int → K) :
    (gaussian_reduce exp pi rows cols stddev (unsplit rows) t kernel).2
      = (t.blocks.map (fun b => ∑ j ∈ Ico b.1 b.2, ∑ i ∈ Ico 0 rows,
          gaussian_value exp pi rows cols stddev i j)).sum := by
  induction t generalizing kernel with
  | leaf lo hi =>
    simp only [gaussian_reduce, Reduction.blocks, List.map_cons, List.map_nil,
      List.sum_cons, List.sum_nil, add_zero]
    rw [reduce_body_snd]
    simp
  | join l r ihl ihr =>
    simp only [gaussian_reduce, Reduction.blocks, List.map_append, List.sum_append]
    rw [ihl, ihr]

end ReduceTree

section ReduceClaim

open Finset

/-- What a reduction over a partition of `[0, cols)` computes: the weight of every cell
of the grid, nothing outside the grid, and the sum of all weights. -/
theorem reduce_partition_spec {K : Type} [Field K] (exp : K → K) (pi : K)
    (rows cols : Int) (stddev : K) (t : Reduction) (chain : List (Int × Int))
    (kmem : Int → K) (hchain : contiguous 0 cols chain = true)
    (hperm : t.blocks.Perm chain) :
    (∀ i j, 0 ≤ i → i < rows → 0 ≤ j → j < cols →
      (gaussian_reduce exp pi rows cols stddev (unsplit rows) t kmem).1 (i + j * rows)
        = gaussian_value exp pi rows cols stddev i j)
    ∧ (∀ o, (∀ i j, 0 ≤ i → i < rows → 0 ≤ j → j < cols → o ≠ i + j * rows) →
      (gaussian_reduce exp pi rows cols stddev (unsplit rows) t kmem).1 o = kmem o)
    ∧ (gaussian_reduce exp pi rows cols stddev (unsplit rows) t kmem).2
        = ∑ j ∈ Ico 0 cols, ∑ i ∈ Ico 0 rows,
            gaussian_value exp pi rows cols stddev i j := by
  obtain ⟨_, hin, hcov, hsum⟩ := contiguous_spec
    (fun j => ∑ i ∈ Ico 0 rows, gaussian_value exp pi rows cols stddev i j)
    chain 0 cols hchain
  refine ⟨fun i j h1 h2 h3 h4 => ?_, fun o ho => ?_, ?_⟩
  · obtain ⟨b, hb, hb2⟩ := hcov j h3 h4
    exact reduce_fst_in exp pi rows cols stddev t kmem i j h1 h2
      ⟨b, hperm.mem_iff.mpr hb, hb2⟩
  · apply reduce_fst_out
    intro i j h1 h2 ⟨b, hb, hb2⟩
    have := hin b (hperm.mem_iff.mp hb)
    exact ho i j h1 h2 (by omega) (by omega)
  · rw [reduce_snd, (hperm.map _).sum_eq]
    exact hsum

/-- Executed without a race (nested loops unsplit), every partition of the column range
`[0, cols)` into contiguous blocks, accumulated from the identity and merged with `+` in
any order, gives the sum of all `rows*cols` unnormalised kernel cells and the normalised
kernel that `gaussian_kernel` produces. -/
theorem reduction_unsplit_independent {K : Type} [Field K] (exp : K → K) (pi : K)
    (rows cols : Int) (stddev : K) (t : Reduction) (chain : List (Int × Int))
    (kmem : Int → K) (hchain : contiguous 0 cols chain = true)
    (hperm : t.blocks.Perm chain) :
    (gaussian_reduce exp pi rows cols stddev (unsplit rows) t kmem).2
        = ∑ j ∈ Ico 0 cols, ∑ i ∈ Ico 0 rows, gaussian_value exp pi rows cols stddev i j
    ∧ (gaussian_reduce exp pi rows cols stddev (unsplit rows) t kmem).2
        = ∑ j ∈ Ico 0 cols, ∑ i ∈ Ico 0 rows,
            (gaussian_reduce exp pi rows cols stddev (unsplit rows) t kmem).1 (i + j * rows)
    ∧ gaussian_kernel_reduced exp pi rows cols stddev (unsplit rows) t kmem
        = gaussian_kernel exp pi rows cols stddev kmem := by
  obtain ⟨s1, s2, s3⟩ :=
    reduce_partition_spec exp pi rows cols stddev t chain kmem hchain hperm
  have hcols : 0 ≤ cols :=
    (contiguous_spec (fun _ => (0 : K)) chain 0 cols hchain).1
  have hone : contiguous 0 cols [((0 : Int), cols)] = true := by
    simp [contiguous, hcols]
  obtain ⟨l1, l2, l3⟩ := reduce_partition_spec exp pi rows cols stddev
    (Reduction.leaf 0 cols) [((0 : Int), cols)] kmem hone (List.Perm.refl _)
  refine ⟨s3, ?_, ?_⟩
  · rw [s3]
    apply sum_congr rfl
    intro j hj
    apply sum_congr rfl
    intro i hi
    rw [mem_Ico] at hi hj
    rw [s1 i j hi.1 hi.2 hj.1 hj.2]
  · have heq : gaussian_reduce exp pi rows cols stddev (unsplit rows) t kmem
        = gaussian_reduce exp pi rows cols stddev (unsplit rows) (Reduction.leaf 0 cols) kmem := by
      apply Prod.ext
      · funext o
        by_cases hg : ∃ i j, (0 ≤ i ∧ i < rows ∧ 0 ≤ j ∧ j < cols) ∧ o = i + j * rows
        · obtain ⟨i, j, hr, ho⟩ := hg
          subst ho
          rw [s1 i j hr.1 hr.2.1 hr.2.2.1 hr.2.2.2, l1 i j hr.1 hr.2.1 hr.2.2.1 hr.2.2.2]
        · have ho : ∀ i j, 0 ≤ i → i < rows → 0 ≤ j → j < cols → o ≠ i + j * rows :=
            fun i j h1 h2 h3 h4 e => hg ⟨i, j, ⟨h1, h2, h3, h4⟩, e⟩
          rw [s2 o ho, l2 o ho]
      · rw [s3, l3]
    have hseq : gaussian_kernel exp pi rows cols stddev kmem
        = gaussian_kernel_reduced exp pi rows cols stddev (unsplit rows)
            (Reduction.leaf 0 cols) kmem := by
      unfold gaussian_kernel_reduced gaussian_reduce
      rw [reduce_body_unsplit]
      rfl
    rw [hseq]
    unfold gaussian_kernel_reduced
    rw [heq]

end ReduceClaim

/-! ## The kernel-sum reduction: an execution with a lost update -/

section Racy

open Finset

/-- An interleaving of two tasks on the rows `[0, 1)` and `[1, 3)` of one column (the two
halves into which `blocked_range<int>(0, 3)` splits) in which both read `in` before
either writes it: the weight of row 0 is lost from `in`. -/
theorem rows_racy {K : Type} [Field K] (exp : K → K) (pi : K) (rows cols : Int)
    (stddev : K) (j : Int) (acc : (Int → K) × K) :
    rows_parallel_for exp pi rows cols stddev j [(0, 1), (1, 3)] [0, 1, 0, 1, 1, 1] acc
      = { kernel := Function.update (Function.update (Function.update acc.1
            (0 + j * rows) (gaussian_value exp pi rows cols stddev 0 j))
            (1 + j * rows) (gaussian_value exp pi rows cols stddev 1 j))
            (2 + j * rows) (gaussian_value exp pi rows cols stddev 2 j)
          acc := acc.2 + gaussian_value exp pi rows cols stddev 1 j
            + gaussian_value exp pi rows cols stddev 2 j
          tasks := [{ i := 1, stop := 1, pending := none },
            { i := 3, stop := 3, pending := none }] } := by
  simp [rows_parallel_for, row_task_step_eq]

end Racy

section RacyClaim

open Finset

/-- The reduction of the 3x3 kernel run as one block of columns whose nested loops all
interleave as in `rows_racy`. -/
theorem reduce_racy {K : Type} [Field K] (exp : K → K) (pi : K) (stddev : K)
    (kmem : Int → K) :
    (∀ i j, 0 ≤ i → i < 3 → 0 ≤ j → j < 3 →
      (gaussian_reduce exp pi 3 3 stddev (fun _ => ([(0, 1), (1, 3)], [0, 1, 0, 1, 1, 1]))
        (Reduction.leaf 0 3) kmem).1 (i + j * 3) = gaussian_value exp pi 3 3 stddev i j)
    ∧ (gaussian_reduce exp pi 3 3 stddev (fun _ => ([(0, 1), (1, 3)], [0, 1, 0, 1, 1, 1]))
        (Reduction.leaf 0 3) kmem).2
      = (∑ j ∈ Ico (0 : Int) 3, ∑ i ∈ Ico (0 : Int) 3, gaussian_value exp pi 3 3 stddev i j)
        - ∑ j ∈ Ico (0 : Int) 3, gaussian_value exp pi 3 3 stddev 0 j := by
  have e : Ico (0 : Int) 3 = {0, 1, 2} := by decide
  have hb : gaussian_reduce exp pi 3 3 stddev
      (fun _ => ([(0, 1), (1, 3)], [0, 1, 0, 1, 1, 1])) (Reduction.leaf 0 3) kmem
      = forRange 0 3 (fun j (acc : (Int → K) × K) =>
          (Function.update (Function.update (Function.update acc.1
            (0 + j * 3) (gaussian_value exp pi 3 3 stddev 0 j))
            (1 + j * 3) (gaussian_value exp pi 3 3 stddev 1 j))
            (2 + j * 3) (gaussian_value exp pi 3 3 stddev 2 j),
           acc.2 + gaussian_value exp pi 3 3 stddev 1 j
            + gaussian_value exp pi 3 3 stddev 2 j)) (kmem, 0) := by
    unfold gaussian_reduce gaussian_reduce_body
    congr 1
  rw [hb]
  constructor
  · intro i j hi0 hi1 hj0 hj1
    interval_cases i <;> interval_cases j <;>
      simp [forRange, loopN_succ, loopN_zero, Function.update_apply]
  · rw [e]
    simp [forRange, loopN_succ, loopN_zero]
    ring

/-- C14 (the code diverges from the claim): executed without a race (nested loops
unsplit), every partition of the column range `[0, cols)` into contiguous blocks, merged
in any order, gives the sum of all `rows*cols` unnormalised kernel cells and the
normalised kernel of `gaussian_kernel`; but the nested `parallel_for` updates the
accumulator it captures by reference without synchronisation, and for the 3x3 kernel the
interleaving in which the tasks of rows `[0, 1)` and `[1, 3)` both read `in` before either
writes it stores every kernel cell, finishes every task, and returns a sum that lacks the
weights of row 0: the reduced sum is smaller than the sum of the cells and the normalised
kernel is not the one of `gaussian_kernel`. -/
theorem reduction_lost_update (rows cols : Int) (stddev : ℝ) (t : Reduction)
    (chain : List (Int × Int)) (kmem : Int → ℝ)
    (hchain : contiguous 0 cols chain = true) (hperm : t.blocks.Perm chain) :
    ((gaussian_reduce Real.exp Real.pi rows cols stddev (unsplit rows) t kmem).2
        = ∑ j ∈ Ico 0 cols, ∑ i ∈ Ico 0 rows,
            gaussian_value Real.exp Real.pi rows cols stddev i j
      ∧ gaussian_kernel_reduced Real.exp Real.pi rows cols stddev (unsplit rows) t kmem
        = gaussian_kernel Real.exp Real.pi rows cols stddev kmem)
    ∧ contiguous 0 3 [(0, 1), (1, 3)] = true
    ∧ (∀ (j : Int) (acc : (Int → ℝ) × ℝ),
        (rows_parallel_for Real.exp Real.pi 3 3 1 j [(0, 1), (1, 3)] [0, 1, 0, 1, 1, 1]
          acc).finished = true)
    ∧ (∀ i j, 0 ≤ i → i < 3 → 0 ≤ j → j < 3 →
        (gaussian_reduce Real.exp Real.pi 3 3 1
          (fun _ => ([(0, 1), (1, 3)], [0, 1, 0, 1, 1, 1])) (Reduction.leaf 0 3) kmem).1
            (i + j * 3) = gaussian_value Real.exp Real.pi 3 3 1 i j)
    ∧ (gaussian_reduce Real.exp Real.pi 3 3 1
          (fun _ => ([(0, 1), (1, 3)], [0, 1, 0, 1, 1, 1])) (Reduction.leaf 0 3) kmem).2
        = (∑ j ∈ Ico (0 : Int) 3, ∑ i ∈ Ico (0 : Int) 3,
            gaussian_value Real.exp Real.pi 3 3 1 i j)
          - ∑ j ∈ Ico (0 : Int) 3, gaussian_value Real.exp Real.pi 3 3 1 0 j
    ∧ (gaussian_reduce Real.exp Real.pi 3 3 1
          (fun _ => ([(0, 1), (1, 3)], [0, 1, 0, 1, 1, 1])) (Reduction.leaf 0 3) kmem).2
        < ∑ j ∈ Ico (0 : Int) 3, ∑ i ∈ Ico (0 : Int) 3,
            gaussian_value Real.exp Real.pi 3 3 1 i j
    ∧ gaussian_kernel Real.exp Real.pi 3 3 1 kmem (1 + 1 * 3)
        < gaussian_kernel_reduced Real.exp Real.pi 3 3 1
            (fun _ => ([(0, 1), (1, 3)], [0, 1, 0, 1, 1, 1])) (Reduction.leaf 0 3) kmem
            (1 + 1 * 3) := by
  obtain ⟨u1, _, u3⟩ := reduction_unsplit_independent Real.exp Real.pi rows cols stddev t
    chain kmem hchain hperm
  obtain ⟨r1, r2⟩ := reduce_racy Real.exp Real.pi 1 kmem
  have hpos := fun i j => gaussian_value_pos 3 3 1 one_ne_zero i j
  have e : Ico (0 : Int) 3 = {0, 1, 2} := by decide
  have hlost : 0 < ∑ j ∈ Ico (0 : Int) 3, gaussian_value Real.exp Real.pi 3 3 1 0 j :=
    sum_pos (fun j _ => hpos 0 j) ⟨0, by decide⟩
  have hlt : (gaussian_reduce Real.exp Real.pi 3 3 1
      (fun _ => ([(0, 1), (1, 3)], [0, 1, 0, 1, 1, 1])) (Reduction.leaf 0 3) kmem).2
      < ∑ j ∈ Ico (0 : Int) 3, ∑ i ∈ Ico (0 : Int) 3,
          gaussian_value Real.exp Real.pi 3 3 1 i j := by
    rw [r2]
    linarith
  have hS : 0 < (gaussian_reduce Real.exp Real.pi 3 3 1
      (fun _ => ([(0, 1), (1, 3)], [0, 1, 0, 1, 1, 1])) (Reduction.leaf 0 3) kmem).2 := by
    rw [r2, e]
    simp
    linarith [hpos 1 0, hpos 2 0, hpos 1 1, hpos 2 1, hpos 1 2, hpos 2 2]
  refine ⟨⟨u1, u3⟩, by decide, fun j acc => ?_, r1, r2, hlt, ?_⟩
  · rw [rows_racy]
    rfl
  · rw [gaussian_kernel_apply Real.exp Real.pi 3 3 1 kmem 1 1 (by decide) (by decide)
      (by decide) (by decide)]
    unfold gaussian_kernel_reduced
    rw [gaussian_scale 3 3 _ _ 1 1 (by decide) (by decide) (by decide) (by decide),
      r1 1 1 (by decide) (by decide) (by decide) (by decide)]
    exact mul_lt_mul_of_pos_left (one_div_lt_one_div_of_lt hS hlt) (hpos 1 1)

/-- C14 for the two columns `[0, 1)` and `[1, 2)` of a 1x2 kernel, reduced second block
first and without a race. -/
theorem reduction_lost_update_witness :
    contiguous 0 2 [(0, 1), (1, 2)] = true
    ∧ (Reduction.join (Reduction.leaf 1 2) (Reduction.leaf 0 1)).blocks.Perm [(0, 1), (1, 2)]
    ∧ gaussian_kernel_reduced Real.exp Real.pi 1 2 1 (unsplit 1)
        (Reduction.join (Reduction.leaf 1 2) (Reduction.leaf 0 1)) (fun _ => 0)
      = gaussian_kernel Real.exp Real.pi 1 2 1 (fun _ => 0) :=
  ⟨by decide, List.Perm.swap (0, 1) (1, 2) [],
    (reduction_lost_update 1 2 1
      (Reduction.join (Reduction.leaf 1 2) (Reduction.leaf 0 1)) [(0, 1), (1, 2)]
      (fun _ => 0) (by decide) (List.Perm.swap (0, 1) (1, 2) [])).1.2⟩

end RacyClaim

/-! ## The offsets computed by the loop nests -/

section Accesses

/-- Every access of the loop nest of `apply_stencil` satisfies a property that holds of
the offset of every in-range coordinate and of every kernel offset `kx + ky*dim` with
`0 ≤ kx, ky ≤ 2*radius`. -/
theorem stencil_accesses_all (radius rows cols : Int) (Q : Access → Prop)
    (hb : ∀ x y, 0 ≤ x → x < rows → 0 ≤ y → y < cols → Q (Access.buffer (x + y * rows)))
    (hk : ∀ kx ky, 0 ≤ kx → kx ≤ 2 * radius → 0 ≤ ky → ky ≤ 2 * radius →
      Q (Access.kernel (kx + ky * (radius * 2 + 1)))) :
    ∀ a ∈ stencil_accesses radius rows cols, Q a := by
  unfold stencil_accesses
  refine forRange_invariant (fun tr => ∀ a ∈ tr, Q a) _ _ _ ?_ _
    (fun a ha => absurd ha (List.not_mem_nil a))
  intro j hj0 hj1 tr htr
  refine forRange_invariant (fun tr => ∀ a ∈ tr, Q a) _ _ _ ?_ _ htr
  intro i hi0 hi1 tr htr
  refine forWindow_invariant (fun tr => ∀ a ∈ tr, Q a) _ _ _ ?_ _ htr
  intro x kx hx0 hx1 hkx tr htr
  refine forWindow_invariant (fun tr => ∀ a ∈ tr, Q a) _ _ _ ?_ _ htr
  intro y ky hy0 hy1 hky tr htr
  simp only []
  split_ifs with hg
  · intro a ha
    rw [List.mem_append] at ha
    rcases ha with ha | ha
    · exact htr a ha
    · simp only [List.mem_cons, List.mem_singleton, List.not_mem_nil, or_false] at ha
      rcases ha with e | e | e
      · rw [e]
        exact hb i j hi0 hi1 hj0 hj1
      · rw [e]
        exact hk kx ky (by omega) (by omega) (by omega) (by omega)
      · rw [e]
        exact hb x y hg.1 hg.2.1 hg.2.2.1 hg.2.2.2
  · exact htr

/-- Every access of the gradient loop nest of `apply_prewittKs` satisfies a property that
holds of the offset of every in-range coordinate and of every kernel offset `kx + ky*3`
with `0 ≤ kx, ky ≤ 2`. -/
theorem prewitt_accesses_all (rows cols : Int) (Q : Access → Prop)
    (hb : ∀ x y, 0 ≤ x → x < rows → 0 ≤ y → y < cols → Q (Access.buffer (x + y * rows)))
    (hk : ∀ kx ky, 0 ≤ kx → kx ≤ 2 → 0 ≤ ky → ky ≤ 2 → Q (Access.kernel (kx + ky * 3))) :
    ∀ a ∈ prewitt_accesses rows cols, Q a := by
  unfold prewitt_accesses
  refine forRange_invariant (fun tr => ∀ a ∈ tr, Q a) _ _ _ ?_ _
    (fun a ha => absurd ha (List.not_mem_nil a))
  intro j hj0 hj1 tr htr
  refine forRange_invariant (fun tr => ∀ a ∈ tr, Q a) _ _ _ ?_ _ htr
  intro i hi0 hi1 tr htr
  beta_reduce
  intro a ha
  rw [List.mem_append] at ha
  rcases ha with ha | ha
  · revert a
    refine forWindow_invariant (fun tr => ∀ a ∈ tr, Q a) _ _ _ ?_ _ htr
    intro x kx hx0 hx1 hkx tr htr
    refine forWindow_invariant (fun tr => ∀ a ∈ tr, Q a) _ _ _ ?_ _ htr
    intro y ky hy0 hy1 hky tr htr
    simp only []
    split_ifs with hg
    · intro a ha
      rw [List.mem_append] at ha
      rcases ha with ha | ha
      · exact htr a ha
      · simp only [List.mem_cons, List.mem_singleton, List.not_mem_nil, or_false] at ha
        rcases ha with e | e | e
        · rw [e]
          exact hb x y hg.1 hg.2.1 hg.2.2.1 hg.2.2.2
        · rw [e]
          exact hk kx ky (by omega) (by omega) (by omega) (by omega)
        · rw [e]
          exact hb i j hi0 hi1 hj0 hj1
    · exact htr
  · simp only [List.mem_singleton] at ha
    rw [ha]
    exact hb i j hi0 hi1 hj0 hj1

/-- C15: for `rows, cols ≥ 1` and `radius ≥ 1`, every buffer offset that the loop nests
of `apply_stencil` and `apply_prewittKs` compute (`x + y*rows`, `i + j*rows`) lies in
`[0, rows*cols)` and is the offset of a coordinate in `[0,rows) x [0,cols)`, every kernel
offset `kx + ky*dim` lies in `[0, dim*dim)` (resp. `[0, 9)`), and `(i, j) ↦ i + j*rows` is
injective on `[0,rows) x [0,cols)`. -/
theorem accesses_in_range (radius rows cols : Int) (_hrows : 1 ≤ rows) (_hcols : 1 ≤ cols)
    (_hrad : 1 ≤ radius) :
    (∀ o, Access.buffer o ∈ stencil_accesses radius rows cols →
      0 ≤ o ∧ o < rows * cols
        ∧ ∃ x y, 0 ≤ x ∧ x < rows ∧ 0 ≤ y ∧ y < cols ∧ o = x + y * rows)
    ∧ (∀ o, Access.kernel o ∈ stencil_accesses radius rows cols →
      0 ≤ o ∧ o < (radius * 2 + 1) * (radius * 2 + 1))
    ∧ (∀ o, Access.buffer o ∈ prewitt_accesses rows cols →
      0 ≤ o ∧ o < rows * cols
        ∧ ∃ x y, 0 ≤ x ∧ x < rows ∧ 0 ≤ y ∧ y < cols ∧ o = x + y * rows)
    ∧ (∀ o, Access.kernel o ∈ prewitt_accesses rows cols → 0 ≤ o ∧ o < 9)
    ∧ (∀ i j i2 j2, 0 ≤ i → i < rows → 0 ≤ j → j < cols → 0 ≤ i2 → i2 < rows → 0 ≤ j2 →
      j2 < cols → i + j * rows = i2 + j2 * rows → i = i2 ∧ j = j2) := by
  -- an in-range coordinate has an in-range offset
  have hbuf : ∀ x y, 0 ≤ x → x < rows → 0 ≤ y → y < cols →
      0 ≤ x + y * rows ∧ x + y * rows < rows * cols
        ∧ ∃ x2 y2, 0 ≤ x2 ∧ x2 < rows ∧ 0 ≤ y2 ∧ y2 < cols ∧ x + y * rows = x2 + y2 * rows :=
    fun x y h1 h2 h3 h4 =>
      ⟨(offset_range rows cols x y h1 h2 h3 h4).1, (offset_range rows cols x y h1 h2 h3 h4).2,
        x, y, h1, h2, h3, h4, rfl⟩
  -- a kernel coordinate in `[0, d) x [0, d)` has an offset in `[0, d*d)`
  have hker : ∀ d kx ky : Int, 0 ≤ kx → kx < d → 0 ≤ ky → ky < d →
      0 ≤ kx + ky * d ∧ kx + ky * d < d * d := by
    intro d kx ky h1 h2 h3 h4
    constructor
    · nlinarith
    · nlinarith
  have hS := stencil_accesses_all radius rows cols
    (fun a => (∀ o, a = Access.buffer o → 0 ≤ o ∧ o < rows * cols
        ∧ ∃ x y, 0 ≤ x ∧ x < rows ∧ 0 ≤ y ∧ y < cols ∧ o = x + y * rows)
      ∧ (∀ o, a = Access.kernel o → 0 ≤ o ∧ o < (radius * 2 + 1) * (radius * 2 + 1)))
    (fun x y h1 h2 h3 h4 => ⟨fun o ho => by
      cases ho
      exact hbuf x y h1 h2 h3 h4, fun o ho => by cases ho⟩)
    (fun kx ky h1 h2 h3 h4 => ⟨fun o ho => (by cases ho), fun o ho => by
      cases ho
      exact hker (radius * 2 + 1) kx ky h1 (by omega) h3 (by omega)⟩)
  have hP := prewitt_accesses_all rows cols
    (fun a => (∀ o, a = Access.buffer o → 0 ≤ o ∧ o < rows * cols
        ∧ ∃ x y, 0 ≤ x ∧ x < rows ∧ 0 ≤ y ∧ y < cols ∧ o = x + y * rows)
      ∧ (∀ o, a = Access.kernel o → 0 ≤ o ∧ o < 9))
    (fun x y h1 h2 h3 h4 => ⟨fun o ho => by
      cases ho
      exact hbuf x y h1 h2 h3 h4, fun o ho => by cases ho⟩)
    (fun kx ky h1 h2 h3 h4 => ⟨fun o ho => (by cases ho), fun o ho => by cases ho; omega⟩)
  exact ⟨fun o ho => (hS _ ho).1 o rfl, fun o ho => (hS _ ho).2 o rfl,
    fun o ho => (hP _ ho).1 o rfl, fun o ho => (hP _ ho).2 o rfl,
    fun i j i2 j2 h1 h2 _ _ h5 h6 _ _ e => offset_inj rows i j i2 j2 h1 h2 h5 h6 e⟩

end Accesses

/-! ## Calls with one shared buffer -/

section Aliased

variable {K : Type} [Field K]

/-- A window loop whose iterations all leave the state alone changes nothing. -/
theorem forWindow_id {σ : Type} (lo hi : Int) (body : Int → Int → σ → σ)
    (h : ∀ x kx, lo ≤ x → x ≤ hi → ∀ t, body x kx t = t) (s : σ) :
    forWindow lo hi body s = s := by
  unfold forWindow
  apply loopN_id
  intro k hk t
  exact h _ _ (by omega) (by omega) t

/-- A window loop in which only the iteration at `x0` acts. -/
theorem forWindow_single {σ : Type} (lo hi x0 : Int) (h0 : lo ≤ x0) (h1 : x0 ≤ hi)
    (body : Int → Int → σ → σ)
    (h : ∀ x kx, lo ≤ x → x ≤ hi → x ≠ x0 → ∀ t, body x kx t = t) (s : σ) :
    forWindow lo hi body s = body x0 (x0 - lo) s := by
  unfold forWindow
  rw [loopN_single (hi + 1 - lo).toNat (x0 - lo).toNat (by omega)]
  · have e1 : lo + (((x0 - lo).toNat : Nat) : Int) = x0 := by omega
    have e2 : (((x0 - lo).toNat : Nat) : Int) = x0 - lo := by omega
    rw [e1, e2]
  · intro k hk hne t
    exact h _ _ (by omega) (by omega) (by omega) t

/-- With `in == out`, `apply_stencil` leaves every cell outside the grid unchanged. -/
theorem stencil_inplace_frame (exp : K → K) (pi : K) (radius : Int) (stddev : K)
    (rows cols : Int) (kmem : Int → K) (buf : Int → pixel K) (o : Int)
    (ho : ∀ i j, 0 ≤ i → i < rows → 0 ≤ j → j < cols → o ≠ i + j * rows) :
    apply_stencil_inplace exp pi radius stddev rows cols kmem buf o = buf o := by
  unfold apply_stencil_inplace
  refine forRange_invariant (fun b : Int → pixel K => b o = buf o) _ _ _ ?_ _ rfl
  intro j hj0 hj1 s hs
  refine forRange_invariant (fun b : Int → pixel K => b o = buf o) _ _ _ ?_ _ hs
  intro i hi0 hi1 s hs
  unfold stencil_cell_inplace
  try simp only []
  refine forWindow_invariant (fun b : Int → pixel K => b o = buf o) _ _ _ ?_ _ hs
  intro x kx _ _ _ s hs
  refine forWindow_invariant (fun b : Int → pixel K => b o = buf o) _ _ _ ?_ _ hs
  intro y ky _ _ _ s hs
  beta_reduce
  rw [stencil_window_step_eq, Function.update_noteq (ho i j hi0 hi1 hj0 hj1)]
  exact hs

/-- With `blurred == out`, `apply_prewittKs` leaves every cell outside the grid
unchanged. -/
theorem prewitt_inplace_frame (sqrt : K → K) (rows cols : Int)
    (Xkmem Ykmem Xmem Ymem : Int → K) (buf : Int → pixel K) (o : Int)
    (ho : ∀ i j, 0 ≤ i → i < rows → 0 ≤ j → j < cols → o ≠ i + j * rows) :
    apply_prewittKs_inplace sqrt rows cols Xkmem Ykmem Xmem Ymem buf o = buf o := by
  unfold apply_prewittKs_inplace
  refine forRange_invariant (fun st : PrewittState K => st.out o = buf o) _ _ _ ?_ _ rfl
  intro j hj0 hj1 s hs
  refine forRange_invariant (fun st : PrewittState K => st.out o = buf o) _ _ _ ?_ _ hs
  intro i hi0 hi1 s hs
  unfold prewitt_cell_inplace
  try simp only []
  have hw : (forWindow (i - 1) (i + 1) (fun x kx st =>
      forWindow (j - 1) (j + 1) (fun y ky st =>
        prewitt_window_step rows cols (prewittX_kernel 3 3 Xkmem) (prewittY_kernel 3 3 Ykmem)
          st.out (i + j * rows) x kx y ky st) st) s).out = s.out := by
    refine forWindow_invariant (fun st : PrewittState K => st.out = s.out) _ _ _ ?_ _ rfl
    intro x kx _ _ _ t ht
    refine forWindow_invariant (fun st : PrewittState K => st.out = s.out) _ _ _ ?_ _ ht
    intro y ky _ _ _ t ht
    beta_reduce
    rw [prewitt_window_step_eq]
    exact ht
  have hne := ho i j hi0 hi1 hj0 hj1
  rw [Function.update_noteq hne, Function.update_noteq hne, Function.update_noteq hne, hw]
  exact hs

/-- With `in == out` on a 1x1 buffer, `apply_stencil` adds to the one cell its own
content weighted by the centre of the kernel. -/
theorem stencil_inplace_single (exp : K → K) (pi : K) (radius : Int) (stddev : K)
    (kmem : Int → K) (buf : Int → pixel K) (hrad : 0 ≤ radius) :
    apply_stencil_inplace exp pi radius stddev 1 1 kmem buf =
      Function.update buf 0
        { red := (buf 0).red
            + gaussian_kernel exp pi (radius * 2 + 1) (radius * 2 + 1) stddev kmem
                (radius + radius * (radius * 2 + 1)) * (buf 0).red
          green := (buf 0).green
            + gaussian_kernel exp pi (radius * 2 + 1) (radius * 2 + 1) stddev kmem
                (radius + radius * (radius * 2 + 1)) * (buf 0).green
          blue := (buf 0).blue
            + gaussian_kernel exp pi (radius * 2 + 1) (radius * 2 + 1) stddev kmem
                (radius + radius * (radius * 2 + 1)) * (buf 0).blue } := by
  unfold apply_stencil_inplace
  try simp only []
  rw [forRange_single 1 0 (le_refl 0) Int.zero_lt_one _ (fun i h0 h1 hne => by omega),
    forRange_single 1 0 (le_refl 0) Int.zero_lt_one _ (fun i h0 h1 hne => by omega)]
  unfold stencil_cell_inplace
  try simp only []
  rw [forWindow_single (0 - radius) (0 + radius) 0 (by omega) (by omega)]
  · rw [forWindow_single (0 - radius) (0 + radius) 0 (by omega) (by omega)]
    · rw [stencil_window_step_eq]
      simp
    · intro y ky _ _ hne t
      rw [stencil_window_step_eq]
      have hg : ¬ ((0 : Int) ≤ 0 ∧ (0 : Int) < 1 ∧ 0 ≤ y ∧ y < 1) := by omega
      simp only [if_neg hg, add_zero]
      exact Function.update_eq_self _ _
  · intro x kx _ _ hne t
    apply forWindow_id
    intro y ky _ _ t
    rw [stencil_window_step_eq]
    have hg : ¬ (0 ≤ x ∧ x < 1 ∧ 0 ≤ y ∧ y < 1) := by omega
    simp only [if_neg hg, add_zero]
    exact Function.update_eq_self _ _

end Aliased

section AliasedPrewitt

variable {K : Type} [Field K]

/-- With `blurred == out` on a 1x1 buffer, `apply_prewittKs` overwrites the one cell with
`sqrt(0*0 + 0*0)` in every channel. -/
theorem prewitt_inplace_single (sqrt : K → K) (Xkmem Ykmem Xmem Ymem : Int → K)
    (buf : Int → pixel K) :
    apply_prewittKs_inplace sqrt 1 1 Xkmem Ykmem Xmem Ymem buf =
      Function.update buf 0
        { red := sqrt (0 * 0 + 0 * 0), green := sqrt (0 * 0 + 0 * 0),
          blue := sqrt (0 * 0 + 0 * 0) } := by
  unfold apply_prewittKs_inplace
  simp only []
  rw [forRange_single 1 0 (le_refl 0) Int.zero_lt_one _ (fun i h0 h1 hne => by omega),
    forRange_single 1 0 (le_refl 0) Int.zero_lt_one _ (fun i h0 h1 hne => by omega)]
  unfold prewitt_cell_inplace
  simp only []
  have hw : forWindow ((0 : Int) - 1) (0 + 1) (fun x kx st =>
      forWindow ((0 : Int) - 1) (0 + 1) (fun y ky st =>
        prewitt_window_step 1 1 (prewittX_kernel 3 3 Xkmem) (prewittY_kernel 3 3 Ykmem)
          st.out (0 + 0 * 1) x kx y ky st) st)
      ({ Xedges := (forRange 0 (1 * 1) (fun i (e : (Int → K) × (Int → K)) =>
            (Function.update e.1 i 0, Function.update e.2 i 0)) (Xmem, Ymem)).1
         Yedges := (forRange 0 (1 * 1) (fun i (e : (Int → K) × (Int → K)) =>
            (Function.update e.1 i 0, Function.update e.2 i 0)) (Xmem, Ymem)).2
         out := buf } : PrewittState K)
      = { Xedges := Function.update Xmem 0 0, Yedges := Function.update Ymem 0 0,
          out := buf } := by
    simp [forWindow, forRange, loopN_succ, loopN_zero, prewitt_window_step_eq,
      prewittX_kernel_apply, prewittY_kernel_apply]
  rw [hw]
  simp [Function.update_idem]

end AliasedPrewitt

section AliasedClaims

/-- C19 (counterexample): called with one shared 1x1 buffer holding `(1, 1, 1)`,
`apply_stencil` (radius 1, standard deviation 1) does not fail but leaves `1 + k > 1` in
the red channel, `k` being the centre weight of the kernel, and `apply_prewittKs` leaves
`(0, 0, 0)`: both calls compute a result. -/
theorem aliased_call_computes :
    (apply_stencil_inplace Real.exp Real.pi 1 1 1 1 (fun _ => 0)
        (fun _ => { red := 1, green := 1, blue := 1 }) 0).red
      = 1 + gaussian_kernel Real.exp Real.pi 3 3 1 (fun _ => 0) 4
    ∧ 1 < (apply_stencil_inplace Real.exp Real.pi 1 1 1 1 (fun _ => 0)
        (fun _ => { red := 1, green := 1, blue := 1 }) 0).red
    ∧ apply_prewittKs_inplace Real.sqrt 1 1 (fun _ => 0) (fun _ => 0) (fun _ => 0)
        (fun _ => 0) (fun _ => ({ red := 1, green := 1, blue := 1 } : pixel ℝ)) 0
      = { red := 0, green := 0, blue := 0 } := by
  have hk := gaussian_kernel_pos 3 3 1 one_ne_zero (fun _ => 0) 1 1 (by decide) (by decide)
    (by decide) (by decide)
  have e : (1 : Int) + 1 * 3 = 4 := by decide
  rw [e] at hk
  have hs := stencil_inplace_single Real.exp Real.pi 1 1 (fun _ => 0)
    (fun _ => ({ red := 1, green := 1, blue := 1 } : pixel ℝ)) (by decide)
  have e2 : (1 : Int) * 2 + 1 = 3 := by decide
  rw [e2, e] at hs
  have hr : (apply_stencil_inplace Real.exp Real.pi 1 1 1 1 (fun _ => 0)
        (fun _ => { red := 1, green := 1, blue := 1 }) 0).red
      = 1 + gaussian_kernel Real.exp Real.pi 3 3 1 (fun _ => 0) 4 := by
    rw [hs, Function.update_same]
    simp
  refine ⟨hr, ?_, ?_⟩
  · rw [hr]
    linarith
  · rw [prewitt_inplace_single, Function.update_same]
    simp

/-- C19 (amended): a stencil operation called with the same buffer as input and output
does not fail; it updates the shared buffer in place.  Every cell outside the
`rows x cols` grid is left unchanged by `apply_stencil` with `in == out` and by
`apply_prewittKs` with `blurred == out`; on a 1x1 buffer `apply_stencil` adds to each
channel of the one cell its own content weighted by the centre of the kernel, and
`apply_prewittKs` overwrites the cell with `(0, 0, 0)`. -/
theorem aliased_call_in_place (radius rows cols : Int) (stddev : ℝ)
    (kmem Xkmem Ykmem Xmem Ymem : Int → ℝ) (buf : Int → pixel ℝ) (hrad : 1 ≤ radius) :
    (∀ o, (∀ i j, 0 ≤ i → i < rows → 0 ≤ j → j < cols → o ≠ i + j * rows) →
      apply_stencil_inplace Real.exp Real.pi radius stddev rows cols kmem buf o = buf o
      ∧ apply_prewittKs_inplace Real.sqrt rows cols Xkmem Ykmem Xmem Ymem buf o = buf o)
    ∧ apply_stencil_inplace Real.exp Real.pi radius stddev 1 1 kmem buf 0 =
        { red := (buf 0).red
            + gaussian_kernel Real.exp Real.pi (radius * 2 + 1) (radius * 2 + 1) stddev kmem
                (radius + radius * (radius * 2 + 1)) * (buf 0).red
          green := (buf 0).green
            + gaussian_kernel Real.exp Real.pi (radius * 2 + 1) (radius * 2 + 1) stddev kmem
                (radius + radius * (radius * 2 + 1)) * (buf 0).green
          blue := (buf 0).blue
            + gaussian_kernel Real.exp Real.pi (radius * 2 + 1) (radius * 2 + 1) stddev kmem
                (radius + radius * (radius * 2 + 1)) * (buf 0).blue }
    ∧ apply_prewittKs_inplace Real.sqrt 1 1 Xkmem Ykmem Xmem Ymem buf 0
        = { red := 0, green := 0, blue := 0 } := by
  refine ⟨fun o ho => ⟨stencil_inplace_frame _ _ _ _ _ _ _ _ o ho,
    prewitt_inplace_frame _ _ _ _ _ _ _ _ o ho⟩, ?_, ?_⟩
  · rw [stencil_inplace_single Real.exp Real.pi radius stddev kmem buf (by omega),
      Function.update_same]
  · rw [prewitt_inplace_single, Function.update_same]
    simp

/-- C19 (amended) at radius 1, standard deviation 1 and a 1x1 buffer holding
`(1, 1, 1)`. -/
theorem aliased_call_in_place_witness :
    (1 : Int) ≤ 1
    ∧ apply_prewittKs_inplace Real.sqrt 1 1 (fun _ => 0) (fun _ => 0) (fun _ => 0)
        (fun _ => 0) (fun _ => ({ red := 1, green := 1, blue := 1 } : pixel ℝ)) 0
      = { red := 0, green := 0, blue := 0 } :=
  ⟨le_refl 1, (aliased_call_in_place 1 1 1 1 (fun _ => 0) (fun _ => 0) (fun _ => 0)
    (fun _ => 0) (fun _ => 0) (fun _ => { red := 1, green := 1, blue := 1 })
    (le_refl 1)).2.2⟩

end AliasedClaims

section ExitCodes

variable {K : Type} [LinearOrderedField K] [FloorRing K]

/-- C20: `main` returns 1 whenever `argc != 2`, and returns the nonzero code `-1`,
different from 1, when `argc == 2` and the image cannot be decoded; in both cases no
stencil stage runs and no output file is written. -/
theorem main_exit_codes (exp : K → K) (pi : K) (sqrt : K → K) (argc : Int)
    (imread : Option Decoded) (imem bmem omem : Int → pixel K)
    (kmem Xkmem Ykmem Xmem Ymem : Int → K) :
    (argc ≠ 2 →
      (main exp pi sqrt argc imread imem bmem omem kmem Xkmem Ykmem Xmem Ymem).code = 1
      ∧ (main exp pi sqrt argc imread imem bmem omem kmem Xkmem Ykmem Xmem Ymem).outPixels
          = none
      ∧ (main exp pi sqrt argc imread imem bmem omem kmem Xkmem Ykmem Xmem Ymem).out_jpg
          = none)
    ∧ (argc = 2 → imread = none →
      (main exp pi sqrt argc imread imem bmem omem kmem Xkmem Ykmem Xmem Ymem).code = -1
      ∧ (main exp pi sqrt argc imread imem bmem omem kmem Xkmem Ykmem Xmem Ymem).code ≠ 0
      ∧ (main exp pi sqrt argc imread imem bmem omem kmem Xkmem Ykmem Xmem Ymem).code ≠ 1
      ∧ (main exp pi sqrt argc imread imem bmem omem kmem Xkmem Ykmem Xmem Ymem).outPixels
          = none
      ∧ (main exp pi sqrt argc imread imem bmem omem kmem Xkmem Ykmem Xmem Ymem).out_jpg
          = none)
    ∧ ((main exp pi sqrt argc imread imem bmem omem kmem Xkmem Ykmem Xmem Ymem).code = 0 ↔
        argc = 2 ∧ imread ≠ none) := by
  refine ⟨fun h => ?_, fun h hn => ?_, ?_⟩
  · unfold main
    rw [if_pos h]
    exact ⟨rfl, rfl, rfl⟩
  · subst hn
    unfold main
    rw [if_neg (not_not.mpr h)]
    have e : ((-1 : Int) ≠ 0) ∧ ((-1 : Int) ≠ 1) := by decide
    exact ⟨rfl, e.1, e.2, rfl, rfl⟩
  · unfold main
    by_cases h : argc = 2
    · rw [if_neg (not_not.mpr h)]
      cases imread with
      | none => simp [h]
      | some d => simp [h]
    · rw [if_pos h]
      simp [h]

end ExitCodes

section Witnesses2

open Finset

/-- C12 (amended) at radius 1, standard deviation 1 and the centre cell `(2, 2)` of the
5x5 buffer whose every pixel is `(1/2, 1/2, 1/2)`. -/
theorem pipeline_uniform_half_witness :
    (1 : Int) ≤ 1 ∧ (0 : ℝ) < 1
    ∧ apply_prewittKs Real.sqrt 5 5 (fun _ => 0) (fun _ => 0) (fun _ => 0) (fun _ => 0)
        (apply_stencil Real.exp Real.pi 1 1 5 5 (fun _ => 0)
          (fun _ => { red := 1 / 2, green := 1 / 2, blue := 1 / 2 })
          (fun _ => { red := 0, green := 0, blue := 0 }))
        (fun _ => { red := 0, green := 0, blue := 0 }) (2 + 2 * 5)
      = { red := 0, green := 0, blue := 0 } :=
  ⟨le_refl 1, one_pos,
    (pipeline_uniform_half 1 5 5 1 (fun _ => 0) (fun _ => 0) (fun _ => 0) (fun _ => 0)
      (fun _ => 0) (fun _ => { red := 1 / 2, green := 1 / 2, blue := 1 / 2 })
      (fun _ => { red := 0, green := 0, blue := 0 })
      (fun _ => { red := 0, green := 0, blue := 0 }) (le_refl 1) one_pos
      (fun _ _ _ _ _ _ => rfl) (fun _ _ _ _ _ _ => rfl)).1 2 2 (by decide) (by decide)
      (by decide) (by decide)⟩

/-- C13 over the rationals on a 2x1 buffer visited in the order `(1, 0)`, `(0, 0)`. -/
theorem tiling_independence_witness :
    ([((1 : Int), (0 : Int)), (0, 0)] : List (Int × Int)).Nodup
    ∧ (∀ p : Int × Int, p ∈ ([(1, 0), (0, 0)] : List (Int × Int)) ↔
        0 ≤ p.1 ∧ p.1 < 2 ∧ 0 ≤ p.2 ∧ p.2 < 1)
    ∧ apply_stencil_in_order (fun x : ℚ => x) 3 1 1 2 1 (fun _ => 0)
        (fun _ => { red := 1, green := 1, blue := 1 }) [(1, 0), (0, 0)]
        (fun _ => { red := 0, green := 0, blue := 0 })
      = apply_stencil (fun x : ℚ => x) 3 1 1 2 1 (fun _ => 0)
        (fun _ => { red := 1, green := 1, blue := 1 })
        (fun _ => { red := 0, green := 0, blue := 0 }) :=
  ⟨by decide,
    fun p => by
      obtain ⟨a, b⟩ := p
      simp only [List.mem_cons, Prod.mk.injEq, List.mem_singleton, List.not_mem_nil, or_false]
      omega,
    (tiling_independence (fun x : ℚ => x) 3 (fun x : ℚ => x) 1 2 1 1 (fun _ => 0)
      (fun _ => 0) (fun _ => 0) (fun _ => 0) (fun _ => 0)
      (fun _ => { red := 1, green := 1, blue := 1 })
      (fun _ => { red := 0, green := 0, blue := 0 }) [(1, 0), (0, 0)] (by decide)
      (fun p => by
        obtain ⟨a, b⟩ := p
        simp only [List.mem_cons, Prod.mk.injEq, List.mem_singleton, List.not_mem_nil,
          or_false]
        omega)).1⟩

/-- C15 at radius 1 on a 1x1 buffer: the kernel offset 4 of the centre of the window is
accessed by `apply_prewittKs` and lies in `[0, 9)`. -/
theorem accesses_in_range_witness :
    (1 : Int) ≤ 1 ∧ Access.kernel 4 ∈ prewitt_accesses 1 1 ∧ (0 : Int) ≤ 4 ∧ (4 : Int) < 9 :=
  ⟨le_refl 1, by decide,
    (accesses_in_range 1 1 1 (le_refl 1) (le_refl 1) (le_refl 1)).2.2.2.1 4 (by decide)⟩

end Witnesses2

/-! ## The blur keeps intensities in range -/

section Range

open Finset

/-- Any set of cells of the normalised kernel has total weight at most one. -/
theorem gaussian_kernel_subset_le (dim : Int) (stddev : ℝ) (hs : stddev ≠ 0)
    (hdim : 0 < dim) (kmem : Int → ℝ) (S : Finset (Int × Int))
    (hS : S ⊆ Ico 0 dim ×ˢ Ico 0 dim) :
    ∑ p ∈ S, gaussian_kernel Real.exp Real.pi dim dim stddev kmem (p.1 + p.2 * dim) ≤ 1 := by
  have hall : ∑ p ∈ Ico 0 dim ×ˢ Ico 0 dim,
      gaussian_kernel Real.exp Real.pi dim dim stddev kmem (p.1 + p.2 * dim) = 1 := by
    rw [sum_product_right]
    exact gaussian_kernel_sum dim dim stddev hs hdim hdim kmem
  rw [← hall]
  apply sum_le_sum_of_subset_of_nonneg hS
  intro p hp _
  simp only [mem_product, mem_Ico] at hp
  exact le_of_lt (gaussian_kernel_pos dim dim stddev hs kmem p.1 p.2 hp.1.1 hp.1.2
    hp.2.1 hp.2.2)

/-- A window sum of values in `[0, 1]` weighted by the normalised kernel lies in
`[0, 1]`. -/
theorem window_sum_range (radius rows cols : Int) (stddev : ℝ) (hs : stddev ≠ 0)
    (hrad : 0 ≤ radius) (kmem : Int → ℝ) (g : Int → ℝ) (i j : Int)
    (hg : ∀ x y, 0 ≤ x → x < rows → 0 ≤ y → y < cols →
      0 ≤ g (x + y * rows) ∧ g (x + y * rows) ≤ 1) :
    0 ≤ ∑ p ∈ (Icc (i - radius) (i + radius) ×ˢ Icc (j - radius) (j + radius)).filter
        (fun p => 0 ≤ p.1 ∧ p.1 < rows ∧ 0 ≤ p.2 ∧ p.2 < cols),
        gaussian_kernel Real.exp Real.pi (radius * 2 + 1) (radius * 2 + 1) stddev kmem
          ((p.1 - (i - radius)) + (p.2 - (j - radius)) * (radius * 2 + 1))
          * g (p.1 + p.2 * rows)
    ∧ ∑ p ∈ (Icc (i - radius) (i + radius) ×ˢ Icc (j - radius) (j + radius)).filter
        (fun p => 0 ≤ p.1 ∧ p.1 < rows ∧ 0 ≤ p.2 ∧ p.2 < cols),
        gaussian_kernel Real.exp Real.pi (radius * 2 + 1) (radius * 2 + 1) stddev kmem
          ((p.1 - (i - radius)) + (p.2 - (j - radius)) * (radius * 2 + 1))
          * g (p.1 + p.2 * rows) ≤ 1 := by
  have e1 : 2 * radius + 1 = radius * 2 + 1 := by ring
  have hpos : ∀ p ∈ Icc (i - radius) (i + radius) ×ˢ Icc (j - radius) (j + radius),
      0 < gaussian_kernel Real.exp Real.pi (radius * 2 + 1) (radius * 2 + 1) stddev kmem
        ((p.1 - (i - radius)) + (p.2 - (j - radius)) * (radius * 2 + 1)) := by
    intro p hp
    simp only [mem_product, mem_Icc] at hp
    exact gaussian_kernel_pos (radius * 2 + 1) (radius * 2 + 1) stddev hs kmem
      (p.1 - (i - radius)) (p.2 - (j - radius)) (by omega) (by omega) (by omega) (by omega)
  have hall : ∑ p ∈ Icc (i - radius) (i + radius) ×ˢ Icc (j - radius) (j + radius),
      gaussian_kernel Real.exp Real.pi (radius * 2 + 1) (radius * 2 + 1) stddev kmem
        ((p.1 - (i - radius)) + (p.2 - (j - radius)) * (radius * 2 + 1)) = 1 := by
    rw [window_weights, e1]
    exact gaussian_kernel_sum (radius * 2 + 1) (radius * 2 + 1) stddev hs (by omega)
      (by omega) kmem
  constructor
  · apply sum_nonneg
    intro p hp
    have hm := mem_filter.mp hp
    exact mul_nonneg (le_of_lt (hpos p hm.1))
      (hg p.1 p.2 hm.2.1 hm.2.2.1 hm.2.2.2.1 hm.2.2.2.2).1
  · calc ∑ p ∈ (Icc (i - radius) (i + radius) ×ˢ Icc (j - radius) (j + radius)).filter
          (fun p => 0 ≤ p.1 ∧ p.1 < rows ∧ 0 ≤ p.2 ∧ p.2 < cols),
          gaussian_kernel Real.exp Real.pi (radius * 2 + 1) (radius * 2 + 1) stddev kmem
            ((p.1 - (i - radius)) + (p.2 - (j - radius)) * (radius * 2 + 1))
            * g (p.1 + p.2 * rows)
        ≤ ∑ p ∈ (Icc (i - radius) (i + radius) ×ˢ Icc (j - radius) (j + radius)).filter
          (fun p => 0 ≤ p.1 ∧ p.1 < rows ∧ 0 ≤ p.2 ∧ p.2 < cols),
          gaussian_kernel Real.exp Real.pi (radius * 2 + 1) (radius * 2 + 1) stddev kmem
            ((p.1 - (i - radius)) + (p.2 - (j - radius)) * (radius * 2 + 1)) := by
          apply sum_le_sum
          intro p hp
          have hm := mem_filter.mp hp
          exact mul_le_of_le_one_right (le_of_lt (hpos p hm.1))
            (hg p.1 p.2 hm.2.1 hm.2.2.1 hm.2.2.2.1 hm.2.2.2.2).2
      _ ≤ ∑ p ∈ Icc (i - radius) (i + radius) ×ˢ Icc (j - radius) (j + radius),
          gaussian_kernel Real.exp Real.pi (radius * 2 + 1) (radius * 2 + 1) stddev kmem
            ((p.1 - (i - radius)) + (p.2 - (j - radius)) * (radius * 2 + 1)) :=
          sum_le_sum_of_subset_of_nonneg (filter_subset _ _)
            (fun p hp _ => le_of_lt (hpos p hp))
      _ = 1 := hall

/-- C21 (amended): in exact real arithmetic, for every radius `≥ 1`, `stddev > 0`, `rows`,
`cols`, and every input buffer whose channel values all lie in `[0, 1]`, `apply_stencil`
with a zero-initialised output leaves every channel of every output cell in `[0, 1]`; all
kernel weights are positive and any set of kernel cells has total weight at most 1. -/
theorem blur_preserves_range (radius rows cols : Int) (stddev : ℝ) (kmem : Int → ℝ)
    (inp out : Int → pixel ℝ) (hrad : 1 ≤ radius) (hstd : 0 < stddev)
    (hin : ∀ x y, 0 ≤ x → x < rows → 0 ≤ y → y < cols →
      (0 ≤ (inp (x + y * rows)).red ∧ (inp (x + y * rows)).red ≤ 1)
      ∧ (0 ≤ (inp (x + y * rows)).green ∧ (inp (x + y * rows)).green ≤ 1)
      ∧ (0 ≤ (inp (x + y * rows)).blue ∧ (inp (x + y * rows)).blue ≤ 1))
    (hout : ∀ x y, 0 ≤ x → x < rows → 0 ≤ y → y < cols →
      out (x + y * rows) = { red := 0, green := 0, blue := 0 }) :
    (∀ i j, 0 ≤ i → i < rows → 0 ≤ j → j < cols →
      (0 ≤ (apply_stencil Real.exp Real.pi radius stddev rows cols kmem inp out
          (i + j * rows)).red
        ∧ (apply_stencil Real.exp Real.pi radius stddev rows cols kmem inp out
          (i + j * rows)).red ≤ 1)
      ∧ (0 ≤ (apply_stencil Real.exp Real.pi radius stddev rows cols kmem inp out
          (i + j * rows)).green
        ∧ (apply_stencil Real.exp Real.pi radius stddev rows cols kmem inp out
          (i + j * rows)).green ≤ 1)
      ∧ (0 ≤ (apply_stencil Real.exp Real.pi radius stddev rows cols kmem inp out
          (i + j * rows)).blue
        ∧ (apply_stencil Real.exp Real.pi radius stddev rows cols kmem inp out
          (i + j * rows)).blue ≤ 1))
    ∧ (∀ a b, 0 ≤ a → a < radius * 2 + 1 → 0 ≤ b → b < radius * 2 + 1 →
        0 < gaussian_kernel Real.exp Real.pi (radius * 2 + 1) (radius * 2 + 1) stddev kmem
          (a + b * (radius * 2 + 1)))
    ∧ (∀ S : Finset (Int × Int),
        S ⊆ Ico 0 (radius * 2 + 1) ×ˢ Ico 0 (radius * 2 + 1) →
        ∑ p ∈ S, gaussian_kernel Real.exp Real.pi (radius * 2 + 1) (radius * 2 + 1) stddev
          kmem (p.1 + p.2 * (radius * 2 + 1)) ≤ 1) := by
  have hs : stddev ≠ 0 := ne_of_gt hstd
  refine ⟨fun i j hi0 hi1 hj0 hj1 => ?_,
    fun a b ha0 ha1 hb0 hb1 => gaussian_kernel_pos _ _ stddev hs kmem a b ha0 ha1 hb0 hb1,
    fun S hS => gaussian_kernel_subset_le _ stddev hs (by omega) kmem S hS⟩
  have hR := window_sum_range radius rows cols stddev hs (by omega) kmem
    (fun o => (inp o).red) i j (fun x y h1 h2 h3 h4 => (hin x y h1 h2 h3 h4).1)
  have hG := window_sum_range radius rows cols stddev hs (by omega) kmem
    (fun o => (inp o).green) i j (fun x y h1 h2 h3 h4 => (hin x y h1 h2 h3 h4).2.1)
  have hB := window_sum_range radius rows cols stddev hs (by omega) kmem
    (fun o => (inp o).blue) i j (fun x y h1 h2 h3 h4 => (hin x y h1 h2 h3 h4).2.2)
  simp only [] at hR hG hB
  unfold apply_stencil
  rw [stencil_loop_apply radius rows cols _ inp out i j hi0 hi1 hj0 hj1,
    hout i j hi0 hi1 hj0 hj1]
  simp only [zero_add]
  exact ⟨hR, hG, hB⟩

end Range

/-! ## Prewitt gradients under a constant offset of the intensity -/

section Offset

open Finset

/-- Adding a constant to a field adds, to each window sum, the constant times the weight
of the in-range window cells. -/
theorem window_sum_shift {K : Type} [Field K] (rows cols i j r dim : Int)
    (kernel : Int → K) (g1 g2 : Int → K) (c : K)
    (h : ∀ x y, 0 ≤ x → x < rows → 0 ≤ y → y < cols →
      g2 (x + y * rows) = g1 (x + y * rows) + c) :
    ∑ p ∈ (Icc (i - r) (i + r) ×ˢ Icc (j - r) (j + r)).filter
        (fun p => 0 ≤ p.1 ∧ p.1 < rows ∧ 0 ≤ p.2 ∧ p.2 < cols),
        kernel ((p.1 - (i - r)) + (p.2 - (j - r)) * dim) * g2 (p.1 + p.2 * rows)
      = ∑ p ∈ (Icc (i - r) (i + r) ×ˢ Icc (j - r) (j + r)).filter
          (fun p => 0 ≤ p.1 ∧ p.1 < rows ∧ 0 ≤ p.2 ∧ p.2 < cols),
          kernel ((p.1 - (i - r)) + (p.2 - (j - r)) * dim) * g1 (p.1 + p.2 * rows)
        + (∑ p ∈ (Icc (i - r) (i + r) ×ˢ Icc (j - r) (j + r)).filter
            (fun p => 0 ≤ p.1 ∧ p.1 < rows ∧ 0 ≤ p.2 ∧ p.2 < cols),
            kernel ((p.1 - (i - r)) + (p.2 - (j - r)) * dim)) * c := by
  rw [sum_mul, ← sum_add_distrib]
  apply sum_congr rfl
  intro p hp
  rw [mem_filter] at hp
  rw [h p.1 p.2 hp.2.1 hp.2.2.1 hp.2.2.2.1 hp.2.2.2.2, mul_add]

/-- At an interior cell the Prewitt window sums do not see a constant offset of the
intensity. -/
theorem prewitt_window_shift {K : Type} [Field K] (rows cols i j : Int)
    (Xkmem Ykmem : Int → K) (g1 g2 : Int → K) (c : K)
    (h : ∀ x y, 0 ≤ x → x < rows → 0 ≤ y → y < cols →
      g2 (x + y * rows) = g1 (x + y * rows) + c)
    (hi0 : 1 ≤ i) (hi1 : i ≤ rows - 2) (hj0 : 1 ≤ j) (hj1 : j ≤ cols - 2) :
    ∑ p ∈ (Icc (i - 1) (i + 1) ×ˢ Icc (j - 1) (j + 1)).filter
        (fun p => 0 ≤ p.1 ∧ p.1 < rows ∧ 0 ≤ p.2 ∧ p.2 < cols),
        prewittX_kernel 3 3 Xkmem ((p.1 - (i - 1)) + (p.2 - (j - 1)) * 3)
          * g2 (p.1 + p.2 * rows)
      = ∑ p ∈ (Icc (i - 1) (i + 1) ×ˢ Icc (j - 1) (j + 1)).filter
        (fun p => 0 ≤ p.1 ∧ p.1 < rows ∧ 0 ≤ p.2 ∧ p.2 < cols),
        prewittX_kernel 3 3 Xkmem ((p.1 - (i - 1)) + (p.2 - (j - 1)) * 3)
          * g1 (p.1 + p.2 * rows)
    ∧ ∑ p ∈ (Icc (i - 1) (i + 1) ×ˢ Icc (j - 1) (j + 1)).filter
        (fun p => 0 ≤ p.1 ∧ p.1 < rows ∧ 0 ≤ p.2 ∧ p.2 < cols),
        prewittY_kernel 3 3 Ykmem ((p.1 - (i - 1)) + (p.2 - (j - 1)) * 3)
          * g2 (p.1 + p.2 * rows)
      = ∑ p ∈ (Icc (i - 1) (i + 1) ×ˢ Icc (j - 1) (j + 1)).filter
        (fun p => 0 ≤ p.1 ∧ p.1 < rows ∧ 0 ≤ p.2 ∧ p.2 < cols),
        prewittY_kernel 3 3 Ykmem ((p.1 - (i - 1)) + (p.2 - (j - 1)) * 3)
          * g1 (p.1 + p.2 * rows) := by
  have hf := window_filter_interior rows cols i j 1 (by omega) (by omega) (by omega)
    (by omega)
  have hX := window_sum_shift rows cols i j 1 3 (prewittX_kernel 3 3 Xkmem) g1 g2 c h
  have hY := window_sum_shift rows cols i j 1 3 (prewittY_kernel 3 3 Ykmem) g1 g2 c h
  have wX := window_weights i j 1 3 (prewittX_kernel 3 3 Xkmem)
  have wY := window_weights i j 1 3 (prewittY_kernel 3 3 Ykmem)
  rw [(prewitt_weights_zero Xkmem Ykmem).1] at wX
  rw [(prewitt_weights_zero Xkmem Ykmem).2] at wY
  rw [hf] at hX hY ⊢
  rw [wX, zero_mul, add_zero] at hX
  rw [wY, zero_mul, add_zero] at hY
  exact ⟨hX, hY⟩

/-- At an interior cell the output of `apply_prewittKs` is unchanged when a constant is
added to the intensity of every cell. -/
theorem prewitt_interior_shift {K : Type} [Field K] (sqrt : K → K) (rows cols : Int)
    (Xkmem Ykmem Xmem Ymem : Int → K) (b1 b2 out1 out2 : Int → pixel K) (c : K)
    (i j : Int)
    (h : ∀ x y, 0 ≤ x → x < rows → 0 ≤ y → y < cols →
      ((b2 (x + y * rows)).red + (b2 (x + y * rows)).green + (b2 (x + y * rows)).blue) / 3
        = ((b1 (x + y * rows)).red + (b1 (x + y * rows)).green
            + (b1 (x + y * rows)).blue) / 3 + c)
    (hi0 : 1 ≤ i) (hi1 : i ≤ rows - 2) (hj0 : 1 ≤ j) (hj1 : j ≤ cols - 2) :
    apply_prewittKs sqrt rows cols Xkmem Ykmem Xmem Ymem b2 out2 (i + j * rows)
      = apply_prewittKs sqrt rows cols Xkmem Ykmem Xmem Ymem b1 out1 (i + j * rows) := by
  have hs := prewitt_window_shift rows cols i j Xkmem Ykmem
    (fun o => ((b1 o).red + (b1 o).green + (b1 o).blue) / 3)
    (fun o => ((b2 o).red + (b2 o).green + (b2 o).blue) / 3) c h hi0 hi1 hj0 hj1
  simp only [] at hs
  rw [apply_prewittKs_apply sqrt rows cols Xkmem Ykmem Xmem Ymem b2 out2 i j
      (by omega) (by omega) (by omega) (by omega),
    apply_prewittKs_apply sqrt rows cols Xkmem Ykmem Xmem Ymem b1 out1 i j
      (by omega) (by omega) (by omega) (by omega), hs.1, hs.2]

/-- C22 (amended): in exact real arithmetic, for every blurred buffer with `rows ≥ 3` and
`cols ≥ 3` whose grayscale intensity is the same at every cell, `apply_prewittKs` writes 0
to all channels of every interior cell (`1 ≤ i ≤ rows-2`, `1 ≤ j ≤ cols-2`); more generally,
at interior cells the output is unchanged when a constant is added to every cell's
intensity. -/
theorem prewitt_interior_offset_invariant (rows cols : Int)
    (Xkmem Ykmem Xmem Ymem : Int → ℝ) (_hrows : 3 ≤ rows) (_hcols : 3 ≤ cols) :
    (∀ (blurred out : Int → pixel ℝ) (g : ℝ),
      (∀ x y, 0 ≤ x → x < rows → 0 ≤ y → y < cols →
        ((blurred (x + y * rows)).red + (blurred (x + y * rows)).green
          + (blurred (x + y * rows)).blue) / 3 = g) →
      ∀ i j, 1 ≤ i → i ≤ rows - 2 → 1 ≤ j → j ≤ cols - 2 →
        apply_prewittKs Real.sqrt rows cols Xkmem Ykmem Xmem Ymem blurred out (i + j * rows)
          = { red := 0, green := 0, blue := 0 })
    ∧ (∀ (b1 b2 out1 out2 : Int → pixel ℝ) (c : ℝ),
      (∀ x y, 0 ≤ x → x < rows → 0 ≤ y → y < cols →
        ((b2 (x + y * rows)).red + (b2 (x + y * rows)).green
            + (b2 (x + y * rows)).blue) / 3
          = ((b1 (x + y * rows)).red + (b1 (x + y * rows)).green
              + (b1 (x + y * rows)).blue) / 3 + c) →
      ∀ i j, 1 ≤ i → i ≤ rows - 2 → 1 ≤ j → j ≤ cols - 2 →
        apply_prewittKs Real.sqrt rows cols Xkmem Ykmem Xmem Ymem b2 out2 (i + j * rows)
          = apply_prewittKs Real.sqrt rows cols Xkmem Ykmem Xmem Ymem b1 out1
              (i + j * rows)) := by
  constructor
  · intro blurred out g hu i j hi0 hi1 hj0 hj1
    rw [prewitt_interior_shift Real.sqrt rows cols Xkmem Ykmem Xmem Ymem
      (fun _ => { red := 0, green := 0, blue := 0 }) blurred out out g i j
      (fun x y h1 h2 h3 h4 => by
        rw [hu x y h1 h2 h3 h4]
        simp) hi0 hi1 hj0 hj1,
      apply_prewittKs_apply Real.sqrt rows cols Xkmem Ykmem Xmem Ymem _ out i j
        (by omega) (by omega) (by omega) (by omega)]
    simp
  · intro b1 b2 out1 out2 c h i j hi0 hi1 hj0 hj1
    exact prewitt_interior_shift Real.sqrt rows cols Xkmem Ykmem Xmem Ymem b1 b2 out1 out2
      c i j h hi0 hi1 hj0 hj1

end Offset

/-! ## Symmetry of the Gaussian kernel -/

section Symmetry

open Finset

variable {K : Type} [Field K]

/-- The unnormalised weight of a square kernel is symmetric under transposition. -/
theorem gaussian_value_transpose (exp : K → K) (pi : K) (dim : Int) (stddev : K)
    (i j : Int) :
    gaussian_value exp pi dim dim stddev i j = gaussian_value exp pi dim dim stddev j i := by
  unfold gaussian_value
  simp only []
  rw [add_comm]

/-- The unnormalised weight of a kernel of odd dimension is symmetric under reflection
through the centre. -/
theorem gaussian_value_reflect (exp : K → K) (pi : K) (radius : Int) (stddev : K)
    (hrad : 0 ≤ radius) (i j : Int) :
    gaussian_value exp pi (radius * 2 + 1) (radius * 2 + 1) stddev
        (radius * 2 + 1 - 1 - i) (radius * 2 + 1 - 1 - j)
      = gaussian_value exp pi (radius * 2 + 1) (radius * 2 + 1) stddev i j := by
  have hd : Int.tdiv (radius * 2 + 1) 2 = radius := by
    rw [Int.tdiv_eq_ediv (by omega) (by norm_num)]
    omega
  have e : ∀ a : Int, ((radius * 2 + 1 - 1 - a - radius : Int) : K)
      * ((radius * 2 + 1 - 1 - a - radius : Int) : K)
      = ((a - radius : Int) : K) * ((a - radius : Int) : K) := by
    intro a
    have : radius * 2 + 1 - 1 - a - radius = -(a - radius) := by ring
    rw [this, Int.cast_neg, neg_mul_neg]
  unfold gaussian_value
  simp only [hd]
  rw [e i, e j]

/-- The normalised kernel of odd dimension is symmetric under transposition and under
reflection through the centre. -/
theorem gaussian_kernel_symm (exp : K → K) (pi : K) (radius : Int) (stddev : K)
    (kmem : Int → K) (hrad : 0 ≤ radius) (i j : Int) (hi0 : 0 ≤ i)
    (hi1 : i < radius * 2 + 1) (hj0 : 0 ≤ j) (hj1 : j < radius * 2 + 1) :
    gaussian_kernel exp pi (radius * 2 + 1) (radius * 2 + 1) stddev kmem
        (i + j * (radius * 2 + 1))
      = gaussian_kernel exp pi (radius * 2 + 1) (radius * 2 + 1) stddev kmem
        (j + i * (radius * 2 + 1))
    ∧ gaussian_kernel exp pi (radius * 2 + 1) (radius * 2 + 1) stddev kmem
        (i + j * (radius * 2 + 1))
      = gaussian_kernel exp pi (radius * 2 + 1) (radius * 2 + 1) stddev kmem
        ((radius * 2 + 1 - 1 - i) + (radius * 2 + 1 - 1 - j) * (radius * 2 + 1)) := by
  constructor
  · rw [gaussian_kernel_apply exp pi _ _ stddev kmem i j hi0 hi1 hj0 hj1,
      gaussian_kernel_apply exp pi _ _ stddev kmem j i hj0 hj1 hi0 hi1,
      gaussian_value_transpose]
  · rw [gaussian_kernel_apply exp pi _ _ stddev kmem i j hi0 hi1 hj0 hj1,
      gaussian_kernel_apply exp pi _ _ stddev kmem (radius * 2 + 1 - 1 - i)
        (radius * 2 + 1 - 1 - j) (by omega) (by omega) (by omega) (by omega),
      gaussian_value_reflect exp pi radius stddev hrad]

/-- C23: the kernel produced by `gaussian_kernel(dim, dim, stddev, kernel)` for odd
`dim = 2r+1` is symmetric: `kernel[i + j*dim] = kernel[j + i*dim]` (transpose) and
`kernel[i + j*dim] = kernel[(dim-1-i) + (dim-1-j)*dim]` (reflection through the centre)
for all `0 ≤ i, j < dim`, so the stencil loop nest run with any kernel array that holds
at `kx + ky*dim` what the Gaussian kernel holds at `ky + kx*dim` (the kernel read in the
other major order) gives, at every cell of the grid, the result of `apply_stencil`. -/
theorem gaussian_kernel_symmetric (exp : K → K) (pi : K) (radius : Int) (stddev : K)
    (kmem : Int → K) (hrad : 0 ≤ radius) :
    (∀ i j, 0 ≤ i → i < radius * 2 + 1 → 0 ≤ j → j < radius * 2 + 1 →
      gaussian_kernel exp pi (radius * 2 + 1) (radius * 2 + 1) stddev kmem
          (i + j * (radius * 2 + 1))
        = gaussian_kernel exp pi (radius * 2 + 1) (radius * 2 + 1) stddev kmem
          (j + i * (radius * 2 + 1))
      ∧ gaussian_kernel exp pi (radius * 2 + 1) (radius * 2 + 1) stddev kmem
          (i + j * (radius * 2 + 1))
        = gaussian_kernel exp pi (radius * 2 + 1) (radius * 2 + 1) stddev kmem
          ((radius * 2 + 1 - 1 - i) + (radius * 2 + 1 - 1 - j) * (radius * 2 + 1)))
    ∧ (∀ (rows cols : Int) (kernelT : Int → K) (inp out : Int → pixel K),
        (∀ kx ky, 0 ≤ kx → kx < radius * 2 + 1 → 0 ≤ ky → ky < radius * 2 + 1 →
          kernelT (kx + ky * (radius * 2 + 1))
            = gaussian_kernel exp pi (radius * 2 + 1) (radius * 2 + 1) stddev kmem
                (ky + kx * (radius * 2 + 1))) →
        ∀ i j, 0 ≤ i → i < rows → 0 ≤ j → j < cols →
          stencil_loop radius rows cols kernelT inp out (i + j * rows)
            = apply_stencil exp pi radius stddev rows cols kmem inp out (i + j * rows)) := by
  refine ⟨fun i j hi0 hi1 hj0 hj1 =>
    gaussian_kernel_symm exp pi radius stddev kmem hrad i j hi0 hi1 hj0 hj1, ?_⟩
  intro rows cols kernelT inp out hT i j hi0 hi1 hj0 hj1
  unfold apply_stencil
  rw [stencil_loop_apply radius rows cols kernelT inp out i j hi0 hi1 hj0 hj1,
    stencil_loop_apply radius rows cols _ inp out i j hi0 hi1 hj0 hj1]
  have hw : ∀ p ∈ (Icc (i - radius) (i + radius) ×ˢ Icc (j - radius) (j + radius)).filter
      (fun p => 0 ≤ p.1 ∧ p.1 < rows ∧ 0 ≤ p.2 ∧ p.2 < cols),
      kernelT ((p.1 - (i - radius)) + (p.2 - (j - radius)) * (radius * 2 + 1))
        = gaussian_kernel exp pi (radius * 2 + 1) (radius * 2 + 1) stddev kmem
            ((p.1 - (i - radius)) + (p.2 - (j - radius)) * (radius * 2 + 1)) := by
    intro p hp
    simp only [mem_filter, mem_product, mem_Icc] at hp
    rw [hT _ _ (by omega) (by omega) (by omega) (by omega)]
    exact ((gaussian_kernel_symm exp pi radius stddev kmem hrad _ _ (by omega) (by omega)
      (by omega) (by omega)).1).symm
  have hs : ∀ g : Int → K,
      ∑ p ∈ (Icc (i - radius) (i + radius) ×ˢ Icc (j - radius) (j + radius)).filter
        (fun p => 0 ≤ p.1 ∧ p.1 < rows ∧ 0 ≤ p.2 ∧ p.2 < cols),
        kernelT ((p.1 - (i - radius)) + (p.2 - (j - radius)) * (radius * 2 + 1))
          * g (p.1 + p.2 * rows)
      = ∑ p ∈ (Icc (i - radius) (i + radius) ×ˢ Icc (j - radius) (j + radius)).filter
        (fun p => 0 ≤ p.1 ∧ p.1 < rows ∧ 0 ≤ p.2 ∧ p.2 < cols),
        gaussian_kernel exp pi (radius * 2 + 1) (radius * 2 + 1) stddev kmem
            ((p.1 - (i - radius)) + (p.2 - (j - radius)) * (radius * 2 + 1))
          * g (p.1 + p.2 * rows) :=
    fun g => sum_congr rfl (fun p hp => by rw [hw p hp])
  have hR := hs (fun o => (inp o).red)
  have hG := hs (fun o => (inp o).green)
  have hB := hs (fun o => (inp o).blue)
  simp only [] at hR hG hB
  rw [hR, hG, hB]

end Symmetry

section Witnesses3

open Finset

/-- C21 (amended) at radius 1, standard deviation 1 and a 1x1 buffer holding `(1, 1, 1)`:
the blurred red channel lies in `[0, 1]`. -/
theorem blur_preserves_range_witness :
    (1 : Int) ≤ 1 ∧ (0 : ℝ) < 1
    ∧ 0 ≤ (apply_stencil Real.exp Real.pi 1 1 1 1 (fun _ => 0)
        (fun _ => { red := 1, green := 1, blue := 1 })
        (fun _ => { red := 0, green := 0, blue := 0 }) (0 + 0 * 1)).red
    ∧ (apply_stencil Real.exp Real.pi 1 1 1 1 (fun _ => 0)
        (fun _ => { red := 1, green := 1, blue := 1 })
        (fun _ => { red := 0, green := 0, blue := 0 }) (0 + 0 * 1)).red ≤ 1 :=
  ⟨le_refl 1, one_pos,
    ((blur_preserves_range 1 1 1 1 (fun _ => 0)
      (fun _ => { red := 1, green := 1, blue := 1 })
      (fun _ => { red := 0, green := 0, blue := 0 }) (le_refl 1) one_pos
      (fun _ _ _ _ _ _ => ⟨⟨zero_le_one, le_refl 1⟩, ⟨zero_le_one, le_refl 1⟩,
        ⟨zero_le_one, le_refl 1⟩⟩)
      (fun _ _ _ _ _ _ => rfl)).1 0 0 (le_refl 0) Int.zero_lt_one (le_refl 0)
      Int.zero_lt_one).1⟩

/-- C22 (amended) at the centre cell of the 3x3 buffer whose every pixel is `(1, 1, 1)`. -/
theorem prewitt_interior_offset_invariant_witness :
    (3 : Int) ≤ 3
    ∧ apply_prewittKs Real.sqrt 3 3 (fun _ => 0) (fun _ => 0) (fun _ => 0) (fun _ => 0)
        (fun _ => { red := 1, green := 1, blue := 1 })
        (fun _ => { red := 0, green := 0, blue := 0 }) (1 + 1 * 3)
      = { red := 0, green := 0, blue := 0 } :=
  ⟨le_refl 3,
    (prewitt_interior_offset_invariant 3 3 (fun _ => 0) (fun _ => 0) (fun _ => 0)
      (fun _ => 0) (le_refl 3) (le_refl 3)).1
      (fun _ => { red := 1, green := 1, blue := 1 })
      (fun _ => { red := 0, green := 0, blue := 0 }) 1
      (fun _ _ _ _ _ _ => by norm_num) 1 1 (le_refl 1) (by decide) (le_refl 1)
      (by decide)⟩

/-- C23 at radius 1 and standard deviation 1: the kernel cell `(0, 1)` equals its
transpose `(1, 0)` and its reflection `(2, 1)`. -/
theorem gaussian_kernel_symmetric_witness :
    (0 : Int) ≤ 1
    ∧ gaussian_kernel Real.exp Real.pi (1 * 2 + 1) (1 * 2 + 1) 1 (fun _ => 0)
        (0 + 1 * (1 * 2 + 1))
      = gaussian_kernel Real.exp Real.pi (1 * 2 + 1) (1 * 2 + 1) 1 (fun _ => 0)
        (1 + 0 * (1 * 2 + 1))
    ∧ gaussian_kernel Real.exp Real.pi (1 * 2 + 1) (1 * 2 + 1) 1 (fun _ => 0)
        (0 + 1 * (1 * 2 + 1))
      = gaussian_kernel Real.exp Real.pi (1 * 2 + 1) (1 * 2 + 1) 1 (fun _ => 0)
        ((1 * 2 + 1 - 1 - 0) + (1 * 2 + 1 - 1 - 1) * (1 * 2 + 1)) :=
  ⟨Int.zero_le_ofNat 1,
    (gaussian_kernel_symmetric Real.exp Real.pi 1 1 (fun _ => 0) (by decide)).1 0 1
      (le_refl 0) (by decide) (by decide) (by decide)⟩

end Witnesses3

section DoubleCounterexamples

open Binary64

/-- C22 (as stated, refuted on binary64): for the 3x3 blurred buffer whose every channel
is the `double` nearest `11/255`, the grayscale intensity is the same at every cell, yet
`apply_prewittKs` writes `2^-56`, not 0, to the interior cell `(1, 1)`: the X gradient
accumulates `-I, -2I, -3I, -2I, -I` and rounding `3I` leaves a residue.  The buffer of
zeros, from which this buffer differs by a constant intensity, gets 0 at that cell. -/
theorem prewitt_uniform_residue :
    (Binary64.apply_prewittKs 3 3 (fun _ => 0) (fun _ => 0) (fun _ => 0) (fun _ => 0)
      (fun _ => { red := rnd (11 / 255), green := rnd (11 / 255), blue := rnd (11 / 255) })
      (fun _ => { red := 0, green := 0, blue := 0 }) (1 + 1 * 3)).red
      = F64.fin (1 / 2 ^ 56)
    ∧ (Binary64.apply_prewittKs 3 3 (fun _ => 0) (fun _ => 0) (fun _ => 0) (fun _ => 0)
      (fun _ => { red := rnd (11 / 255), green := rnd (11 / 255), blue := rnd (11 / 255) })
      (fun _ => { red := 0, green := 0, blue := 0 }) (1 + 1 * 3)).red ≠ 0
    ∧ (Binary64.apply_prewittKs 3 3 (fun _ => 0) (fun _ => 0) (fun _ => 0) (fun _ => 0)
      (fun _ => { red := 0, green := 0, blue := 0 })
      (fun _ => { red := 0, green := 0, blue := 0 }) (1 + 1 * 3)).red = 0
    ∧ (rnd (11 / 255) + rnd (11 / 255) + rnd (11 / 255)) / 3
      = (0 + 0 + 0) / 3 + (rnd (11 / 255) + rnd (11 / 255) + rnd (11 / 255)) / 3 := by
  decide!

/-- C6 (as stated, refuted on binary64): with the kernel of `main` (radius 3,
`stddev = 32`) and `exp` returning the values `exp_stddev_32`, `apply_stencil` yields
`1 - 5 * 2^-53`, not exactly 1, at the centre cell `(3, 3)` of the 7x7 buffer whose every
channel is 1, a cell whose 7x7 window lies entirely inside the buffer.  And for the 3x3
buffer whose every channel is the `double` nearest `0.7`, radius 1 and `stddev = 0.01`,
with any `exp` that is 1 at 0 and underflows to 0 from `-746` downwards (as `exp` of
`<cmath>` does), the eight outer weights of the kernel are 0 and the centre weight is 1,
so `apply_stencil` yields exactly `0.7` at the corner cell `(0, 0)`, which lies within
`radius` of an edge: not a value strictly less than `c`. -/
theorem blur_corner_not_smaller :
    (∃ exp : F64 → F64, ∀ p ∈ exp_stddev_32, exp (F64.fin p.1) = F64.fin p.2)
    ∧ (∀ exp : F64 → F64, (∀ p ∈ exp_stddev_32, exp (F64.fin p.1) = F64.fin p.2) →
        (Binary64.apply_stencil exp 3 32 7 7 (fun _ => 0)
            (fun _ => { red := 1, green := 1, blue := 1 })
            (fun _ => { red := 0, green := 0, blue := 0 }) (3 + 3 * 7)).red
          = F64.fin (1 - 5 / 2 ^ 53)
        ∧ (Binary64.apply_stencil exp 3 32 7 7 (fun _ => 0)
            (fun _ => { red := 1, green := 1, blue := 1 })
            (fun _ => { red := 0, green := 0, blue := 0 }) (3 + 3 * 7)).red ≠ 1)
    ∧ lt 0 (rnd (1 / 100)) = true
    ∧ lt 0 (rnd (7 / 10)) = true
    ∧ (∃ exp : F64 → F64, exp (F64.fin 0) = 1
        ∧ ∀ x, le x (F64.fin (-746)) = true → exp x = 0)
    ∧ ∀ exp : F64 → F64, exp (F64.fin 0) = 1 →
        (∀ x, le x (F64.fin (-746)) = true → exp x = 0) →
        Binary64.gaussian_kernel exp 3 3 (rnd (1 / 100)) (fun _ => 0) (1 + 1 * 3) = 1
        ∧ Binary64.gaussian_kernel exp 3 3 (rnd (1 / 100)) (fun _ => 0) (0 + 0 * 3) = 0
        ∧ (Binary64.apply_stencil exp 1 (rnd (1 / 100)) 3 3 (fun _ => 0)
            (fun _ => { red := rnd (7 / 10), green := rnd (7 / 10), blue := rnd (7 / 10) })
            (fun _ => { red := 0, green := 0, blue := 0 }) (0 + 0 * 3)).red = rnd (7 / 10)
        ∧ lt (Binary64.apply_stencil exp 1 (rnd (1 / 100)) 3 3 (fun _ => 0)
            (fun _ => { red := rnd (7 / 10), green := rnd (7 / 10), blue := rnd (7 / 10) })
            (fun _ => { red := 0, green := 0, blue := 0 }) (0 + 0 * 3)).red
            (rnd (7 / 10)) = false := by
  refine ⟨⟨table_exp exp_stddev_32, table_exp_values.2.2⟩, fun exp hexp => ?_,
    by decide!, by decide!,
    ⟨fun x => if x = F64.fin 0 then 1 else 0, by decide!, ?_⟩, ?_⟩
  · rw [double_stencil_congr exp (table_exp exp_stddev_32) 3 32 7 7 (fun _ => 0) _ _
      (double_kernel_stddev_32 exp (fun _ => 0) hexp)]
    decide!
  · intro x hx
    have hne : x ≠ F64.fin 0 := by
      intro e
      subst e
      revert hx
      decide!
    simp only [if_neg hne]
  · intro exp h0 hu
    have hk := double_kernel_underflow exp (rnd (1 / 100)) (fun _ => 0) (Or.inl rfl) h0 hu
    rw [double_stencil_congr exp (fun x => if x = F64.fin 0 then 1 else 0) 1
      (rnd (1 / 100)) 3 3 (fun _ => 0) _ _ hk, hk]
    decide!

/-- C21 (as stated, refuted on binary64): with radius 3, `stddev = 1` and `exp` returning
the values `exp_stddev_1`, `apply_stencil` with a zeroed output yields `1 + 2^-50`, which
is above 1, at the centre cell `(3, 3)` of the 7x7 buffer whose every channel is 1.  With
radius 1 and the positive `double` nearest `1e-200` as `stddev`, the square of `stddev`
underflows to 0, `1/g_denom` is infinite, and whatever `exp` returns every kernel weight
is not-a-number: on the 1x1 input `(1, 1, 1)` the output is not-a-number, which is
neither `≥ 0` nor `≤ 1`.  And for `stddev = 0.02`, with any `exp` that is 1 at 0 and
underflows to 0 from `-746` downwards, the corner weight of the 3x3 kernel is 0, not
positive. -/
theorem blur_leaves_range :
    (∃ exp : F64 → F64, ∀ p ∈ exp_stddev_1, exp (F64.fin p.1) = F64.fin p.2)
    ∧ (∀ exp : F64 → F64, (∀ p ∈ exp_stddev_1, exp (F64.fin p.1) = F64.fin p.2) →
        (Binary64.apply_stencil exp 3 1 7 7 (fun _ => 0)
            (fun _ => { red := 1, green := 1, blue := 1 })
            (fun _ => { red := 0, green := 0, blue := 0 }) (3 + 3 * 7)).red
          = F64.fin (1 + 1 / 2 ^ 50)
        ∧ le (Binary64.apply_stencil exp 3 1 7 7 (fun _ => 0)
            (fun _ => { red := 1, green := 1, blue := 1 })
            (fun _ => { red := 0, green := 0, blue := 0 }) (3 + 3 * 7)).red 1 = false)
    ∧ lt 0 (rnd (1 / 10 ^ 200)) = true
    ∧ (∀ exp : F64 → F64,
        (Binary64.apply_stencil exp 1 (rnd (1 / 10 ^ 200)) 1 1 (fun _ => 0)
          (fun _ => { red := 1, green := 1, blue := 1 })
          (fun _ => { red := 0, green := 0, blue := 0 }) (0 + 0 * 1)).red = F64.nan
        ∧ le 0 (Binary64.apply_stencil exp 1 (rnd (1 / 10 ^ 200)) 1 1 (fun _ => 0)
          (fun _ => { red := 1, green := 1, blue := 1 })
          (fun _ => { red := 0, green := 0, blue := 0 }) (0 + 0 * 1)).red = false
        ∧ le (Binary64.apply_stencil exp 1 (rnd (1 / 10 ^ 200)) 1 1 (fun _ => 0)
          (fun _ => { red := 1, green := 1, blue := 1 })
          (fun _ => { red := 0, green := 0, blue := 0 }) (0 + 0 * 1)).red 1 = false)
    ∧ lt 0 (rnd (2 / 100)) = true
    ∧ ∀ exp : F64 → F64, exp (F64.fin 0) = 1 →
        (∀ x, le x (F64.fin (-746)) = true → exp x = 0) →
        Binary64.gaussian_kernel exp 3 3 (rnd (2 / 100)) (fun _ => 0) (0 + 0 * 3) = 0
        ∧ lt 0 (Binary64.gaussian_kernel exp 3 3 (rnd (2 / 100)) (fun _ => 0) (0 + 0 * 3))
          = false := by
  refine ⟨⟨table_exp exp_stddev_1, table_exp_values.1⟩, fun exp hexp => ?_,
    by decide!, fun exp => ?_, by decide!, fun exp h0 hu => ?_⟩
  · rw [double_stencil_congr exp (table_exp exp_stddev_1) 3 1 7 7 (fun _ => 0) _ _
      (double_kernel_stddev_1 exp (fun _ => 0) hexp)]
    decide!
  · have hk := double_kernel_nan_eq exp (fun _ => 0) (1 * 2 + 1) (1 * 2 + 1)
      (rnd (1 / 10 ^ 200)) (fun _ => 0) (by decide!)
    rw [double_stencil_congr exp (fun _ => 0) 1 (rnd (1 / 10 ^ 200)) 1 1 (fun _ => 0) _ _ hk]
    decide!
  · rw [double_kernel_underflow exp (rnd (2 / 100)) (fun _ => 0) (Or.inr rfl) h0 hu]
    decide!

/-- C9 (amended): `gaussian_kernel` validates nothing and has no failure outcome.  On
binary64, for every radius, every `stddev` (zero and negative values included), every
`exp` and whatever the array held before, `gaussian_kernel(2r+1, 2r+1, stddev, kernel)`
returns with every cell outside the `(2r+1) x (2r+1)` grid untouched and every cell of
the grid written (its value does not depend on what the array held); for `stddev = 0`
every cell of the grid is not-a-number (from `1/0` and `0/0`), not rejected; for radius
0 and `stddev = 1` the kernel is the single cell 1. -/
theorem gaussian_kernel_never_fails (exp : F64 → F64) (radius : Int) (stddev : F64)
    (kmem : Int → F64) :
    (∀ o, (∀ i j, 0 ≤ i → i < radius * 2 + 1 → 0 ≤ j → j < radius * 2 + 1 →
        o ≠ i + j * (radius * 2 + 1)) →
      Binary64.gaussian_kernel exp (radius * 2 + 1) (radius * 2 + 1) stddev kmem o = kmem o)
    ∧ (∀ (kmem2 : Int → F64) i j, 0 ≤ i → i < radius * 2 + 1 → 0 ≤ j →
      j < radius * 2 + 1 →
      Binary64.gaussian_kernel exp (radius * 2 + 1) (radius * 2 + 1) stddev kmem
        (i + j * (radius * 2 + 1))
      = Binary64.gaussian_kernel exp (radius * 2 + 1) (radius * 2 + 1) stddev kmem2
        (i + j * (radius * 2 + 1)))
    ∧ (∀ i j, 0 ≤ i → i < radius * 2 + 1 → 0 ≤ j → j < radius * 2 + 1 →
      Binary64.gaussian_kernel exp (radius * 2 + 1) (radius * 2 + 1) 0 kmem
        (i + j * (radius * 2 + 1)) = F64.nan)
    ∧ (exp (F64.fin 0) = 1 →
      Binary64.gaussian_kernel exp (0 * 2 + 1) (0 * 2 + 1) 1 kmem 0 = 1) :=
  ⟨fun o ho => double_kernel_outside exp _ _ stddev kmem o ho,
    fun kmem2 i j hi0 hi1 hj0 hj1 =>
      double_kernel_init exp _ _ stddev kmem kmem2 i j hi0 hi1 hj0 hj1,
    fun i j hi0 hi1 hj0 hj1 =>
      double_kernel_nan exp _ _ 0 kmem (by decide!) i j hi0 hi1 hj0 hj1,
    fun h0 => double_kernel_one_cell exp kmem h0⟩

end DoubleCounterexamples

end Stencil

/-! ## Matrix multiplication -/

namespace Matmul

open Stencil Finset

section Fill

/-- A loop nest that stores `f i j` in cell `key i j` of an array, for distinct keys. -/
theorem fill_apply {ι β : Type} [DecidableEq ι] (n : Int) (key : Int → Int → ι)
    (f : Int → Int → β) (M : ι → β)
    (hinj : ∀ a b a2 b2, 0 ≤ a → a < n → 0 ≤ b → b < n → 0 ≤ a2 → a2 < n → 0 ≤ b2 →
      b2 < n → key a b = key a2 b2 → a = a2 ∧ b = b2)
    (i j : Int) (hi0 : 0 ≤ i) (hi1 : i < n) (hj0 : 0 ≤ j) (hj1 : j < n) :
    (forRange 0 n (fun i M => forRange 0 n (fun j M =>
      Function.update M (key i j) (f i j)) M) M) (key i j) = f i j :=
  grid_read_key (fun (s : ι → β) o => s o) n n key
    (fun i j M => Function.update M (key i j) (f i j)) (fun i j _ => f i j)
    (fun a b s o => by simp only [Function.update_apply]) hinj M i j hi0 hi1 hj0 hj1

/-- Such a loop nest leaves the other cells alone. -/
theorem fill_outside {ι β : Type} [DecidableEq ι] (n : Int) (key : Int → Int → ι)
    (f : Int → Int → β) (M : ι → β) (o : ι)
    (ho : ∀ a b, 0 ≤ a → a < n → 0 ≤ b → b < n → o ≠ key a b) :
    (forRange 0 n (fun i M => forRange 0 n (fun j M =>
      Function.update M (key i j) (f i j)) M) M) o = M o :=
  grid_read_key_outside (fun (s : ι → β) o => s o) n n key
    (fun i j M => Function.update M (key i j) (f i j)) (fun i j _ => f i j)
    (fun a b s o => by simp only [Function.update_apply]) M o ho

theorem pair_inj (n : Int) : ∀ a b a2 b2 : Int, 0 ≤ a → a < n → 0 ≤ b → b < n → 0 ≤ a2 →
    a2 < n → 0 ≤ b2 → b2 < n → ((a, b) : Int × Int) = (a2, b2) → a = a2 ∧ b = b2 :=
  fun _ _ _ _ _ _ _ _ _ _ _ _ e => ⟨congrArg Prod.fst e, congrArg Prod.snd e⟩

theorem pair_swap_inj (n : Int) : ∀ a b a2 b2 : Int, 0 ≤ a → a < n → 0 ≤ b → b < n →
    0 ≤ a2 → a2 < n → 0 ≤ b2 → b2 < n → ((b, a) : Int × Int) = (b2, a2) → a = a2 ∧ b = b2 :=
  fun _ _ _ _ _ _ _ _ _ _ _ _ e => ⟨congrArg Prod.snd e, congrArg Prod.fst e⟩

/-- After `transpose` and `copy`, `matrix_multiply` holds the transpose of `B` in `B`. -/
theorem transposed_B {K : Type} (n : Int) (Bmem B : Int × Int → K) (j k : Int)
    (hj0 : 0 ≤ j) (hj1 : j < n) (hk0 : 0 ≤ k) (hk1 : k < n) :
    copy n (transpose n B Bmem) B (j, k) = B (k, j) := by
  unfold copy
  rw [fill_apply n (fun a b => (a, b)) (fun a b => transpose n B Bmem (a, b)) B (pair_inj n)
    j k hj0 hj1 hk0 hk1]
  unfold transpose
  exact fill_apply n (fun a b => (b, a)) (fun a b => B (a, b)) Bmem (pair_swap_inj n)
    k j hk0 hk1 hj0 hj1

end Fill

section Loops

variable {K : Type} [LinearOrderedField K]

/-- A loop that adds a term to its scalar state adds the sum of the terms. -/
theorem forRange_sum (t : Int → K) (body : Int → K → K) (h : ∀ i s, body i s = s + t i)
    (n : Int) (a : K) : forRange 0 n body a = a + ∑ i ∈ Ico 0 n, t i := by
  rw [← sum_range_toNat]
  unfold forRange
  rw [sub_zero]
  generalize n.toNat = m
  induction m with
  | zero => simp [loopN_zero]
  | succ m ih => rw [loopN_succ, h, ih, sum_range_succ, add_assoc, zero_add]

/-- A loop that adds a term to one fixed cell of an array adds the sum of the terms. -/
theorem forRange_accum_cell {ι : Type} [DecidableEq ι] (c : ι) (t : Int → K)
    (body : Int → (ι → K) → (ι → K))
    (h : ∀ k M, body k M = Function.update M c (M c + t k)) (n : Int) (M : ι → K) :
    forRange 0 n body M = Function.update M c (M c + ∑ k ∈ Ico 0 n, t k) := by
  rw [← sum_range_toNat]
  unfold forRange
  rw [sub_zero]
  generalize n.toNat = m
  induction m with
  | zero => simp [loopN_zero]
  | succ m ih =>
    rw [loopN_succ, h, ih]
    simp [Function.update_idem, sum_range_succ, add_assoc]

/-- The accumulation loop nest shared by the two multiplications: every in-range cell
of `C` gains the sum of its `n` products, the other cells are left alone. -/
theorem accumulate_apply (n : Int) (t : Int → Int → Int → K) (C : Int × Int → K) :
    (∀ i j, 0 ≤ i → i < n → 0 ≤ j → j < n →
      (forRange 0 n (fun i C => forRange 0 n (fun j C => forRange 0 n (fun k C =>
        Function.update C (i, j) (C (i, j) + t i j k)) C) C) C) (i, j)
        = C (i, j) + ∑ k ∈ Ico 0 n, t i j k)
    ∧ (∀ o : Int × Int, ¬ (0 ≤ o.1 ∧ o.1 < n ∧ 0 ≤ o.2 ∧ o.2 < n) →
      (forRange 0 n (fun i C => forRange 0 n (fun j C => forRange 0 n (fun k C =>
        Function.update C (i, j) (C (i, j) + t i j k)) C) C) C) o = C o) := by
  have hcell : ∀ (a b : Int) (s : Int × Int → K) (o : Int × Int),
      (forRange 0 n (fun k C => Function.update C (a, b) (C (a, b) + t a b k)) s) o
        = if o = (a, b) then s o + ∑ k ∈ Ico 0 n, t a b k else s o := by
    intro a b s o
    rw [forRange_accum_cell (a, b) (fun k => t a b k) _ (fun k M => rfl)]
    simp only [Function.update_apply]
    split_ifs with h
    · rw [h]
    · rfl
  constructor
  · intro i j hi0 hi1 hj0 hj1
    exact grid_read_key (fun (s : Int × Int → K) o => s o) n n (fun a b => (a, b))
      (fun a b C => forRange 0 n (fun k C =>
        Function.update C (a, b) (C (a, b) + t a b k)) C)
      (fun a b v => v + ∑ k ∈ Ico 0 n, t a b k) hcell (pair_inj n) C i j hi0 hi1 hj0 hj1
  · intro o ho
    exact grid_read_key_outside (fun (s : Int × Int → K) o => s o) n n (fun a b => (a, b))
      (fun a b C => forRange 0 n (fun k C =>
        Function.update C (a, b) (C (a, b) + t a b k)) C)
      (fun a b v => v + ∑ k ∈ Ico 0 n, t a b k) hcell C o
      (fun a b h1 h2 h3 h4 e => ho (by rw [e]; exact ⟨h1, h2, h3, h4⟩))

end Loops

section Claims

variable {K : Type} [LinearOrderedField K]

/-- The result of `matrix_multiply_serial`: every in-range cell of `C` gains the entry
of the matrix product, the other cells are left alone. -/
theorem matrix_multiply_serial_apply (n : Int) (g : Globals K) :
    (∀ i j, 0 ≤ i → i < n → 0 ≤ j → j < n →
      (matrix_multiply_serial n g).C (i, j)
        = g.C (i, j) + ∑ k ∈ Ico 0 n, g.A (i, k) * g.B (k, j))
    ∧ (∀ o : Int × Int, ¬ (0 ≤ o.1 ∧ o.1 < n ∧ 0 ≤ o.2 ∧ o.2 < n) →
      (matrix_multiply_serial n g).C o = g.C o) :=
  accumulate_apply n (fun i j k => g.A (i, k) * g.B (k, j)) g.C

/-- The result of `matrix_multiply`: the same as that of `matrix_multiply_serial`. -/
theorem matrix_multiply_apply (n : Int) (Bmem : Int × Int → K) (g : Globals K) :
    (∀ i j, 0 ≤ i → i < n → 0 ≤ j → j < n →
      (matrix_multiply n Bmem g).C (i, j)
        = g.C (i, j) + ∑ k ∈ Ico 0 n, g.A (i, k) * g.B (k, j))
    ∧ (∀ o : Int × Int, ¬ (0 ≤ o.1 ∧ o.1 < n ∧ 0 ≤ o.2 ∧ o.2 < n) →
      (matrix_multiply n Bmem g).C o = g.C o) := by
  obtain ⟨h1, h2⟩ := accumulate_apply n
    (fun i j k => g.A (i, k) * copy n (transpose n g.B Bmem) g.B (j, k)) g.C
  refine ⟨fun i j hi0 hi1 hj0 hj1 => ?_, h2⟩
  refine (h1 i j hi0 hi1 hj0 hj1).trans ?_
  congr 1
  apply sum_congr rfl
  intro k hk
  rw [mem_Ico] at hk
  rw [transposed_B n Bmem g.B j k hj0 hj1 hk.1 hk.2]

/-- C16: for every order `n` and all `n x n` matrices `A`, `B` and initial `C`,
`matrix_multiply` (which transposes `B` in place and accumulates `A[i][k]*B[j][k]`)
leaves the same `C` as `matrix_multiply_serial`, namely the initial `C` plus the matrix
product `A*B`. -/
theorem matrix_multiply_refines (n : Int) (Bmem : Int × Int → K) (g : Globals K) :
    (matrix_multiply n Bmem g).C = (matrix_multiply_serial n g).C
    ∧ (∀ i j, 0 ≤ i → i < n → 0 ≤ j → j < n →
      (matrix_multiply n Bmem g).C (i, j)
          = g.C (i, j) + ∑ k ∈ Ico 0 n, g.A (i, k) * g.B (k, j)
      ∧ (matrix_multiply_serial n g).C (i, j)
          = g.C (i, j) + ∑ k ∈ Ico 0 n, g.A (i, k) * g.B (k, j)) := by
  obtain ⟨p1, p2⟩ := matrix_multiply_apply n Bmem g
  obtain ⟨s1, s2⟩ := matrix_multiply_serial_apply n g
  refine ⟨?_, fun i j hi0 hi1 hj0 hj1 => ⟨p1 i j hi0 hi1 hj0 hj1, s1 i j hi0 hi1 hj0 hj1⟩⟩
  funext o
  by_cases ho : 0 ≤ o.1 ∧ o.1 < n ∧ 0 ≤ o.2 ∧ o.2 < n
  · have e : o = (o.1, o.2) := rfl
    rw [e, p1 o.1 o.2 ho.1 ho.2.1 ho.2.2.1 ho.2.2.2, s1 o.1 o.2 ho.1 ho.2.1 ho.2.2.1 ho.2.2.2]
  · rw [p2 o ho, s2 o ho]

end Claims

section SelfCheck

variable {K : Type} [LinearOrderedField K]

/-- After `matrix_init` every in-range cell of `A`, `B`, `C` holds `AVAL`, `BVAL`, `0`. -/
theorem matrix_init_apply (n : Int) (g : Globals K) (i j : Int) (hi0 : 0 ≤ i) (hi1 : i < n)
    (hj0 : 0 ≤ j) (hj1 : j < n) :
    (matrix_init n g).A (i, j) = AVAL ∧ (matrix_init n g).B (i, j) = BVAL
      ∧ (matrix_init n g).C (i, j) = 0 :=
  ⟨fill_apply n (fun a b => (a, b)) (fun _ _ => AVAL) g.A (pair_inj n) i j hi0 hi1 hj0 hj1,
    fill_apply n (fun a b => (a, b)) (fun _ _ => BVAL) g.B (pair_inj n) i j hi0 hi1 hj0 hj1,
    fill_apply n (fun a b => (a, b)) (fun _ _ => 0) g.C (pair_inj n) i j hi0 hi1 hj0 hj1⟩

/-- The accumulated squared error of `check_result` as a double sum. -/
theorem check_error_eq (n : Int) (g : Globals K) :
    check_error n g = ∑ i ∈ Ico 0 n, ∑ j ∈ Ico 0 n,
      (g.C (i, j) - AVAL * BVAL * (n : K)) * (g.C (i, j) - AVAL * BVAL * (n : K)) := by
  unfold check_error
  simp only []
  rw [forRange_sum (fun i => ∑ j ∈ Ico 0 n,
    (g.C (i, j) - AVAL * BVAL * (n : K)) * (g.C (i, j) - AVAL * BVAL * (n : K)))]
  · rw [zero_add]
  · intro i s
    rw [forRange_sum (fun j =>
      (g.C (i, j) - AVAL * BVAL * (n : K)) * (g.C (i, j) - AVAL * BVAL * (n : K)))]
    intro j s
    rfl

/-- A product of uniform matrices: every in-range cell gains `n` times `AVAL * BVAL`. -/
theorem uniform_product (n : Int) (i : Int) (hi0 : 0 ≤ i) (hi1 : i < n) (A B : Int × Int → K)
    (j : Int) (hA : ∀ k, 0 ≤ k → k < n → A (i, k) = AVAL)
    (hB : ∀ k, 0 ≤ k → k < n → B (k, j) = BVAL) :
    (0 : K) + ∑ k ∈ Ico 0 n, A (i, k) * B (k, j) = AVAL * BVAL * (n : K) := by
  have hsum : ∑ k ∈ Ico 0 n, A (i, k) * B (k, j) = ∑ _k ∈ Ico (0 : Int) n, (AVAL * BVAL : K) := by
    apply sum_congr rfl
    intro k hk
    rw [mem_Ico] at hk
    rw [hA k hk.1 hk.2, hB k hk.1 hk.2]
  rw [zero_add, hsum, sum_const, Int.card_Ico, sub_zero, nsmul_eq_mul]
  have : ((n.toNat : Nat) : K) = (n : K) := by
    have h : ((n.toNat : Nat) : Int) = n := Int.toNat_of_nonneg (by omega)
    exact_mod_cast congrArg (fun z : Int => (z : K)) h
  rw [this]
  ring

/-- After `matrix_init`, both multiplications leave `AVAL * BVAL * n` in every in-range
cell of `C`. -/
theorem product_after_init (n : Int) (Bmem : Int × Int → K) (g : Globals K) (i j : Int)
    (hi0 : 0 ≤ i) (hi1 : i < n) (hj0 : 0 ≤ j) (hj1 : j < n) :
    (matrix_multiply_serial n (matrix_init n g)).C (i, j) = AVAL * BVAL * (n : K)
    ∧ (matrix_multiply n Bmem (matrix_init n g)).C (i, j) = AVAL * BVAL * (n : K) := by
  have hA : ∀ k, 0 ≤ k → k < n → (matrix_init n g).A (i, k) = AVAL :=
    fun k h1 h2 => (matrix_init_apply n g i k hi0 hi1 h1 h2).1
  have hB : ∀ k, 0 ≤ k → k < n → (matrix_init n g).B (k, j) = BVAL :=
    fun k h1 h2 => (matrix_init_apply n g k j h1 h2 hj0 hj1).2.1
  have hC := (matrix_init_apply n g i j hi0 hi1 hj0 hj1).2.2
  constructor
  · rw [(matrix_multiply_serial_apply n (matrix_init n g)).1 i j hi0 hi1 hj0 hj1, hC]
    exact uniform_product n i hi0 hi1 _ _ j hA hB
  · rw [(matrix_multiply_apply n Bmem (matrix_init n g)).1 i j hi0 hi1 hj0 hj1, hC]
    exact uniform_product n i hi0 hi1 _ _ j hA hB

/-- A `C` that holds `AVAL * BVAL * n` in every in-range cell has squared error 0 and
passes the check. -/
theorem check_passes (n : Int) (g : Globals K)
    (h : ∀ i j, 0 ≤ i → i < n → 0 ≤ j → j < n → g.C (i, j) = AVAL * BVAL * (n : K)) :
    check_error n g = 0 ∧ check_result n g = 1 := by
  have he : check_error n g = 0 := by
    rw [check_error_eq]
    apply sum_eq_zero
    intro i hi
    apply sum_eq_zero
    intro j hj
    rw [mem_Ico] at hi hj
    rw [h i j hi.1 hi.2 hj.1 hj.2]
    ring
  refine ⟨he, ?_⟩
  unfold check_result
  simp only []
  rw [he]
  have : ¬ ((0 : K) > TOL) := by
    unfold TOL
    norm_num
  rw [if_neg this]

/-- C17 (the code diverges from the claim): run with `stack` bytes of stack, `main`
obtains `correct = 1` from the check after `matrix_init` and `matrix_multiply_serial`
(every `C[i][j]` is `AVAL*BVAL*ORDER = 30000` and the squared error is 0), but the call of
`matrix_multiply` needs 32,000,000 bytes of stack for its local `B_[ORDER][ORDER]`: with
less, as under the default limit of 8 MiB = 8,388,608 bytes, the process is killed inside
`matrix_multiply` and the second check never runs; only with at least 32,000,000 bytes
does the second check return 1 as well.  In general `check_result` returns 1 exactly when
the sum over all cells of `(C[i][j] - AVAL*BVAL*ORDER)^2` is at most `TOL`. -/
theorem main_stack_overrun (stack : Int) (Bmem : Int × Int → K) (g : Globals K) :
    matrix_multiply_frame ORDER = 32000000
    ∧ (∀ i j, 0 ≤ i → i < ORDER → 0 ≤ j → j < ORDER →
      (matrix_multiply_serial ORDER (matrix_init ORDER g)).C (i, j) = 30000)
    ∧ check_error ORDER (matrix_multiply_serial ORDER (matrix_init ORDER g)) = 0
    ∧ check_result ORDER (matrix_multiply_serial ORDER (matrix_init ORDER g)) = 1
    ∧ (stack < 32000000 →
        matrix_multiply_call stack ORDER Bmem (matrix_init ORDER g) = none)
    ∧ main_correct stack Bmem g = (1, if 32000000 ≤ stack then some 1 else none)
    ∧ main_correct 8388608 Bmem g = (1, none)
    ∧ (∀ g2 : Globals K, check_result ORDER g2 = 1 ↔
        ∑ i ∈ Ico 0 ORDER, ∑ j ∈ Ico 0 ORDER,
          (g2.C (i, j) - AVAL * BVAL * (ORDER : K)) ^ 2 ≤ TOL) := by
  have hf : matrix_multiply_frame ORDER = 32000000 := by decide
  have hv : (AVAL : K) * BVAL * (ORDER : K) = 30000 := by
    unfold AVAL BVAL ORDER
    norm_num
  have hs := fun (g0 : Globals K) => check_passes ORDER
    (matrix_multiply_serial ORDER (matrix_init ORDER g0))
    (fun i j h1 h2 h3 h4 => (product_after_init ORDER Bmem g0 i j h1 h2 h3 h4).1)
  have hp := fun (g0 : Globals K) => check_passes ORDER
    (matrix_multiply ORDER Bmem (matrix_init ORDER g0))
    (fun i j h1 h2 h3 h4 => (product_after_init ORDER Bmem g0 i j h1 h2 h3 h4).2)
  have hmain : ∀ st : Int,
      main_correct st Bmem g = (1, if 32000000 ≤ st then some 1 else none) := by
    intro st
    unfold main_correct matrix_multiply_call
    simp only [hf]
    by_cases h : (32000000 : Int) ≤ st
    · rw [if_pos h, if_pos h]
      simp only []
      rw [(hs g).2, (hp _).2]
    · rw [if_neg h, if_neg h]
      simp only []
      rw [(hs g).2]
  refine ⟨hf, fun i j h1 h2 h3 h4 => ?_, (hs g).1, (hs g).2, fun h => ?_, hmain stack, ?_,
    ?_⟩
  · rw [← hv]
    exact (product_after_init ORDER Bmem g i j h1 h2 h3 h4).1
  · unfold matrix_multiply_call
    rw [hf, if_neg (not_le.mpr h)]
  · rw [hmain 8388608]
    rfl
  · intro g2
    unfold check_result
    simp only []
    rw [check_error_eq]
    simp only [sq]
    split_ifs with h
    · constructor
      · intro e
        exact absurd e (by decide)
      · intro hle
        exact absurd hle (not_le.mpr h)
    · constructor
      · intro _
        exact not_lt.mp h
      · intro _
        rfl

end SelfCheck

end Matmul

/-! ## The PIN strings of the password search -/

namespace Pass

open Stencil

/-- The ten symbols are the decimal digit characters. -/
theorem chars_at_digit (d : Int) (h0 : 0 ≤ d) (h1 : d < 10) :
    chars_at d = Char.ofNat (48 + d.toNat) ∧ ((chars_at d).toNat : Int) = 48 + d := by
  interval_cases d <;> exact ⟨by decide, by decide⟩

/-- Dividing by ten once more. -/
theorem ediv_ediv_pow (p : Int) (hp : 0 ≤ p) (n : Nat) :
    p / 10 ^ n / 10 = p / (10 ^ n * 10) := by
  lift p to Nat using hp
  norm_cast
  exact Nat.div_div_eq_div_mul _ _ _

/-- The state of the loop of `genpass` after its first `n` iterations. -/
theorem genpass_loop (p : Int) (hp : 0 ≤ p) (b0 : Int → Char) (n : Nat) :
    (loopN n (fun k (st : Int × (Int → Char)) =>
        (Int.tdiv st.1 ((chars.length : Nat) : Int),
          Function.update st.2 (7 - (k : Int))
            (chars_at (Int.tmod st.1 ((chars.length : Nat) : Int))))) (p, b0)).1 = p / 10 ^ n
    ∧ (∀ k : Nat, k < n →
        (loopN n (fun k (st : Int × (Int → Char)) =>
          (Int.tdiv st.1 ((chars.length : Nat) : Int),
            Function.update st.2 (7 - (k : Int))
              (chars_at (Int.tmod st.1 ((chars.length : Nat) : Int))))) (p, b0)).2 (7 - (k : Int))
          = chars_at (p / 10 ^ k % 10))
    ∧ (∀ j : Int, (∀ k : Nat, k < n → j ≠ 7 - (k : Int)) →
        (loopN n (fun k (st : Int × (Int → Char)) =>
          (Int.tdiv st.1 ((chars.length : Nat) : Int),
            Function.update st.2 (7 - (k : Int))
              (chars_at (Int.tmod st.1 ((chars.length : Nat) : Int))))) (p, b0)).2 j = b0 j) := by
  have hlen : ((chars.length : Nat) : Int) = 10 := by decide
  induction n with
  | zero =>
    refine ⟨?_, ?_, ?_⟩
    · rw [loopN_zero]
      simp
    · intro k hk
      omega
    · intro j _
      rw [loopN_zero]
  | succ n ih =>
    obtain ⟨ih1, ih2, ih3⟩ := ih
    have hq : 0 ≤ p / 10 ^ n := Int.ediv_nonneg hp (by positivity)
    rw [loopN_succ]
    refine ⟨?_, ?_, ?_⟩
    · simp only []
      rw [ih1, hlen, Int.tdiv_eq_ediv hq (by norm_num), pow_succ]
      exact ediv_ediv_pow p hp n
    · intro k hk
      simp only []
      by_cases hkn : k = n
      · subst hkn
        rw [Function.update_same, ih1, hlen, Int.tmod_eq_emod hq (by norm_num)]
      · rw [Function.update_noteq (by omega)]
        exact ih2 k (by omega)
    · intro j hj
      simp only []
      rw [Function.update_noteq (hj n (by omega))]
      exact ih3 j (fun k hk => hj k (by omega))

/-- The cells of `passbuff` after `genpass`. -/
theorem genpass_apply (p : Int) (hp : 0 ≤ p) (b : Int → Char) :
    genpass p b 8 = Char.ofNat 0
    ∧ ∀ k : Nat, k < 8 → genpass p b (7 - (k : Int)) = chars_at (p / 10 ^ k % 10) := by
  have h := genpass_loop p hp (Function.update b 8 (Char.ofNat 0)) 8
  have e : ∀ j, genpass p b j = (loopN 8 (fun k (st : Int × (Int → Char)) =>
        (Int.tdiv st.1 ((chars.length : Nat) : Int),
          Function.update st.2 (7 - (k : Int))
            (chars_at (Int.tmod st.1 ((chars.length : Nat) : Int)))))
        (p, Function.update b 8 (Char.ofNat 0))).2 j := fun j => rfl
  refine ⟨?_, ?_⟩
  · rw [e, h.2.2 8 (fun k hk => by omega), Function.update_same]
  · intro k hk
    rw [e]
    exact h.2.1 k hk

/-- Reading the eight characters written by `genpass` back as a decimal number. -/
theorem genpass_read_back (p : Int) (hp : 0 ≤ p) (hp1 : p ≤ 99999999) (b : Int → Char) :
    ∑ i ∈ Finset.range 8,
      (((genpass p b (i : Int)).toNat : Int) - 48) * 10 ^ (7 - i) = p := by
  have h := (genpass_apply p hp b).2
  have d : ∀ k : Nat, ((chars_at (p / 10 ^ k % 10)).toNat : Int) = 48 + p / 10 ^ k % 10 :=
    fun k => (chars_at_digit _ (Int.emod_nonneg _ (by norm_num))
      (Int.emod_lt_of_pos _ (by norm_num))).2
  have h0 := h 0 (by norm_num)
  have h1 := h 1 (by norm_num)
  have h2 := h 2 (by norm_num)
  have h3 := h 3 (by norm_num)
  have h4 := h 4 (by norm_num)
  have h5 := h 5 (by norm_num)
  have h6 := h 6 (by norm_num)
  have h7 := h 7 (by norm_num)
  norm_num at h0 h1 h2 h3 h4 h5 h6 h7
  have d0 := d 0
  have d1 := d 1
  have d2 := d 2
  have d3 := d 3
  have d4 := d 4
  have d5 := d 5
  have d6 := d 6
  have d7 := d 7
  norm_num at d0 d1 d2 d3 d4 d5 d6 d7
  simp only [Finset.sum_range_succ, Finset.sum_range_zero]
  norm_num
  rw [h0, h1, h2, h3, h4, h5, h6, h7, d0, d1, d2, d3, d4, d5, d6, d7]
  omega

/-- C18: for every `passnum` with `0 ≤ passnum ≤ 99999999`, `genpass` writes into
`passbuff[0..7]` the decimal digits of `passnum`, most significant first and zero-padded
to width 8, and NUL at `passbuff[8]`; reading the 8 characters back as a decimal number
returns `passnum`, so distinct PINs in that range give distinct strings. -/
theorem genpass_decimal (p : Int) (b : Int → Char) (hp0 : 0 ≤ p) (hp1 : p ≤ 99999999) :
    (∀ i : Nat, i < 8 →
      genpass p b (i : Int) = Char.ofNat (48 + (p / 10 ^ (7 - i) % 10).toNat))
    ∧ genpass p b 8 = Char.ofNat 0
    ∧ ∑ i ∈ Finset.range 8,
        (((genpass p b (i : Int)).toNat : Int) - 48) * 10 ^ (7 - i) = p
    ∧ ∀ (q : Int) (b2 : Int → Char), 0 ≤ q → q ≤ 99999999 →
        (∀ i : Nat, i < 8 → genpass p b (i : Int) = genpass q b2 (i : Int)) → p = q := by
  refine ⟨?_, (genpass_apply p hp0 b).1, genpass_read_back p hp0 hp1 b, ?_⟩
  · intro i hi
    have h := (genpass_apply p hp0 b).2 (7 - i) (by omega)
    have e : (7 : Int) - ((7 - i : Nat) : Int) = (i : Int) := by omega
    rw [e] at h
    rw [h]
    exact (chars_at_digit _ (Int.emod_nonneg _ (by norm_num))
      (Int.emod_lt_of_pos _ (by norm_num))).1
  · intro q b2 hq0 hq1 heq
    rw [← genpass_read_back p hp0 hp1 b, ← genpass_read_back q hq0 hq1 b2]
    apply Finset.sum_congr rfl
    intro i hi
    rw [heq i (Finset.mem_range.mp hi)]

/-- C18 at the PIN 42. -/
theorem genpass_decimal_witness :
    (0 : Int) ≤ 42 ∧ (42 : Int) ≤ 99999999
    ∧ genpass 42 (fun _ => Char.ofNat 120) 8 = Char.ofNat 0 :=
  ⟨by decide, by decide,
    (genpass_decimal 42 (fun _ => Char.ofNat 120) (by decide) (by decide)).2.1⟩

/-! ## The candidates visited by the three searches -/

/-- While no candidate matches, the body of the search loops records its candidate and
leaves `notfound` nonzero. -/
theorem search_body_tried (test : (Int → Char) → Int)
    (hno : ∀ i pm, test (genpass i pm) ≠ 0) (i : Int) (st : Search)
    (hst : st.notfound ≠ 0) :
    (search_body test i st).notfound ≠ 0
    ∧ (search_body test i st).tried = st.tried ++ [i] := by
  unfold search_body
  rw [if_pos hst]
  exact ⟨hno i st.passmatch, rfl⟩

/-- While no candidate matches, a counted loop of search bodies visits exactly the
candidates of its range. -/
theorem search_loop_tried (test : (Int → Char) → Int)
    (hno : ∀ i pm, test (genpass i pm) ≠ 0) (pre : Int → Search → Search)
    (hpre : ∀ i st, (pre i st).notfound = st.notfound ∧ (pre i st).tried = st.tried)
    (lo hi : Int) (st : Search) (hst : st.notfound ≠ 0) :
    (forRange lo hi (fun i st => search_body test i (pre i st)) st).notfound ≠ 0
    ∧ ∀ p, p ∈ (forRange lo hi (fun i st => search_body test i (pre i st)) st).tried
        ↔ p ∈ st.tried ∨ (lo ≤ p ∧ p < hi) := by
  unfold forRange
  have key : ∀ n : Nat, n ≤ (hi - lo).toNat →
      (loopN n (fun k st => search_body test (lo + (k : Int)) (pre (lo + (k : Int)) st))
        st).notfound ≠ 0
      ∧ ∀ p, p ∈ (loopN n (fun k st =>
          search_body test (lo + (k : Int)) (pre (lo + (k : Int)) st)) st).tried
        ↔ p ∈ st.tried ∨ (lo ≤ p ∧ p < lo + (n : Int)) := by
    intro n
    induction n with
    | zero =>
      intro _
      refine ⟨hst, fun p => ?_⟩
      rw [loopN_zero]
      constructor
      · intro h
        exact Or.inl h
      · rintro (h | h)
        · exact h
        · omega
    | succ m ih =>
      intro hm
      obtain ⟨h1, h2⟩ := ih (by omega)
      rw [loopN_succ]
      have hp := hpre (lo + (m : Int)) (loopN m (fun k st =>
        search_body test (lo + (k : Int)) (pre (lo + (k : Int)) st)) st)
      obtain ⟨b1, b2⟩ := search_body_tried test hno (lo + (m : Int)) _
        (by rw [hp.1]; exact h1)
      refine ⟨b1, fun p => ?_⟩
      rw [b2, hp.2, List.mem_append, h2 p, List.mem_singleton]
      push_cast
      constructor
      · rintro ((h | h) | h)
        · exact Or.inl h
        · exact Or.inr (by omega)
        · exact Or.inr (by omega)
      · rintro (h | h)
        · exact Or.inl (Or.inl h)
        · by_cases e : p = lo + (m : Int)
          · exact Or.inr e
          · exact Or.inl (Or.inr (by omega))
  obtain ⟨k1, k2⟩ := key _ (le_refl _)
  refine ⟨k1, fun p => ?_⟩
  rw [k2 p]
  have : lo ≤ p → (p < lo + (((hi - lo).toNat : Nat) : Int) ↔ p < hi) := by
    intro h
    omega
  constructor
  · rintro (h | h)
    · exact Or.inl h
    · exact Or.inr ⟨h.1, (this h.1).mp h.2⟩
  · rintro (h | h)
    · exact Or.inl h
    · exact Or.inr ⟨h.1, (this h.1).mpr h.2⟩

/-- While no candidate matches, the calls of `SpaceSearcher::operator()` on a list of
sub-ranges visit the candidates from the first to the last value of every sub-range,
both included. -/
theorem tbb_blocks_tried (test : (Int → Char) → Int)
    (hno : ∀ i pm, test (genpass i pm) ≠ 0) (pmem : Int → Char)
    (blocks : List (Int × Int)) (st : Search) (hst : st.notfound ≠ 0) :
    (blocks.foldl (fun st r => SpaceSearcher_call test pmem r st) st).notfound ≠ 0
    ∧ ∀ p, p ∈ (blocks.foldl (fun st r => SpaceSearcher_call test pmem r st) st).tried
        ↔ p ∈ st.tried ∨ ∃ b ∈ blocks, b.1 ≤ p ∧ p ≤ b.2 := by
  induction blocks generalizing st with
  | nil =>
    refine ⟨hst, fun p => ?_⟩
    simp
  | cons r rs ih =>
    have hcall := search_loop_tried test hno (fun _ st => st) (fun _ _ => ⟨rfl, rfl⟩)
      r.1 (r.2 + 1) { st with passmatch := pmem } hst
    have e : SpaceSearcher_call test pmem r st
        = forRange r.1 (r.2 + 1) (fun i st => search_body test i st)
            { st with passmatch := pmem } := rfl
    rw [← e] at hcall
    obtain ⟨c1, c2⟩ := hcall
    obtain ⟨i1, i2⟩ := ih (SpaceSearcher_call test pmem r st) c1
    rw [List.foldl_cons]
    refine ⟨i1, fun p => ?_⟩
    rw [i2 p, c2 p]
    simp only [List.mem_cons, exists_eq_or_imp]
    constructor
    · rintro ((h | h) | h)
      · exact Or.inl h
      · exact Or.inr (Or.inl ⟨h.1, by omega⟩)
      · exact Or.inr (Or.inr h)
    · rintro (h | h | h)
      · exact Or.inl (Or.inl h)
      · exact Or.inl (Or.inr ⟨h.1, by omega⟩)
      · exact Or.inr h

/-- The closed intervals of the blocks of a partition of `[lo, hi)`, `lo < hi`, cover
exactly `[lo, hi]`. -/
theorem contiguous_closed_cover (chain : List (Int × Int)) (lo hi : Int) (hlt : lo < hi)
    (hc : contiguous lo hi chain = true) (p : Int) :
    (∃ b ∈ chain, b.1 ≤ p ∧ p ≤ b.2) ↔ lo ≤ p ∧ p ≤ hi := by
  obtain ⟨_, hin, hcov, _⟩ := contiguous_spec (fun _ => (0 : ℚ)) chain lo hi hc
  constructor
  · rintro ⟨b, hb, h1, h2⟩
    have := hin b hb
    omega
  · rintro ⟨h1, h2⟩
    by_cases hp : p < hi
    · obtain ⟨b, hb, b1, b2⟩ := hcov p h1 hp
      exact ⟨b, hb, b1, by omega⟩
    · obtain ⟨b, hb, b1, b2⟩ := hcov (hi - 1) (by omega) (by omega)
      have := hin b hb
      exact ⟨b, hb, by omega, by omega⟩

/-- C24: absent a match, for every split of `blocked_range<long>(0, 99999999)` into
half-open sub-ranges `[b, e)` (contiguous blocks partitioning the range, handed to
`SpaceSearcher::operator()` in any order), the candidates that the TBB search passes to
`genpass`, iterating `i` from `b` to `e` inclusive, are exactly `0, ..., 99999999`, and
so are the candidates of the loops `currpass = 0; currpass <= SEARCH_SPACE` of
`cilk_pass.c` and `mp_pass.c`: the three searches visit the same candidate set. -/
theorem tbb_search_same_candidates (test : (Int → Char) → Int) (pmem : Int → Char)
    (blocks chain : List (Int × Int)) (hno : ∀ i pm, test (genpass i pm) ≠ 0)
    (hchain : contiguous 0 SEARCH_SPACE chain = true) (hperm : blocks.Perm chain) :
    (∀ p, p ∈ (tbb_search test pmem blocks).tried ↔ 0 ≤ p ∧ p ≤ 99999999)
    ∧ (∀ p, p ∈ (cilk_search test pmem).tried ↔ 0 ≤ p ∧ p ≤ 99999999)
    ∧ (∀ p, p ∈ (mp_search test pmem).tried ↔ 0 ≤ p ∧ p ≤ 99999999)
    ∧ (∀ p, (p ∈ (tbb_search test pmem blocks).tried ↔ p ∈ (cilk_search test pmem).tried)
        ∧ (p ∈ (tbb_search test pmem blocks).tried ↔ p ∈ (mp_search test pmem).tried)) := by
  have hS : SEARCH_SPACE = 99999999 := rfl
  have htbb : ∀ p, p ∈ (tbb_search test pmem blocks).tried ↔ 0 ≤ p ∧ p ≤ 99999999 := by
    intro p
    unfold tbb_search
    rw [(tbb_blocks_tried test hno pmem blocks _ one_ne_zero).2 p]
    simp only [List.not_mem_nil, false_or]
    rw [← contiguous_closed_cover chain 0 99999999 (by decide) (hS ▸ hchain) p]
    constructor
    · rintro ⟨b, hb, h⟩
      exact ⟨b, hperm.mem_iff.mp hb, h⟩
    · rintro ⟨b, hb, h⟩
      exact ⟨b, hperm.mem_iff.mpr hb, h⟩
  have hcilk : ∀ p, p ∈ (cilk_search test pmem).tried ↔ 0 ≤ p ∧ p ≤ 99999999 := by
    intro p
    unfold cilk_search
    rw [(search_loop_tried test hno (fun _ st => { st with passmatch := pmem })
      (fun _ _ => ⟨rfl, rfl⟩) 0 (SEARCH_SPACE + 1) _ one_ne_zero).2 p, hS]
    simp only [List.not_mem_nil, false_or]
    omega
  have hmp : ∀ p, p ∈ (mp_search test pmem).tried ↔ 0 ≤ p ∧ p ≤ 99999999 := by
    intro p
    unfold mp_search
    rw [(search_loop_tried test hno (fun _ st => st) (fun _ _ => ⟨rfl, rfl⟩) 0
      (SEARCH_SPACE + 1) _ one_ne_zero).2 p, hS]
    simp only [List.not_mem_nil, false_or]
    omega
  exact ⟨htbb, hcilk, hmp,
    fun p => ⟨(htbb p).trans (hcilk p).symm, (htbb p).trans (hmp p).symm⟩⟩

/-- C24 for the split into `[0, 50000000)` and `[50000000, 99999999)`, the second half
searched first, with a `test` that never matches: the last PIN 99999999 is visited. -/
theorem tbb_search_same_candidates_witness :
    contiguous 0 SEARCH_SPACE [(0, 50000000), (50000000, 99999999)] = true
    ∧ (99999999 : Int) ∈ (tbb_search (fun _ => 1) (fun _ => Char.ofNat 0)
        [(50000000, 99999999), (0, 50000000)]).tried :=
  ⟨by decide,
    ((tbb_search_same_candidates (fun _ => 1) (fun _ => Char.ofNat 0)
      [(50000000, 99999999), (0, 50000000)] [(0, 50000000), (50000000, 99999999)]
      (fun _ _ => one_ne_zero) (by decide)
      (List.Perm.swap (0, 50000000) (50000000, 99999999) [])).1 99999999).mpr
      ⟨by decide, by decide⟩⟩

end Pass
